import Mathlib

/-!
# GroupedHybridCall.h: hybrid rewriting and grouped evaluation

A shallow embedding of `inst/include/dplyr/Result/GroupedHybridCall.h`:

* `GroupedHybridCall` rewrites a clone of its stored call, replacing nodes for
  which `get_handler` finds a hybrid handler by the handler's result, until a
  pass replaces nothing;
* `GroupedHybridEnv` lazily builds the environment pair in which the residual
  expression is evaluated, and strips it again on destruction;
* `GroupedHybridEval` runs both for one group (`SlicingIndex`) at a time.

R objects are cons cells as in R itself (`CAR`, `CDR`, `TYPEOF`, `SETCAR`).
In-place mutation of the cloned call is rendered by returning the updated
cell. Calls that leave the file (`get_handler`, `Result::process`,
`ILazySubsets::get`, `Rcpp_eval`, the environment calls) are recorded, in
order, as `Event`s, so that "is (not) called" is a statement about a list.
-/

namespace dplyr

/-! ## R objects -/

/-- Name of a variable (`SymbolString` in the source). -/
abbrev SymbolString := String

/-- Payload of an R object that is neither a symbol nor a cons cell: the
rewriter and the evaluator pass such an object around without looking into it. -/
abbrev Value := List Int

/-- What a C++ exception (an R error surfaced by Rcpp) carries. -/
abbrev Error := String

/-- Handle of an R environment. -/
abbrev EnvId := Nat

/-- Modelled from the spec: `SlicingIndex` (declared outside this header), "an
immutable, opaque identifier for one group's row subset". -/
structure SlicingIndex where
  rows : List Nat
deriving DecidableEq, Repr

/-- The values of `TYPEOF` the header distinguishes; `VECSXP` stands for every
type other than the four named ones. -/
inductive SEXPTYPE
  | NILSXP
  | SYMSXP
  | LISTSXP
  | LANGSXP
  | VECSXP
deriving DecidableEq, Repr

/-- The two types of cons cell: a cell of an argument list (`LISTSXP`) and the
first cell of a call (`LANGSXP`). -/
inductive CellType
  | LISTSXP
  | LANGSXP
deriving DecidableEq, Repr

/-- An R object as the header sees it. A call `f(a, b)` is the `LANGSXP` cell
`cell LANGSXP f (cell LISTSXP a (cell LISTSXP b R_NilValue))`. The `TAG` of a
cell (the argument name) is never read by the header and is left out. -/
inductive SEXP
  | R_NilValue
  | symbol (name : SymbolString)
  | vector (v : Value)
  | cell (type : CellType) (car cdr : SEXP)
deriving DecidableEq, Repr

/-- The `TYPEOF` of R. -/
def TYPEOF : SEXP → SEXPTYPE
  | .R_NilValue => .NILSXP
  | .symbol _ => .SYMSXP
  | .vector _ => .VECSXP
  | .cell .LISTSXP _ _ => .LISTSXP
  | .cell .LANGSXP _ _ => .LANGSXP

/-- The `CAR` of R. `CAR(R_NilValue)` is `R_NilValue`. R does not define `CAR`
of a symbol or a vector; the model reads `R_NilValue` there, and the header
only gets there on an improper list (a `CDR` that is neither a cell nor
`R_NilValue`). -/
def CAR : SEXP → SEXP
  | .cell _ car _ => car
  | _ => .R_NilValue

/-- The `CDR` of R, with the same convention as `CAR`. -/
def CDR : SEXP → SEXP
  | .cell _ _ cdr => cdr
  | _ => .R_NilValue

/-- The cell `p` after `SETCAR(p, value)`. -/
def SETCAR (p value : SEXP) : SEXP :=
  match p with
  | .cell type _ cdr => .cell type value cdr
  | other => other

/-- The cell `p` after its `CDR` was rewritten in place to `value`. -/
def SETCDR (p value : SEXP) : SEXP :=
  match p with
  | .cell type car _ => .cell type car value
  | other => other

/-- The `clone` of Rcpp (`Rf_duplicate`) on values: a deep copy reads as the
same value as its argument. That the copy shares no cell with its argument is
a matter of addresses, which `Memory.clone` below renders. -/
def clone (x : SEXP) : SEXP := x

/-! ## Collaborators outside the header -/

/-- Modelled from the spec: `Result` (declared in `dplyr/Result/Result.h`,
which is outside this header), the spec's HandlerResult: "an object capable of
`compute(index) -> value`"; the value replaces a subtree "by a literal", so it
is a `Value`, and computing it may fail. -/
structure Result where
  process : SlicingIndex → Except Error Value

/-- Whether the lookup found no handler can be decided. -/
instance decidable_no_handler (o : Option Result) : Decidable (o = none) :=
  Option.decidable_eq_none

/-- An R environment: its enclosing environment, the names bound as lazy
(active) bindings, and the ordinary bindings to other environments. -/
structure REnv where
  parent : Option EnvId
  active : List SymbolString
  vars : List (String × EnvId)
deriving DecidableEq, Repr

/-- The generic evaluator at work on one expression: it either finishes, with
a value or an error, leaving the environments of the session as `envs` (R code
can bind and unbind names in any environment it reaches), or reads one lazy
binding of the active environment and goes on with what the binding yields. -/
inductive Eval
  | done (res : Except Error SEXP) (envs : List REnv)
  | read (name : SymbolString) (k : Value → Eval)

/-- The collaborators the header calls but does not define, for one
`GroupedHybridEval`: `get_handler(_, subsets, env)`, `subsets.get`,
`subsets.get_variable_names()`, `Rcpp_eval` and the two functions of rlang.
The lookup is a function of the node, as the specification requires of it;
what `Rcpp_eval` does is a function of the expression, of the environment it
is handed, of the environments of the session as it finds them, and of what
the lazy bindings yield when it reads them. -/
structure Host where
  get_handler : SEXP → Option Result
  subsets_get : SymbolString → SlicingIndex → Value
  variable_names : List SymbolString
  Rcpp_eval : SEXP → EnvId → List REnv → Eval
  dyn_scope_install : List REnv → EnvId → EnvId → EnvId → List REnv × EnvId
  dyn_scope_clean : List REnv → EnvId → List REnv

/-- A call out of the header. -/
inductive Event
  | get_handler (node : SEXP)
  | process (node : SEXP) (indices : SlicingIndex)
  | subsets_get (name : SymbolString) (indices : SlicingIndex)
  | Rcpp_eval (call : SEXP) (env : EnvId)
  | create_env_string (names : List SymbolString) (parent : EnvId)
  | new_child (parent : EnvId)
  | dyn_scope_install (bottom top enclosure : EnvId)
  | remove (names : List SymbolString) (target : EnvId)
  | dyn_scope_clean (env : EnvId)
deriving DecidableEq, Repr

/-- How a member function ends: it returns, it throws, it dereferences the
`indices` pointer while that is `NULL`, or (for the rewriting loop run with a
bound on its passes) it is still running when the bound is reached. -/
inductive Outcome (α : Type)
  | returned (a : α)
  | thrown (err : Error)
  | null_indices
  | unfinished
deriving DecidableEq, Repr

/-- The outcome with the returned value changed by `f`. -/
def Outcome.map {α β : Type} (f : α → β) : Outcome α → Outcome β
  | .returned a => .returned (f a)
  | .thrown e => .thrown e
  | .null_indices => .null_indices
  | .unfinished => .unfinished

/-! ## GroupedHybridCall -/

/-- The `replace` of `GroupedHybridCall` on the cell `p`, with `indices` the
member of that name. It returns the calls it made and how it ended;
`returned (b, q)`: the C++ function returned `b` and the cell `p` is now `q`. -/
def replace (H : Host) (indices : Option SlicingIndex) :
    SEXP → List Event × Outcome (Bool × SEXP)
  | .cell type (.cell .LANGSXP f args) rest =>
    match H.get_handler (.cell .LANGSXP f args) with
    | some res =>
      match indices with
      | none => ([.get_handler (.cell .LANGSXP f args)], .null_indices)
      | some i =>
        ([.get_handler (.cell .LANGSXP f args), .process (.cell .LANGSXP f args) i],
          match res.process i with
          | .ok v => .returned (true, .cell type (.vector v) rest)
          | .error e => .thrown e)
    | none =>
      match replace H indices args with
      | (t, .returned (false, args1)) =>
        if type = .LISTSXP then
          (.get_handler (.cell .LANGSXP f args) :: (t ++ (replace H indices rest).1),
            (replace H indices rest).2.map
              (fun r => (r.1, .cell type (.cell .LANGSXP f args1) r.2)))
        else
          (.get_handler (.cell .LANGSXP f args) :: t,
            .returned (false, .cell type (.cell .LANGSXP f args1) rest))
      | (t, r) =>
        (.get_handler (.cell .LANGSXP f args) :: t,
          r.map (fun r => (r.1, .cell type (.cell .LANGSXP f r.2) rest)))
  | .cell type obj rest =>
    if type = .LISTSXP then
      ((replace H indices rest).1,
        (replace H indices rest).2.map (fun r => (r.1, .cell type obj r.2)))
    else
      ([], .returned (false, .cell type obj rest))
  | p => ([], .returned (false, p))

/-- The `simplified` of `GroupedHybridCall`: one pass over `call`. -/
def simplified (H : Host) (indices : Option SlicingIndex) (call : SEXP) :
    List Event × Outcome (Bool × SEXP) :=
  if TYPEOF call = .LANGSXP ∨ TYPEOF call = .SYMSXP then
    match H.get_handler call with
    | some res =>
      match indices with
      | none => ([.get_handler call], .null_indices)
      | some i =>
        ([.get_handler call, .process call i],
          match res.process i with
          | .ok v => .returned (true, .vector v)
          | .error e => .thrown e)
    | none =>
      if TYPEOF call = .LANGSXP then
        (.get_handler call :: (replace H indices (CDR call)).1,
          (replace H indices (CDR call)).2.map (fun r => (r.1, SETCDR call r.2)))
      else
        ([.get_handler call], .returned (false, call))
  else
    ([], .returned (false, call))

/-- The loop `while (simplified(call)) {}` of `simplify`, run for at most
`fuel` passes: `unfinished` when the last of them still replaced a node. -/
def simplify_loop (H : Host) (indices : Option SlicingIndex) :
    Nat → SEXP → List Event × Outcome SEXP
  | 0, _ => ([], .unfinished)
  | fuel + 1, call =>
    match simplified H indices call with
    | (t, .returned (true, call1)) =>
      (t ++ (simplify_loop H indices fuel call1).1, (simplify_loop H indices fuel call1).2)
    | (t, .returned (false, call1)) => (t, .returned call1)
    | (t, .thrown e) => (t, .thrown e)
    | (t, .null_indices) => (t, .null_indices)
    | (t, .unfinished) => (t, .unfinished)

/-- The members of `GroupedHybridCall` that matter here (`subsets` and `env`
are arguments of `get_handler` only and live in the `Host`). -/
structure GroupedHybridCall where
  original_call : SEXP
  indices : Option SlicingIndex
deriving DecidableEq, Repr

namespace GroupedHybridCall

/-- The member function `get_indices`: the pointer `indices`, to be dereferenced. -/
def get_indices (self : GroupedHybridCall) : Option SlicingIndex := self.indices

/-- The member function `set_indices`. -/
def set_indices (self : GroupedHybridCall) (indices_ : SlicingIndex) : GroupedHybridCall :=
  { self with indices := some indices_ }

/-- The member function `clear_indices`. -/
def clear_indices (self : GroupedHybridCall) : GroupedHybridCall :=
  { self with indices := none }

/-- The member function `simplify`, its loop run for at most `fuel` passes:
the calls made, how it ended, and the object afterwards. An exception leaves
the function before `clear_indices()`. -/
def simplify (H : Host) (fuel : Nat) (self : GroupedHybridCall) (indices_ : SlicingIndex) :
    List Event × Outcome SEXP × GroupedHybridCall :=
  match simplify_loop H (self.set_indices indices_).get_indices fuel
      (clone (self.set_indices indices_).original_call) with
  | (t, .returned call) => (t, .returned call, (self.set_indices indices_).clear_indices)
  | (t, r) => (t, r, self.set_indices indices_)

end GroupedHybridCall

/-! ## GroupedHybridEnv -/

/-- The R session as far as the header touches it: the environments, and the
calls made out of the header so far. -/
structure World where
  envs : List REnv
  trace : List Event
deriving DecidableEq, Repr

/-- What a default-constructed `Environment` of Rcpp refers to. -/
def R_GlobalEnv : EnvId := 0

/-- The `create_env_string` of bindrcpp: a new environment enclosed by
`parent` with one lazy (active) binding per name, each of which calls
`hybrid_get_callback` with the payload when it is read. -/
def create_env_string (envs : List REnv) (names : List SymbolString) (parent : EnvId) :
    List REnv × EnvId :=
  (envs ++ [{ parent := some parent, active := names, vars := [] }], envs.length)

/-- The `Environment::new_child` of Rcpp: a new, empty environment enclosed by
`parent`. -/
def new_child (envs : List REnv) (parent : EnvId) : List REnv × EnvId :=
  (envs ++ [{ parent := some parent, active := [], vars := [] }], envs.length)

/-- The environments after `target[name] = value`. -/
def assign (envs : List REnv) (target : EnvId) (name : String) (value : EnvId) : List REnv :=
  match envs[target]? with
  | some e => envs.set target { e with vars := (name, value) :: e.vars }
  | none => envs

/-- The `Environment::parent` of Rcpp; an environment without one (or an
unknown handle) yields itself. -/
def env_parent (envs : List REnv) (e : EnvId) : EnvId :=
  match envs[e]? with
  | some r => r.parent.getD e
  | none => e

/-- The members of `GroupedHybridEnv` (`callback` is the owning
`GroupedHybridEval`, which the lazy bindings reach through the payload). -/
structure GroupedHybridEnv where
  names : List SymbolString
  env : EnvId
  eval_env : EnvId
  has_eval_env : Bool
deriving DecidableEq, Repr

namespace GroupedHybridEnv

/-- The constructor. -/
def construct (names_ : List SymbolString) (env_ : EnvId) : GroupedHybridEnv :=
  { names := names_, env := env_, eval_env := R_GlobalEnv, has_eval_env := false }

/-- The member function `provide_eval_env`. -/
def provide_eval_env (H : Host) (self : GroupedHybridEnv) (w : World) :
    GroupedHybridEnv × World :=
  if self.has_eval_env then (self, w)
  else
    let active := create_env_string w.envs self.names self.env
    let child := new_child active.1 active.2
    let installed :=
      H.dyn_scope_install (assign child.1 child.2 ".data" active.2) child.2 active.2 self.env
    ({ self with eval_env := installed.2, has_eval_env := true },
      { envs := installed.1,
        trace := w.trace ++ [.create_env_string self.names self.env, .new_child active.2,
          .dyn_scope_install child.2 active.2 self.env] })

/-- The member function `get_eval_env`: the object and the session afterwards;
the environment returned is `eval_env` of that object. -/
def get_eval_env (H : Host) (self : GroupedHybridEnv) (w : World) : GroupedHybridEnv × World :=
  provide_eval_env H self w

/-- The static member function `remove_all_from_env`, which evaluates
`.Internal(remove(names, active_env, FALSE))`. -/
def remove_all_from_env (names : List SymbolString) (active_env : EnvId) (w : World) : World :=
  { envs :=
      match w.envs[active_env]? with
      | some e =>
        w.envs.set active_env
          { e with active := e.active.filter (fun n => !names.contains n),
                   vars := e.vars.filter (fun b => !names.contains b.1) }
      | none => w.envs,
    trace := w.trace ++ [.remove names active_env] }

/-- The member function `cleanup_eval_env`, which is all the destructor runs. -/
def cleanup_eval_env (H : Host) (self : GroupedHybridEnv) (w : World) : World :=
  if !self.has_eval_env then w
  else
    let active_env := env_parent w.envs (env_parent w.envs self.eval_env)
    let w1 := remove_all_from_env self.names active_env w
    { envs := H.dyn_scope_clean w1.envs self.eval_env,
      trace := w1.trace ++ [.dyn_scope_clean self.eval_env] }

end GroupedHybridEnv

/-! ## GroupedHybridEval -/

/-- The members of `GroupedHybridEval` (`subsets` lives in the `Host`). -/
structure GroupedHybridEval where
  indices : Option SlicingIndex
  env : EnvId
  hybrid_env : GroupedHybridEnv
  hybrid_call : GroupedHybridCall
deriving DecidableEq, Repr

namespace GroupedHybridEval

/-- The constructor. `GroupedHybridCall` does not initialise its `indices`
member: `stale` is what that pointer happens to hold. -/
def construct (H : Host) (call_ : SEXP) (env_ : EnvId) (stale : Option SlicingIndex) :
    GroupedHybridEval :=
  { indices := none, env := env_,
    hybrid_env := GroupedHybridEnv.construct H.variable_names env_,
    hybrid_call := { original_call := call_, indices := stale } }

/-- The member function `get_indices`: the pointer `indices`, to be dereferenced. -/
def get_indices (self : GroupedHybridEval) : Option SlicingIndex := self.indices

/-- The member function `set_indices`. -/
def set_indices (self : GroupedHybridEval) (indices_ : SlicingIndex) : GroupedHybridEval :=
  { self with indices := some indices_ }

/-- The member function `clear_indices`. -/
def clear_indices (self : GroupedHybridEval) : GroupedHybridEval :=
  { self with indices := none }

/-- The member function `get_subset`, which `hybrid_get_callback` calls when a
lazy binding is read: the call made and the value. -/
def get_subset (H : Host) (self : GroupedHybridEval) (name : SymbolString) :
    List Event × Outcome Value :=
  match self.get_indices with
  | some i => ([.subsets_get name i], .returned (H.subsets_get name i))
  | none => ([], .null_indices)

/-- The generic evaluator, started in a session with the environments `envs`,
run to its end, every read of a lazy binding answered by `get_subset`: the
calls made, the result, and the environments it leaves. -/
def run_eval (H : Host) (self : GroupedHybridEval) (envs : List REnv) :
    Eval → List Event × Outcome SEXP × List REnv
  | .done (.ok value) left => ([], .returned value, left)
  | .done (.error e) left => ([], .thrown e, left)
  | .read name k =>
    match get_subset H self name with
    | (t, .returned v) =>
      (t ++ (run_eval H self envs (k v)).1, (run_eval H self envs (k v)).2)
    | (t, .thrown e) => (t, .thrown e, envs)
    | (t, .null_indices) => (t, .null_indices, envs)
    | (t, .unfinished) => (t, .unfinished, envs)

/-- The member function `eval_with_indices`. -/
def eval_with_indices (H : Host) (fuel : Nat) (self : GroupedHybridEval) (w : World) :
    Outcome SEXP × GroupedHybridEval × World :=
  match self.get_indices with
  | none => (.null_indices, self, w)
  | some i =>
    match self.hybrid_call.simplify H fuel i with
    | (t, .returned call, hc) =>
      if TYPEOF call = .LANGSXP ∨ TYPEOF call = .SYMSXP then
        let scope := self.hybrid_env.get_eval_env H { w with trace := w.trace ++ t }
        let self1 := { self with hybrid_call := hc, hybrid_env := scope.1 }
        let run := run_eval H self1 scope.2.envs
          (H.Rcpp_eval call scope.1.eval_env scope.2.envs)
        (run.2.1, self1,
          { envs := run.2.2,
            trace := scope.2.trace ++ .Rcpp_eval call scope.1.eval_env :: run.1 })
      else
        (.returned call, { self with hybrid_call := hc }, { w with trace := w.trace ++ t })
    | (t, r, hc) => (r, { self with hybrid_call := hc }, { w with trace := w.trace ++ t })

/-- The member function `eval`. An exception leaves it before
`clear_indices()`. -/
def eval (H : Host) (fuel : Nat) (self : GroupedHybridEval) (indices_ : SlicingIndex)
    (w : World) : Outcome SEXP × GroupedHybridEval × World :=
  match eval_with_indices H fuel (self.set_indices indices_) w with
  | (.returned ret, self1, w1) => (.returned ret, self1.clear_indices, w1)
  | (r, self1, w1) => (r, self1, w1)

end GroupedHybridEval

/-! ## Examples -/

/-- The call `fn(args...)` as cons cells. -/
def mkCall (fn : SEXP) (args : List SEXP) : SEXP :=
  .cell .LANGSXP fn (args.foldr (fun a rest => .cell .LISTSXP a rest) .R_NilValue)

/-- The rows `i` of the column `x`, which holds 1, 2, 3, 4. -/
def column_x (i : SlicingIndex) : Value := i.rows.map (fun r => [1, 2, 3, 4].getD r (0 : Int))

/-- The handler of `sum(x)`: the sum of `x` over the rows of the group. -/
def sum_handler : Result := ⟨fun i => .ok [(column_x i).sum]⟩

/-- The handler of `boom()`, which fails. -/
def boom_handler : Result := ⟨fun _ => .error "boom failed"⟩

/-- A host with the handlers of `sum(x)` and of `boom()` and the one variable
`x`, whose generic evaluator can evaluate the symbol `x` and nothing else. -/
def sumHost : Host where
  get_handler node :=
    if node = mkCall (.symbol "sum") [.symbol "x"] then some sum_handler
    else if node = mkCall (.symbol "boom") [] then some boom_handler
    else none
  subsets_get name i := if name = "x" then column_x i else []
  variable_names := ["x"]
  Rcpp_eval call _ envs :=
    if call = .symbol "x" then .read "x" (fun v => .done (.ok (.vector v)) envs)
    else .done (.error "could not evaluate") envs
  dyn_scope_install envs bottom _ _ := (envs ++ [⟨some bottom, [], []⟩], envs.length)
  dyn_scope_clean envs _ := envs

/-- The call `sum(x)`. -/
def sum_x : SEXP := mkCall (.symbol "sum") [.symbol "x"]

/-- The call `boom()`, whose handler fails. -/
def boom : SEXP := mkCall (.symbol "boom") []

/-- The call `f(x) + 1`: no node of it has a handler in `sumHost`. -/
def f_x_plus_1 : SEXP := mkCall (.symbol "+") [mkCall (.symbol "f") [.symbol "x"], .vector [1]]

/-- The call `f(g(sum(x)), sum(x))`. -/
def nested : SEXP :=
  mkCall (.symbol "f") [mkCall (.symbol "g") [sum_x], sum_x]

/-- The group of the rows 0, 1 and 2. -/
def rows012 : SlicingIndex := ⟨[0, 1, 2]⟩

/-- The group of the row 3. -/
def rows3 : SlicingIndex := ⟨[3]⟩

/-- A session that holds the global environment only. -/
def session0 : World := { envs := [{ parent := none, active := [], vars := [] }], trace := [] }

/-! ## Measures and positions -/

/-- The number of call nodes `replace` can reach from the cell `p`: the calls
in argument position, and those in the argument lists of such calls. -/
def scan_count : SEXP → Nat
  | .cell type (.cell .LANGSXP _ args) rest =>
    1 + scan_count args + (if type = .LISTSXP then scan_count rest else 0)
  | .cell type _ rest => if type = .LISTSXP then scan_count rest else 0
  | _ => 0

/-- The number of nodes of `call` that `simplified` can still replace: the
root when it is a call or a symbol, and the calls `replace` can reach. -/
def rank (call : SEXP) : Nat :=
  match call with
  | .cell .LANGSXP _ args => 1 + scan_count args
  | .symbol _ => 1
  | _ => 0

/-- A step from one cell of an argument list to another: `into` the argument
list of the call held by the cell, or on to the `next` cell of the list. -/
inductive Move
  | into
  | next
deriving DecidableEq, Repr

/-- The call nodes in argument position below the cell `p`, each with the way
to its cell, in the order left to right and outer before inner. -/
def scan : SEXP → List (List Move × SEXP)
  | .cell type (.cell .LANGSXP f args) rest =>
    ([], .cell .LANGSXP f args) :: (scan args).map (fun x => (Move.into :: x.1, x.2))
      ++ (if type = .LISTSXP then (scan rest).map (fun x => (Move.next :: x.1, x.2)) else [])
  | .cell type _ rest =>
    if type = .LISTSXP then (scan rest).map (fun x => (Move.next :: x.1, x.2)) else []
  | _ => []

/-- The cell `p` with the node held by the cell at the end of `way` replaced
by `value`, and nothing else changed. -/
def put (value : SEXP) : List Move → SEXP → SEXP
  | [], .cell type _ rest => .cell type value rest
  | .into :: way, .cell type (.cell inner f args) rest =>
    .cell type (.cell inner f (put value way args)) rest
  | .next :: way, .cell type obj rest => .cell type obj (put value way rest)
  | _, p => p

/-- The first call node of the scan for which the lookup finds a handler. -/
def first_match (H : Host) (p : SEXP) : Option (List Move × SEXP) :=
  (scan p).find? (fun x => (H.get_handler x.2).isSome)

/-- One rewriting step below the cell `p` as the specification words it: the
first call node of the scan with a handler is replaced by what the handler
computes, every other node stays, and nothing is replaced ("not simplified")
when there is no such node. -/
def leftmost_outermost_step (H : Host) (i : SlicingIndex) (p : SEXP) : Outcome (Bool × SEXP) :=
  match first_match H p with
  | none => .returned (false, p)
  | some (way, node) =>
    match H.get_handler node with
    | none => .returned (false, p)
    | some res =>
      match res.process i with
      | .ok v => .returned (true, put (.vector v) way p)
      | .error e => .thrown e

/-! ## Subterms and the generic evaluator fed by a lookup -/

/-- Every object below `x`, itself included. -/
def subterms : SEXP → List SEXP
  | .cell type car cdr => .cell type car cdr :: (subterms car ++ subterms cdr)
  | x => [x]

/-- What the generic evaluator ends with when every lazy binding `name` it
reads yields `lookup name`. -/
def feed (lookup : SymbolString → Value) : Eval → Except Error SEXP
  | .done res _ => res
  | .read name k => feed lookup (k (lookup name))

/-- The environments the generic evaluator leaves when every lazy binding
`name` it reads yields `lookup name`. -/
def leaves (lookup : SymbolString → Value) : Eval → List REnv
  | .done _ envs => envs
  | .read name k => leaves lookup (k (lookup name))

/-- The names of the lazy bindings the generic evaluator reads, in order, when
every binding `name` yields `lookup name`. -/
def reads (lookup : SymbolString → Value) : Eval → List SymbolString
  | .done _ _ => []
  | .read name k => name :: reads lookup (k (lookup name))

/-- An `Except` as the outcome of a function that returns or throws. -/
def Outcome.ofExcept {α : Type} : Except Error α → Outcome α
  | .ok a => .returned a
  | .error e => .thrown e

/-- One `GroupedHybridEval` evaluating the groups of `groups` one after the
other, whatever each evaluation ends with: the object and the session
afterwards. -/
def eval_groups (H : Host) (fuel : Nat) :
    List SlicingIndex → GroupedHybridEval → World → GroupedHybridEval × World
  | [], self, w => (self, w)
  | i :: groups, self, w =>
    eval_groups H fuel groups (GroupedHybridEval.eval H fuel self i w).2.1
      (GroupedHybridEval.eval H fuel self i w).2.2

/-! ## What `eval` makes of a group -/

/-- Whether the call out of the header is one the rewriter makes: a lookup
of a handler or a handler's `process`. -/
def Event.of_rewriter : Event → Bool
  | .get_handler _ => true
  | .process _ _ => true
  | _ => false

/-- Whether `x` is a call or a symbol, the test of `simplified` and of
`eval_with_indices`. -/
def is_code (x : SEXP) : Bool := TYPEOF x = .LANGSXP || TYPEOF x = .SYMSXP

/-- The number of nodes of `call` for which one pass of `simplified` would find
a handler if it got to them: the root when it is a call or a symbol with a
handler, and the call nodes of the scan with a handler. -/
def eligible_count (H : Host) (call : SEXP) : Nat :=
  (if is_code call && (H.get_handler call).isSome then 1 else 0) +
    (if TYPEOF call = .LANGSXP then
      ((scan (CDR call)).filter (fun x => (H.get_handler x.2).isSome)).length
    else 0)

/-- The number of cells of the list `p`. -/
def arg_count : SEXP → Nat
  | .cell _ _ rest => 1 + arg_count rest
  | _ => 0

/-- The argument list `q` is the argument list `p` with some call nodes in
argument position replaced by vectors: cell by cell the type is the same and
the node held is the same (`keep`), or was a call and is now a vector
(`value`), or is the same call, with the same head, over an argument list
related in the same way (`inside`). -/
inductive ArgsRewritten : SEXP → SEXP → Prop
  | same (p : SEXP) : ArgsRewritten p p
  | keep (type : CellType) (obj rest rest1 : SEXP) :
    ArgsRewritten rest rest1 → ArgsRewritten (.cell type obj rest) (.cell type obj rest1)
  | value (type : CellType) (f args rest rest1 : SEXP) (v : Value) :
    ArgsRewritten rest rest1 →
      ArgsRewritten (.cell type (.cell .LANGSXP f args) rest) (.cell type (.vector v) rest1)
  | inside (type : CellType) (f args args1 rest rest1 : SEXP) :
    ArgsRewritten args args1 → ArgsRewritten rest rest1 →
      ArgsRewritten (.cell type (.cell .LANGSXP f args) rest)
        (.cell type (.cell .LANGSXP f args1) rest1)

/-- The expression `res` is the expression `orig` rewritten: a vector for the
whole of a call or symbol (`whole`), the same call with the same head over a
rewritten argument list (`args`), or `orig` itself (`same`). -/
inductive Rewritten : SEXP → SEXP → Prop
  | whole (orig : SEXP) (v : Value) : is_code orig = true → Rewritten orig (.vector v)
  | args (f args args1 : SEXP) :
    ArgsRewritten args args1 → Rewritten (.cell .LANGSXP f args) (.cell .LANGSXP f args1)
  | same (orig : SEXP) : Rewritten orig orig

/-- The install function hands back an environment enclosed by the one it was
given as `bottom`, and leaves the enclosing environment of `bottom` alone. -/
def install_returns_child (H : Host) : Prop :=
  ∀ envs bottom top enclosure, bottom < envs.length →
    env_parent (H.dyn_scope_install envs bottom top enclosure).1
        (H.dyn_scope_install envs bottom top enclosure).2 = bottom ∧
      env_parent (H.dyn_scope_install envs bottom top enclosure).1 bottom
        = env_parent envs bottom

/-! ## More examples -/

/-- The call `g(x)`. -/
def g_x : SEXP := mkCall (.symbol "g") [.symbol "x"]

/-- The call `top(f(g(x)))`. -/
def top_f_g_x : SEXP := mkCall (.symbol "top") [mkCall (.symbol "f") [g_x]]

/-- A host in which `g(x)` has a handler, computing 6, and `f(6)` has one,
computing 7, while `f(g(x))` has none: the handler of `f` wants a number
for its argument. -/
def exposeHost : Host where
  get_handler node :=
    if node = g_x then some ⟨fun _ => .ok [6]⟩
    else if node = mkCall (.symbol "f") [.vector [6]] then some ⟨fun _ => .ok [7]⟩
    else none
  subsets_get _ _ := []
  variable_names := ["x"]
  Rcpp_eval _ _ envs := .done (.error "could not evaluate") envs
  dyn_scope_install envs bottom _ _ := (envs ++ [⟨some bottom, [], []⟩], envs.length)
  dyn_scope_clean envs _ := envs

/-- A host like `sumHost` whose install function sets up the environment it
is given and hands that same environment back. -/
def flatHost : Host where
  get_handler := sumHost.get_handler
  subsets_get := sumHost.subsets_get
  variable_names := ["x"]
  Rcpp_eval := sumHost.Rcpp_eval
  dyn_scope_install envs bottom _ _ := (envs, bottom)
  dyn_scope_clean envs _ := envs

/-- A host with a handler for `sum(x)` and one for the symbol `x`. -/
def eagerHost : Host where
  get_handler node :=
    if node = sum_x then some sum_handler
    else if node = .symbol "x" then some ⟨fun i => .ok (column_x i)⟩
    else none
  subsets_get name i := if name = "x" then column_x i else []
  variable_names := ["x"]
  Rcpp_eval _ _ envs := .done (.error "could not evaluate") envs
  dyn_scope_install envs bottom _ _ := (envs ++ [⟨some bottom, [], []⟩], envs.length)
  dyn_scope_clean envs _ := envs

/-- The call `(sum(x))(x)`: the call `sum(x)` in head position, applied to the
symbol `x`. -/
def sum_x_applied : SEXP := mkCall sum_x [.symbol "x"]

/-- The scope of a `GroupedHybridEval` for the variable `x` under the global
environment, not yet built. -/
def scope0 : GroupedHybridEnv := GroupedHybridEnv.construct ["x"] 0

/-! ## The rewriting on cells in memory

The definitions above treat an R object as a value. The header works on
objects in memory: `clone` copies the stored call, and `SETCAR` overwrites a
cell where it is. The definitions of this section render that: an object is
known by its address, `SETCAR` changes the memory at an address, and `clone`
makes new cells. Walks through memory, like the loop, are run for at most
`fuel` steps. -/

namespace Memory

/-- A pointer to an R object; `none` is `R_NilValue`. -/
abbrev Ptr := Option Nat

/-- An R object in memory; a cell holds pointers to its `CAR` and its `CDR`. -/
inductive Node
  | symbol (name : SymbolString)
  | vector (v : Value)
  | cell (type : CellType) (car cdr : Ptr)
deriving DecidableEq, Repr

/-- Whether the object is a cons cell. -/
def Node.is_cell : Node → Bool
  | .cell _ _ _ => true
  | _ => false

/-- The memory of R: the object at each address. A new object is put at the
end, and no object is ever dropped. -/
abbrev Heap := List Node

/-- The object a pointer leads to. -/
def node (h : Heap) (p : Ptr) : Option Node :=
  match p with
  | some a => h[a]?
  | none => none

/-- The `TYPEOF` of R. -/
def TYPEOF (h : Heap) (p : Ptr) : SEXPTYPE :=
  match node h p with
  | some (.symbol _) => .SYMSXP
  | some (.vector _) => .VECSXP
  | some (.cell .LISTSXP _ _) => .LISTSXP
  | some (.cell .LANGSXP _ _) => .LANGSXP
  | none => .NILSXP

/-- The `CAR` of R, with the convention of the `CAR` on values. -/
def CAR (h : Heap) (p : Ptr) : Ptr :=
  match node h p with
  | some (.cell _ car _) => car
  | _ => none

/-- The `CDR` of R, with the same convention. -/
def CDR (h : Heap) (p : Ptr) : Ptr :=
  match node h p with
  | some (.cell _ _ cdr) => cdr
  | _ => none

/-- The memory after `SETCAR(p, value)`: the cell at `p` is overwritten. -/
def SETCAR (h : Heap) (p value : Ptr) : Heap :=
  match p with
  | some a =>
    match h[a]? with
    | some (.cell type _ cdr) => h.set a (.cell type value cdr)
    | _ => h
  | none => h

/-- The object at `p` read as a value, as `get_handler` reads it. -/
def tree : Nat → Heap → Ptr → Option SEXP
  | 0, _, _ => none
  | fuel + 1, h, p =>
    match node h p with
    | some (.symbol name) => some (.symbol name)
    | some (.vector v) => some (.vector v)
    | some (.cell type car cdr) =>
      match tree fuel h car, tree fuel h cdr with
      | some x, some y => some (.cell type x y)
      | _, _ => none
    | none => some .R_NilValue

/-- The `clone` of Rcpp (`Rf_duplicate`): every cell and every vector below
`p` is copied to a new address; symbols and `R_NilValue` are not copied. -/
def clone : Nat → Heap → Ptr → Option (Heap × Ptr)
  | 0, _, _ => none
  | fuel + 1, h, p =>
    match node h p with
    | some (.cell type car cdr) =>
      match clone fuel h car with
      | some (h1, car1) =>
        match clone fuel h1 cdr with
        | some (h2, cdr1) => some (h2 ++ [.cell type car1 cdr1], some h2.length)
        | none => none
      | none => none
    | some (.vector v) => some (h ++ [.vector v], some h.length)
    | _ => some (h, p)

/-- The `replace` of `GroupedHybridCall` on the cell at `p`: the calls made,
how it ended, and the memory afterwards. What `process` returns is a new
vector. -/
def replace (H : Host) (indices : Option SlicingIndex) :
    Nat → Heap → Ptr → List Event × Outcome Bool × Heap
  | 0, h, _ => ([], .unfinished, h)
  | fuel + 1, h, p =>
    if TYPEOF h (CAR h p) = .LANGSXP then
      match tree fuel h (CAR h p) with
      | none => ([], .unfinished, h)
      | some obj =>
        match H.get_handler obj with
        | some res =>
          match indices with
          | none => ([.get_handler obj], .null_indices, h)
          | some i =>
            match res.process i with
            | .ok v =>
              ([.get_handler obj, .process obj i], .returned true,
                SETCAR (h ++ [.vector v]) p (some h.length))
            | .error e => ([.get_handler obj, .process obj i], .thrown e, h)
        | none =>
          match replace H indices fuel h (CDR h (CAR h p)) with
          | (t, .returned false, h1) =>
            if TYPEOF h1 p = .LISTSXP then
              (.get_handler obj :: (t ++ (replace H indices fuel h1 (CDR h1 p)).1),
                (replace H indices fuel h1 (CDR h1 p)).2)
            else (.get_handler obj :: t, .returned false, h1)
          | (t, r, h1) => (.get_handler obj :: t, r, h1)
    else if TYPEOF h p = .LISTSXP then replace H indices fuel h (CDR h p)
    else ([], .returned false, h)

/-- The `simplified` of `GroupedHybridCall`: one pass over the object at
`call`; `returned (b, q)`: the C++ function returned `b` and `call` is now the
pointer `q`. -/
def simplified (H : Host) (indices : Option SlicingIndex) (fuel : Nat) (h : Heap)
    (call : Ptr) : List Event × Outcome (Bool × Ptr) × Heap :=
  if TYPEOF h call = .LANGSXP ∨ TYPEOF h call = .SYMSXP then
    match tree fuel h call with
    | none => ([], .unfinished, h)
    | some root =>
      match H.get_handler root with
      | some res =>
        match indices with
        | none => ([.get_handler root], .null_indices, h)
        | some i =>
          match res.process i with
          | .ok v =>
            ([.get_handler root, .process root i], .returned (true, some h.length),
              h ++ [.vector v])
          | .error e => ([.get_handler root, .process root i], .thrown e, h)
      | none =>
        if TYPEOF h call = .LANGSXP then
          (.get_handler root :: (replace H indices fuel h (CDR h call)).1,
            (replace H indices fuel h (CDR h call)).2.1.map (fun b => (b, call)),
            (replace H indices fuel h (CDR h call)).2.2)
        else ([.get_handler root], .returned (false, call), h)
  else ([], .returned (false, call), h)

/-- The loop `while (simplified(call)) {}` of `simplify`, run for at most
`passes` passes. -/
def simplify_loop (H : Host) (indices : Option SlicingIndex) (fuel : Nat) :
    Nat → Heap → Ptr → List Event × Outcome Ptr × Heap
  | 0, h, _ => ([], .unfinished, h)
  | passes + 1, h, call =>
    match simplified H indices fuel h call with
    | (t, .returned (true, call1), h1) =>
      (t ++ (simplify_loop H indices fuel passes h1 call1).1,
        (simplify_loop H indices fuel passes h1 call1).2)
    | (t, .returned (false, call1), h1) => (t, .returned call1, h1)
    | (t, .thrown e, h1) => (t, .thrown e, h1)
    | (t, .null_indices, h1) => (t, .null_indices, h1)
    | (t, .unfinished, h1) => (t, .unfinished, h1)

/-- The members of `GroupedHybridCall`, the stored call being an object in
memory. -/
structure GroupedHybridCall where
  original_call : Ptr
  indices : Option SlicingIndex
deriving DecidableEq, Repr

/-- The member function `simplify`: the calls made, how it ended (with the
pointer to the rewritten clone when it returned), the object and the memory
afterwards. -/
def simplify (H : Host) (fuel : Nat) (self : GroupedHybridCall) (indices_ : SlicingIndex)
    (h : Heap) : List Event × Outcome Ptr × GroupedHybridCall × Heap :=
  match clone fuel h self.original_call with
  | none => ([], .unfinished, { self with indices := some indices_ }, h)
  | some (h1, call) =>
    match simplify_loop H (some indices_) fuel fuel h1 call with
    | (t, .returned call1, h2) => (t, .returned call1, { self with indices := none }, h2)
    | (t, r, h2) => (t, r, { self with indices := some indices_ }, h2)

/-- The member function `simplify` as it would be without `clone`: the loop
runs on the stored call itself. -/
def simplify_in_place (H : Host) (fuel : Nat) (self : GroupedHybridCall)
    (indices_ : SlicingIndex) (h : Heap) :
    List Event × Outcome Ptr × GroupedHybridCall × Heap :=
  match simplify_loop H (some indices_) fuel fuel h self.original_call with
  | (t, .returned call1, h2) => (t, .returned call1, { self with indices := none }, h2)
  | (t, r, h2) => (t, r, { self with indices := some indices_ }, h2)

/-- The number of objects of a value. -/
def size : SEXP → Nat
  | .cell _ car cdr => 1 + size car + size cdr
  | _ => 1

/-- The object at `p` in the memory `h` is the value `t`. -/
def Represents (h : Heap) : Ptr → SEXP → Prop
  | p, .R_NilValue => p = none
  | p, .symbol name => node h p = some (.symbol name)
  | p, .vector v => node h p = some (.vector v)
  | p, .cell type tcar tcdr =>
    ∃ a car cdr, p = some a ∧ h[a]? = some (.cell type car cdr) ∧
      Represents h car tcar ∧ Represents h cdr tcdr

/-- The object at `p` is the value `t`, no cell of it is used twice, and its
cells lie at the addresses from `lo` up to `hi`: the cells of the `CAR` first,
then those of the `CDR`, then the cell itself. -/
def Owns (h : Heap) : Nat → Nat → Ptr → SEXP → Prop
  | _, _, p, .R_NilValue => p = none
  | _, _, p, .symbol name => node h p = some (.symbol name)
  | _, _, p, .vector v => node h p = some (.vector v)
  | lo, hi, p, .cell type tcar tcdr =>
    ∃ a car cdr mid1 mid2, p = some a ∧ h[a]? = some (.cell type car cdr) ∧
      lo ≤ mid1 ∧ mid1 ≤ mid2 ∧ mid2 ≤ a ∧ a < hi ∧
      Owns h lo mid1 car tcar ∧ Owns h mid1 mid2 cdr tcdr

/-- The memory `h1` holds every object of `h` where it was, but for the cells
at the addresses from `lo` up to `hi`. -/
def Outside (h h1 : Heap) (lo hi : Nat) : Prop :=
  ∀ a n, h[a]? = some n → (n.is_cell = false ∨ a < lo ∨ hi ≤ a) → h1[a]? = some n

/-- The memory holding `sum(x)` at the address 3. -/
def heap_sum_x : Heap :=
  [.symbol "sum", .symbol "x", .cell .LISTSXP (some 1) none, .cell .LANGSXP (some 0) (some 2)]

/-- The memory holding `f(sum(x))` at the address 6, by the cells of
`heap_sum_x` and three more. -/
def heap_f_sum_x : Heap :=
  heap_sum_x ++ [.symbol "f", .cell .LISTSXP (some 3) none, .cell .LANGSXP (some 4) (some 5)]

end Memory

end dplyr

namespace dplyr

/-! ## The scan and the first match -/

theorem first_match_handler (H : Host) (p : SEXP) (x : List Move × SEXP)
    (h : first_match H p = some x) : (H.get_handler x.2).isSome = true := by
  unfold first_match at h
  exact List.find?_some (p := fun x : List Move × SEXP => (H.get_handler x.2).isSome) h

theorem first_match_mem (H : Host) (p : SEXP) (x : List Move × SEXP)
    (h : first_match H p = some x) : x ∈ scan p := by
  unfold first_match at h
  exact List.mem_of_find?_eq_some h

theorem first_match_none (H : Host) (p : SEXP) :
    first_match H p = none ↔ ∀ x ∈ scan p, H.get_handler x.2 = none := by
  unfold first_match
  simp

theorem first_match_lang (H : Host) (type : CellType) (f args rest : SEXP) :
    first_match H (.cell type (.cell .LANGSXP f args) rest) =
      if (H.get_handler (.cell .LANGSXP f args)).isSome then
        some ([], .cell .LANGSXP f args)
      else
        match first_match H args with
        | some x => some (Move.into :: x.1, x.2)
        | none =>
          if type = .LISTSXP then
            (first_match H rest).map (fun x => (Move.next :: x.1, x.2))
          else none := by
  unfold first_match
  by_cases hh : (H.get_handler (.cell .LANGSXP f args)).isSome = true
  · simp [scan, hh]
  · have hn : H.get_handler (.cell .LANGSXP f args) = none := by simpa using hh
    have hinto : List.find? ((fun x => (H.get_handler x.2).isSome) ∘
        fun x : List Move × SEXP => (Move.into :: x.1, x.2)) (scan args)
        = List.find? (fun x => (H.get_handler x.2).isSome) (scan args) := rfl
    have hnext : List.find? ((fun x => (H.get_handler x.2).isSome) ∘
        fun x : List Move × SEXP => (Move.next :: x.1, x.2)) (scan rest)
        = List.find? (fun x => (H.get_handler x.2).isSome) (scan rest) := rfl
    simp only [scan, List.cons_append, List.find?_cons, hn, Option.isSome_none,
      List.find?_append, List.find?_map, hinto]
    cases ha : List.find? (fun x => (H.get_handler x.2).isSome) (scan args) with
    | some x => simp
    | none =>
      by_cases ht : type = .LISTSXP
      · simp [ht, List.find?_map, hnext]
      · simp [ht]

theorem first_match_other (H : Host) (type : CellType) (obj rest : SEXP)
    (hobj : ∀ f args, obj ≠ .cell .LANGSXP f args) :
    first_match H (.cell type obj rest) =
      if type = .LISTSXP then
        (first_match H rest).map (fun x => (Move.next :: x.1, x.2))
      else none := by
  unfold first_match
  have hs : scan (.cell type obj rest) =
      if type = .LISTSXP then (scan rest).map (fun x => (Move.next :: x.1, x.2)) else [] := by
    cases obj with
    | cell inner f args =>
      cases inner with
      | LANGSXP => exact absurd rfl (hobj f args)
      | LISTSXP => simp [scan]
    | _ => simp [scan]
  rw [hs]
  by_cases ht : type = .LISTSXP
  · simp [ht, List.find?_map, Function.comp_def]
  · simp [ht]

/-! ## The step of the specification, cell by cell -/

theorem step_lang_some (H : Host) (i : SlicingIndex) (type : CellType) (f args rest : SEXP)
    (res : Result) (h : H.get_handler (.cell .LANGSXP f args) = some res) :
    leftmost_outermost_step H i (.cell type (.cell .LANGSXP f args) rest) =
      match res.process i with
      | .ok v => .returned (true, .cell type (.vector v) rest)
      | .error e => .thrown e := by
  simp [leftmost_outermost_step, first_match_lang, h, put]

theorem step_lang_none (H : Host) (i : SlicingIndex) (type : CellType) (f args rest : SEXP)
    (h : H.get_handler (.cell .LANGSXP f args) = none) :
    leftmost_outermost_step H i (.cell type (.cell .LANGSXP f args) rest) =
      match leftmost_outermost_step H i args with
      | .returned (false, _) =>
        if type = .LISTSXP then
          (leftmost_outermost_step H i rest).map
            (fun r => (r.1, .cell type (.cell .LANGSXP f args) r.2))
        else .returned (false, .cell type (.cell .LANGSXP f args) rest)
      | r => r.map (fun r => (r.1, .cell type (.cell .LANGSXP f r.2) rest)) := by
  cases ha : first_match H args with
  | some x =>
    obtain ⟨way, node⟩ := x
    have hn := first_match_handler H args _ ha
    obtain ⟨res, hres⟩ := Option.isSome_iff_exists.mp hn
    simp only at hres
    cases hp : res.process i with
    | ok v => simp [leftmost_outermost_step, first_match_lang, h, ha, hres, hp, put, Outcome.map]
    | error e => simp [leftmost_outermost_step, first_match_lang, h, ha, hres, hp, Outcome.map]
  | none =>
    by_cases ht : type = .LISTSXP
    · cases hr : first_match H rest with
      | none =>
        simp [leftmost_outermost_step, first_match_lang, h, ha, hr, ht, Outcome.map]
      | some x =>
        obtain ⟨way, node⟩ := x
        cases hres : H.get_handler node with
        | none =>
          simp [leftmost_outermost_step, first_match_lang, h, ha, hr, ht, hres, Outcome.map]
        | some res =>
          cases hp : res.process i with
          | ok v =>
            simp [leftmost_outermost_step, first_match_lang, h, ha, hr, ht, hres, hp, put,
              Outcome.map]
          | error e =>
            simp [leftmost_outermost_step, first_match_lang, h, ha, hr, ht, hres, hp,
              Outcome.map]
    · simp [leftmost_outermost_step, first_match_lang, h, ha, ht]

theorem step_other (H : Host) (i : SlicingIndex) (type : CellType) (obj rest : SEXP)
    (hobj : ∀ f args, obj ≠ .cell .LANGSXP f args) :
    leftmost_outermost_step H i (.cell type obj rest) =
      if type = .LISTSXP then
        (leftmost_outermost_step H i rest).map (fun r => (r.1, .cell type obj r.2))
      else .returned (false, .cell type obj rest) := by
  have hput : ∀ v way, put v (Move.next :: way) (.cell type obj rest)
      = .cell type obj (put v way rest) := by
    intro v way
    cases obj <;> simp [put]
  have hfm := first_match_other H type obj rest hobj
  by_cases ht : type = .LISTSXP
  · rw [if_pos ht] at hfm
    rw [if_pos ht]
    cases hr : first_match H rest with
    | none => simp [leftmost_outermost_step, hfm, hr, Outcome.map]
    | some x =>
      obtain ⟨way, node⟩ := x
      cases hres : H.get_handler node with
      | none => simp [leftmost_outermost_step, hfm, hr, hres, Outcome.map]
      | some res =>
        cases hp : res.process i with
        | ok v => simp [leftmost_outermost_step, hfm, hr, hres, hp, hput, Outcome.map]
        | error e => simp [leftmost_outermost_step, hfm, hr, hres, hp, Outcome.map]
  · rw [if_neg ht] at hfm
    rw [if_neg ht]
    simp [leftmost_outermost_step, hfm]

theorem step_atom (H : Host) (i : SlicingIndex) (p : SEXP)
    (hp : ∀ type obj rest, p ≠ .cell type obj rest) :
    leftmost_outermost_step H i p = .returned (false, p) := by
  cases p with
  | cell type obj rest => exact absurd rfl (hp type obj rest)
  | _ => simp [leftmost_outermost_step, first_match, scan]

/-! ## `replace` -/

theorem replace_false (H : Host) (indices : Option SlicingIndex) (p q : SEXP)
    (h : (replace H indices p).2 = .returned (false, q)) : q = p := by
  induction p using replace.induct H indices generalizing q with
  | case1 type f args rest res hres hidx => simp [replace, hres, hidx] at h
  | case2 type f args rest res hres i hidx =>
    simp only [replace, hres, hidx] at h
    split at h <;> simp at h
  | case3 f args rest hres t args1 hargs ih1 ih2 =>
    simp only [replace, hres, hargs] at h
    simp at h
    have := ih1 args1 (by rw [hargs])
    subst this
    cases hr : (replace H indices rest).2 with
    | returned a =>
      rw [hr] at h
      simp [Outcome.map] at h
      obtain ⟨h1, h2⟩ := h
      have := ih2 a.2 (by rw [hr, ← h1])
      rw [← h2, this]
    | _ => rw [hr] at h; simp [Outcome.map] at h
  | case4 type f args rest hres t args1 hargs hty ih1 =>
    simp only [replace, hres, hargs] at h
    simp [hty] at h
    have := ih1 args1 (by rw [hargs])
    rw [← h, this]
  | case5 type f args rest hres t r hr hargs ih1 =>
    simp only [replace, hres, hargs] at h
    cases r with
    | returned a =>
      obtain ⟨b, a2⟩ := a
      cases b with
      | false => exact absurd rfl (hr a2)
      | true => simp [Outcome.map] at h
    | _ => simp [Outcome.map] at h
  | case6 obj rest hobj ih =>
    have he : replace H indices (.cell .LISTSXP obj rest) =
        ((replace H indices rest).1,
          (replace H indices rest).2.map (fun r => (r.1, .cell .LISTSXP obj r.2))) := by
      cases obj with
      | cell inner f args =>
        cases inner with
        | LANGSXP => exact absurd rfl (hobj f args)
        | LISTSXP => simp [replace]
      | _ => simp [replace]
    rw [he] at h
    cases hr : (replace H indices rest).2 with
    | returned a =>
      rw [hr] at h
      simp [Outcome.map] at h
      obtain ⟨h1, h2⟩ := h
      have := ih a.2 (by rw [hr, ← h1])
      rw [← h2, this]
    | _ => rw [hr] at h; simp [Outcome.map] at h
  | case7 type obj rest hobj hty =>
    have he : replace H indices (.cell type obj rest) =
        ([], .returned (false, .cell type obj rest)) := by
      cases obj with
      | cell inner f args =>
        cases inner with
        | LANGSXP => exact absurd rfl (hobj f args)
        | LISTSXP => simp [replace, hty]
      | _ => simp [replace, hty]
    rw [he] at h
    simp at h
    exact h.symm
  | case8 p h1 h2 =>
    cases p with
    | cell type obj rest => exact absurd rfl (h2 type obj rest)
    | _ => simp [replace] at h; exact h.symm

theorem replace_eq_step (H : Host) (i : SlicingIndex) (p : SEXP) :
    (replace H (some i) p).2 = leftmost_outermost_step H i p := by
  induction p using replace.induct H (some i) with
  | case1 type f args rest res hres hidx => simp at hidx
  | case2 type f args rest res hres j hidx =>
    cases hidx
    rw [step_lang_some H i type f args rest res hres]
    simp only [replace, hres]
  | case3 f args rest hres t args1 hargs ih1 ih2 =>
    have ha : args1 = args := replace_false H (some i) args args1 (by rw [hargs])
    subst ha
    rw [step_lang_none H i _ f args1 rest hres, ← ih1, ← ih2]
    simp only [replace, hres, hargs]
    simp
  | case4 type f args rest hres t args1 hargs hty ih1 =>
    have ha : args1 = args := replace_false H (some i) args args1 (by rw [hargs])
    subst ha
    rw [step_lang_none H i _ f args1 rest hres, ← ih1]
    simp only [replace, hres, hargs]
    simp [hty]
  | case5 type f args rest hres t r hr hargs ih1 =>
    rw [step_lang_none H i _ f args rest hres, ← ih1]
    simp only [replace, hres, hargs]
  | case6 obj rest hobj ih =>
    have he : replace H (some i) (.cell .LISTSXP obj rest) =
        ((replace H (some i) rest).1,
          (replace H (some i) rest).2.map (fun r => (r.1, .cell .LISTSXP obj r.2))) := by
      cases obj with
      | cell inner f args =>
        cases inner with
        | LANGSXP => exact absurd rfl (hobj f args)
        | LISTSXP => simp [replace]
      | _ => simp [replace]
    rw [he, step_other H i _ obj rest (fun f args => hobj f args), ← ih]
    simp
  | case7 type obj rest hobj hty =>
    have he : replace H (some i) (.cell type obj rest) =
        ([], .returned (false, .cell type obj rest)) := by
      cases obj with
      | cell inner f args =>
        cases inner with
        | LANGSXP => exact absurd rfl (hobj f args)
        | LISTSXP => simp [replace, hty]
      | _ => simp [replace, hty]
    rw [he, step_other H i _ obj rest (fun f args => hobj f args)]
    simp [hty]
  | case8 p h1 h2 =>
    rw [step_atom H i p (fun type obj rest => h2 type obj rest)]
    cases p with
    | cell type obj rest => exact absurd rfl (h2 type obj rest)
    | _ => simp [replace]

theorem scan_other (type : CellType) (obj rest : SEXP)
    (hobj : ∀ f args, obj ≠ .cell .LANGSXP f args) :
    scan (.cell type obj rest) =
      if type = .LISTSXP then (scan rest).map (fun x => (Move.next :: x.1, x.2)) else [] := by
  cases obj with
  | cell inner f args =>
    cases inner with
    | LANGSXP => exact absurd rfl (hobj f args)
    | LISTSXP => simp [scan]
  | _ => simp [scan]

theorem scan_count_other (type : CellType) (obj rest : SEXP)
    (hobj : ∀ f args, obj ≠ .cell .LANGSXP f args) :
    scan_count (.cell type obj rest) = if type = .LISTSXP then scan_count rest else 0 := by
  cases obj with
  | cell inner f args =>
    cases inner with
    | LANGSXP => exact absurd rfl (hobj f args)
    | LISTSXP => simp [scan_count]
  | _ => simp [scan_count]

theorem put_next (v : SEXP) (way : List Move) (type : CellType) (obj rest : SEXP) :
    put v (Move.next :: way) (.cell type obj rest) = .cell type obj (put v way rest) := by
  cases obj <;> simp [put]

theorem scan_count_put (v : Value) (p : SEXP) :
    ∀ way node, (way, node) ∈ scan p → scan_count (put (.vector v) way p) < scan_count p := by
  induction p using scan.induct with
  | case1 type f args rest ih1 ih2 =>
    intro way node hmem
    simp only [scan, List.cons_append, List.mem_cons, List.mem_append, List.mem_map,
      Prod.mk.injEq] at hmem
    rcases hmem with ⟨h1, _⟩ | ⟨x, hx, h1, _⟩ | hmem
    · subst h1
      simp only [put, scan_count]
      omega
    · subst h1
      have := ih1 x.1 x.2 hx
      simp only [put, scan_count]
      omega
    · by_cases ht : type = .LISTSXP
      · simp only [ht, if_true, List.mem_map, Prod.mk.injEq] at hmem
        obtain ⟨x, hx, h1, _⟩ := hmem
        subst h1
        have := ih2 x.1 x.2 hx
        simp only [put_next, scan_count, ht, if_true]
        omega
      · simp [ht] at hmem
  | case2 obj rest hobj ih =>
    intro way node hmem
    rw [scan_other _ obj rest (fun f a => hobj f a)] at hmem
    simp only [if_true, List.mem_map, Prod.mk.injEq] at hmem
    obtain ⟨x, hx, h1, _⟩ := hmem
    subst h1
    have := ih x.1 x.2 hx
    rw [put_next, scan_count_other _ obj rest (fun f a => hobj f a),
      scan_count_other _ obj _ (fun f a => hobj f a)]
    simp only [if_true]
    exact this
  | case3 type obj rest hobj ht =>
    intro way node hmem
    rw [scan_other _ obj rest (fun f a => hobj f a)] at hmem
    simp [ht] at hmem
  | case4 p h1 h2 =>
    intro way node hmem
    cases p with
    | cell type obj rest => exact absurd rfl (h2 type obj rest)
    | _ => simp [scan] at hmem

theorem step_true_count (H : Host) (i : SlicingIndex) (p q : SEXP)
    (h : leftmost_outermost_step H i p = .returned (true, q)) :
    scan_count q < scan_count p := by
  unfold leftmost_outermost_step at h
  cases hf : first_match H p with
  | none => simp [hf] at h
  | some x =>
    obtain ⟨way, node⟩ := x
    simp only [hf] at h
    cases hres : H.get_handler node with
    | none => simp [hres] at h
    | some res =>
      simp only [hres] at h
      cases hp : res.process i with
      | error e => simp [hp] at h
      | ok v =>
        simp only [hp, Outcome.returned.injEq, Prod.mk.injEq, true_and] at h
        rw [← h]
        exact scan_count_put v p way node (first_match_mem H p _ hf)

theorem step_not_stuck (H : Host) (i : SlicingIndex) (p : SEXP) :
    leftmost_outermost_step H i p ≠ .null_indices ∧
      leftmost_outermost_step H i p ≠ .unfinished := by
  unfold leftmost_outermost_step
  constructor <;> (repeat' split) <;> simp

/-! ## `simplified` -/

theorem simplified_literal (H : Host) (indices : Option SlicingIndex) (call : SEXP)
    (h : ¬(TYPEOF call = .LANGSXP ∨ TYPEOF call = .SYMSXP)) :
    simplified H indices call = ([], .returned (false, call)) := by
  simp [simplified, h]

theorem simplified_handler (H : Host) (i : SlicingIndex) (call : SEXP) (res : Result)
    (hroot : TYPEOF call = .LANGSXP ∨ TYPEOF call = .SYMSXP)
    (h : H.get_handler call = some res) :
    simplified H (some i) call =
      ([.get_handler call, .process call i],
        match res.process i with
        | .ok v => .returned (true, .vector v)
        | .error e => .thrown e) := by
  simp [simplified, hroot, h]

theorem simplified_call (H : Host) (i : SlicingIndex) (f args : SEXP)
    (h : H.get_handler (.cell .LANGSXP f args) = none) :
    (simplified H (some i) (.cell .LANGSXP f args)).2 =
      (leftmost_outermost_step H i args).map (fun r => (r.1, .cell .LANGSXP f r.2)) := by
  simp [simplified, TYPEOF, h, CDR, SETCDR, replace_eq_step]

theorem simplified_symbol (H : Host) (indices : Option SlicingIndex) (name : SymbolString)
    (h : H.get_handler (.symbol name) = none) :
    simplified H indices (.symbol name) =
      ([.get_handler (.symbol name)], .returned (false, .symbol name)) := by
  simp [simplified, TYPEOF, h]

theorem typeof_cases (call : SEXP) :
    (∃ f args, call = .cell .LANGSXP f args) ∨ (∃ name, call = .symbol name) ∨
      ¬(TYPEOF call = .LANGSXP ∨ TYPEOF call = .SYMSXP) := by
  cases call with
  | cell type car cdr =>
    cases type with
    | LANGSXP => exact Or.inl ⟨car, cdr, rfl⟩
    | LISTSXP => right; right; simp [TYPEOF]
  | symbol name => exact Or.inr (Or.inl ⟨name, rfl⟩)
  | _ => right; right; simp [TYPEOF]

theorem simplified_false (H : Host) (i : SlicingIndex) (call q : SEXP)
    (h : (simplified H (some i) call).2 = .returned (false, q)) : q = call := by
  by_cases hroot : TYPEOF call = .LANGSXP ∨ TYPEOF call = .SYMSXP
  · cases hh : H.get_handler call with
    | some res =>
      rw [simplified_handler H i call res hroot hh] at h
      revert h
      cases res.process i <;> simp
    | none =>
      rcases typeof_cases call with ⟨f, args, rfl⟩ | ⟨name, rfl⟩ | hn
      · rw [simplified_call H i f args hh] at h
        cases hs : leftmost_outermost_step H i args with
        | returned a =>
          rw [hs] at h
          simp only [Outcome.map, Outcome.returned.injEq, Prod.mk.injEq] at h
          have := replace_false H (some i) args a.2
            (by rw [replace_eq_step, hs, ← h.1])
          rw [← h.2, this]
        | _ => rw [hs] at h; simp [Outcome.map] at h
      · rw [simplified_symbol H _ name hh] at h
        simp at h
        exact h.symm
      · exact absurd hroot hn
  · rw [simplified_literal H _ call hroot] at h
    simp at h
    exact h.symm

theorem simplified_true_rank (H : Host) (i : SlicingIndex) (call q : SEXP)
    (h : (simplified H (some i) call).2 = .returned (true, q)) : rank q < rank call := by
  by_cases hroot : TYPEOF call = .LANGSXP ∨ TYPEOF call = .SYMSXP
  · cases hh : H.get_handler call with
    | some res =>
      rw [simplified_handler H i call res hroot hh] at h
      cases hp : res.process i with
      | error e => simp [hp] at h
      | ok v =>
        simp only [hp, Outcome.returned.injEq, Prod.mk.injEq, true_and] at h
        subst h
        rcases typeof_cases call with ⟨f, args, rfl⟩ | ⟨name, rfl⟩ | hn
        · simp [rank]
        · simp [rank]
        · exact absurd hroot hn
    | none =>
      rcases typeof_cases call with ⟨f, args, rfl⟩ | ⟨name, rfl⟩ | hn
      · rw [simplified_call H i f args hh] at h
        cases hs : leftmost_outermost_step H i args with
        | returned a =>
          rw [hs] at h
          simp only [Outcome.map, Outcome.returned.injEq, Prod.mk.injEq] at h
          have := step_true_count H i args a.2 (by rw [hs, ← h.1])
          rw [← h.2]
          simp only [rank]
          omega
        | _ => rw [hs] at h; simp [Outcome.map] at h
      · rw [simplified_symbol H _ name hh] at h
        simp at h
      · exact absurd hroot hn
  · rw [simplified_literal H _ call hroot] at h
    simp at h

theorem simplified_not_stuck (H : Host) (i : SlicingIndex) (call : SEXP) :
    (simplified H (some i) call).2 ≠ .null_indices ∧
      (simplified H (some i) call).2 ≠ .unfinished := by
  by_cases hroot : TYPEOF call = .LANGSXP ∨ TYPEOF call = .SYMSXP
  · cases hh : H.get_handler call with
    | some res =>
      rw [simplified_handler H i call res hroot hh]
      cases res.process i <;> simp
    | none =>
      rcases typeof_cases call with ⟨f, args, rfl⟩ | ⟨name, rfl⟩ | hn
      · rw [simplified_call H i f args hh]
        have := step_not_stuck H i args
        cases hs : leftmost_outermost_step H i args <;> simp_all [Outcome.map]
      · rw [simplified_symbol H _ name hh]
        simp
      · exact absurd hroot hn
  · rw [simplified_literal H _ call hroot]
    simp

/-! ## The loop of `simplify` -/

theorem loop_fuel (H : Host) (i : SlicingIndex) :
    ∀ n m call, rank call < n → rank call < m →
      simplify_loop H (some i) n call = simplify_loop H (some i) m call := by
  intro n
  induction n with
  | zero => intro m call h; omega
  | succ n ih =>
    intro m call hn hm
    cases m with
    | zero => omega
    | succ m =>
      simp only [simplify_loop]
      rcases hs : simplified H (some i) call with ⟨t, r⟩
      cases r with
      | returned a =>
        obtain ⟨b, q⟩ := a
        cases b with
        | true =>
          have hr := simplified_true_rank H i call q (by rw [hs])
          simp only
          rw [ih m q (by omega) (by omega)]
        | false => rfl
      | _ => rfl

theorem loop_finishes (H : Host) (i : SlicingIndex) :
    ∀ n call, rank call < n →
      (simplify_loop H (some i) n call).2 ≠ .unfinished ∧
        (simplify_loop H (some i) n call).2 ≠ .null_indices := by
  intro n
  induction n with
  | zero => intro call h; omega
  | succ n ih =>
    intro call hn
    simp only [simplify_loop]
    have hstuck := simplified_not_stuck H i call
    rcases hs : simplified H (some i) call with ⟨t, r⟩
    rw [hs] at hstuck
    cases r with
    | returned a =>
      obtain ⟨b, q⟩ := a
      cases b with
      | true =>
        have hr := simplified_true_rank H i call q (by rw [hs])
        exact ih q (by omega)
      | false => simp
    | thrown e => simp
    | null_indices => simp at hstuck
    | unfinished => simp at hstuck

theorem loop_stable (H : Host) (i : SlicingIndex) :
    ∀ n call e, (simplify_loop H (some i) n call).2 = .returned e →
      (simplified H (some i) e).2 = .returned (false, e) := by
  intro n
  induction n with
  | zero => intro call e h; simp [simplify_loop] at h
  | succ n ih =>
    intro call e h
    simp only [simplify_loop] at h
    rcases hs : simplified H (some i) call with ⟨t, r⟩
    rw [hs] at h
    cases r with
    | returned a =>
      obtain ⟨b, q⟩ := a
      cases b with
      | true => exact ih q e h
      | false =>
        simp only [Outcome.returned.injEq] at h
        subst h
        have := simplified_false H i call q (by rw [hs])
        subst this
        rw [hs]
    | _ => simp at h

theorem simplify_eq (H : Host) (fuel : Nat) (self : GroupedHybridCall) (idx : SlicingIndex) :
    self.simplify H fuel idx =
      ((simplify_loop H (some idx) fuel self.original_call).1,
        (simplify_loop H (some idx) fuel self.original_call).2,
        match (simplify_loop H (some idx) fuel self.original_call).2 with
        | .returned _ => { original_call := self.original_call, indices := none }
        | _ => { original_call := self.original_call, indices := some idx }) := by
  unfold GroupedHybridCall.simplify
  simp only [GroupedHybridCall.set_indices, GroupedHybridCall.get_indices, clone,
    GroupedHybridCall.clear_indices]
  rcases hs : simplify_loop H (some idx) fuel self.original_call with ⟨t, r⟩
  cases r <;> rfl

theorem step_false_iff (H : Host) (i : SlicingIndex) (p : SEXP) :
    (∃ q, leftmost_outermost_step H i p = .returned (false, q)) ↔
      ∀ x ∈ scan p, H.get_handler x.2 = none := by
  rw [← first_match_none]
  constructor
  · rintro ⟨q, hq⟩
    cases hf : first_match H p with
    | none => rfl
    | some x =>
      exfalso
      obtain ⟨res, hres⟩ := Option.isSome_iff_exists.mp (first_match_handler H p x hf)
      obtain ⟨way, node⟩ := x
      simp only at hres
      unfold leftmost_outermost_step at hq
      simp only [hf, hres] at hq
      revert hq
      cases res.process i <;> simp
  · intro hf
    exact ⟨p, by simp [leftmost_outermost_step, hf]⟩

theorem simplified_false_root (H : Host) (i : SlicingIndex) (e : SEXP)
    (h : (simplified H (some i) e).2 = .returned (false, e))
    (hroot : TYPEOF e = .LANGSXP ∨ TYPEOF e = .SYMSXP) : H.get_handler e = none := by
  cases hh : H.get_handler e with
  | none => rfl
  | some res =>
    rw [simplified_handler H i e res hroot hh] at h
    revert h
    cases res.process i <;> simp

theorem simplified_false_scan (H : Host) (i : SlicingIndex) (e : SEXP)
    (h : (simplified H (some i) e).2 = .returned (false, e))
    (hroot : TYPEOF e = .LANGSXP) : ∀ x ∈ scan (CDR e), H.get_handler x.2 = none := by
  have hh := simplified_false_root H i e h (Or.inl hroot)
  rcases typeof_cases e with ⟨f, args, rfl⟩ | ⟨name, rfl⟩ | hn
  · rw [simplified_call H i f args hh] at h
    apply (step_false_iff H i args).mp
    cases hs : leftmost_outermost_step H i args with
    | returned a =>
      obtain ⟨b, q⟩ := a
      rw [hs] at h
      simp only [Outcome.map, Outcome.returned.injEq, Prod.mk.injEq] at h
      exact ⟨q, by rw [h.1]⟩
    | _ => rw [hs] at h; simp [Outcome.map] at h
  · simp [TYPEOF] at hroot
  · exact absurd (Or.inl hroot) hn

theorem scan_subterms (p : SEXP) : ∀ x ∈ scan p, x.2 ∈ subterms p ∧ TYPEOF x.2 = .LANGSXP := by
  induction p using scan.induct with
  | case1 type f args rest ih1 ih2 =>
    intro x hmem
    simp only [scan, List.cons_append, List.mem_cons, List.mem_append, List.mem_map] at hmem
    rcases hmem with h1 | ⟨y, hy, h1⟩ | hmem
    · subst h1
      simp [subterms, TYPEOF]
    · subst h1
      have := ih1 y hy
      simp only [subterms, List.mem_cons, List.mem_append]
      exact ⟨Or.inr (Or.inl (Or.inr (Or.inr this.1))), this.2⟩
    · by_cases ht : type = .LISTSXP
      · simp only [ht, if_true, List.mem_map] at hmem
        obtain ⟨y, hy, h1⟩ := hmem
        subst h1
        have := ih2 y hy
        simp only [subterms, List.mem_cons, List.mem_append]
        exact ⟨Or.inr (Or.inr this.1), this.2⟩
      · simp [ht] at hmem
  | case2 obj rest hobj ih =>
    intro x hmem
    rw [scan_other _ obj rest (fun f a => hobj f a)] at hmem
    simp only [if_true, List.mem_map] at hmem
    obtain ⟨y, hy, h1⟩ := hmem
    subst h1
    have := ih y hy
    simp only [subterms, List.mem_cons, List.mem_append]
    exact ⟨Or.inr (Or.inr this.1), this.2⟩
  | case3 type obj rest hobj ht =>
    intro x hmem
    rw [scan_other _ obj rest (fun f a => hobj f a)] at hmem
    simp [ht] at hmem
  | case4 p h1 h2 =>
    intro x hmem
    cases p with
    | cell type obj rest => exact absurd rfl (h2 type obj rest)
    | _ => simp [scan] at hmem

theorem subterms_self (x : SEXP) : x ∈ subterms x := by
  cases x <;> simp [subterms]

theorem simplified_no_handler (H : Host) (i : SlicingIndex) (e : SEXP)
    (h : ∀ n ∈ subterms e, (TYPEOF n = .LANGSXP ∨ TYPEOF n = .SYMSXP) → H.get_handler n = none) :
    (simplified H (some i) e).2 = .returned (false, e) := by
  rcases typeof_cases e with ⟨f, args, rfl⟩ | ⟨name, rfl⟩ | hn
  · have hh := h _ (subterms_self _) (Or.inl rfl)
    rw [simplified_call H i f args hh]
    have : ∀ x ∈ scan args, H.get_handler x.2 = none := by
      intro x hx
      have hs := scan_subterms args x hx
      exact h x.2 (by simp [subterms, hs.1]) (Or.inl hs.2)
    obtain ⟨q, hq⟩ := (step_false_iff H i args).mpr this
    have hqa : q = args := replace_false H (some i) args q (by rw [replace_eq_step, hq])
    rw [hq, hqa]
    rfl
  · rw [simplified_symbol H _ name (h _ (subterms_self _) (Or.inr rfl))]
  · rw [simplified_literal H _ e hn]

/-! ## The calls the rewriter makes -/

theorem replace_trace (H : Host) (indices : Option SlicingIndex) (p : SEXP) :
    ∀ ev ∈ (replace H indices p).1, ev.of_rewriter = true := by
  induction p using replace.induct H indices with
  | case1 type f args rest res hres hidx => simp [replace, hres, hidx, Event.of_rewriter]
  | case2 type f args rest res hres i hidx => simp [replace, hres, hidx, Event.of_rewriter]
  | case3 f args rest hres t args1 hargs ih1 ih2 =>
    rw [hargs] at ih1
    simp only [replace, hres, hargs, if_true]
    intro ev hev
    simp only [List.mem_cons, List.mem_append] at hev
    rcases hev with rfl | hev | hev
    · rfl
    · exact ih1 ev hev
    · exact ih2 ev hev
  | case4 type f args rest hres t args1 hargs hty ih1 =>
    rw [hargs] at ih1
    simp only [replace, hres, hargs, hty, if_false]
    intro ev hev
    simp only [List.mem_cons] at hev
    rcases hev with rfl | hev
    · rfl
    · exact ih1 ev hev
  | case5 type f args rest hres t r hr hargs ih1 =>
    rw [hargs] at ih1
    have he : (replace H indices (.cell type (.cell .LANGSXP f args) rest)).1 =
        .get_handler (.cell .LANGSXP f args) :: t := by
      simp only [replace, hres, hargs]
    rw [he]
    intro ev hev
    simp only [List.mem_cons] at hev
    rcases hev with rfl | hev
    · rfl
    · exact ih1 ev hev
  | case6 obj rest hobj ih =>
    have he : (replace H indices (.cell .LISTSXP obj rest)).1 = (replace H indices rest).1 := by
      cases obj with
      | cell inner f args =>
        cases inner with
        | LANGSXP => exact absurd rfl (hobj f args)
        | LISTSXP => simp [replace]
      | _ => simp [replace]
    rw [he]
    exact ih
  | case7 type obj rest hobj hty =>
    have he : (replace H indices (.cell type obj rest)).1 = [] := by
      cases obj with
      | cell inner f args =>
        cases inner with
        | LANGSXP => exact absurd rfl (hobj f args)
        | LISTSXP => simp [replace, hty]
      | _ => simp [replace, hty]
    rw [he]
    simp
  | case8 p h1 h2 =>
    cases p with
    | cell type obj rest => exact absurd rfl (h2 type obj rest)
    | _ => simp [replace]

theorem simplified_trace (H : Host) (indices : Option SlicingIndex) (call : SEXP) :
    ∀ ev ∈ (simplified H indices call).1, ev.of_rewriter = true := by
  have hr := replace_trace H indices (CDR call)
  unfold simplified
  split
  · split
    · split <;> simp [Event.of_rewriter]
    · split
      · intro ev hev
        simp only [List.mem_cons] at hev
        rcases hev with rfl | hev
        · rfl
        · exact hr ev hev
      · simp [Event.of_rewriter]
  · simp

theorem loop_trace (H : Host) (indices : Option SlicingIndex) :
    ∀ n call, ∀ ev ∈ (simplify_loop H indices n call).1, ev.of_rewriter = true := by
  intro n
  induction n with
  | zero => intro call ev hev; simp [simplify_loop] at hev
  | succ n ih =>
    intro call ev hev
    simp only [simplify_loop] at hev
    have hs := simplified_trace H indices call
    rcases hq : simplified H indices call with ⟨t, r⟩
    rw [hq] at hev hs
    cases r with
    | returned a =>
      obtain ⟨b, q⟩ := a
      cases b with
      | true =>
        simp only [List.mem_append] at hev
        rcases hev with hev | hev
        · exact hs ev hev
        · exact ih q ev hev
      | false => exact hs ev hev
    | _ => exact hs ev hev

theorem simplify_trace (H : Host) (fuel : Nat) (self : GroupedHybridCall) (idx : SlicingIndex) :
    ∀ ev ∈ (self.simplify H fuel idx).1, ev.of_rewriter = true := by
  rw [simplify_eq]
  exact loop_trace H _ fuel _

/-! ## The generic evaluator and `eval` -/

theorem run_eval_eq (H : Host) (self : GroupedHybridEval) (i : SlicingIndex)
    (hi : self.indices = some i) (envs : List REnv) (ev : Eval) :
    GroupedHybridEval.run_eval H self envs ev =
      ((reads (fun name => H.subsets_get name i) ev).map (fun name => .subsets_get name i),
        Outcome.ofExcept (feed (fun name => H.subsets_get name i) ev),
        leaves (fun name => H.subsets_get name i) ev) := by
  induction ev with
  | done res left =>
    cases res <;> simp [GroupedHybridEval.run_eval, reads, feed, leaves, Outcome.ofExcept]
  | read name k ih =>
    simp [GroupedHybridEval.run_eval, GroupedHybridEval.get_subset,
      GroupedHybridEval.get_indices, hi, reads, feed, leaves, ih]

theorem provide_eval_env_env (H : Host) (self : GroupedHybridEnv) (w w1 : World)
    (h : w1.envs = w.envs) :
    (self.provide_eval_env H w1).1 = (self.provide_eval_env H w).1 ∧
      (self.provide_eval_env H w1).2.envs = (self.provide_eval_env H w).2.envs := by
  unfold GroupedHybridEnv.provide_eval_env
  by_cases hh : self.has_eval_env = true
  · simp [hh, h]
  · simp [hh, h]

theorem eval_literal (H : Host) (fuel : Nat) (self : GroupedHybridEval) (idx : SlicingIndex)
    (w : World) (call : SEXP)
    (hl : (simplify_loop H (some idx) fuel self.hybrid_call.original_call).2 = .returned call)
    (hlit : ¬(TYPEOF call = .LANGSXP ∨ TYPEOF call = .SYMSXP)) :
    GroupedHybridEval.eval H fuel self idx w =
      (.returned call,
        { indices := none, env := self.env, hybrid_env := self.hybrid_env,
          hybrid_call := { original_call := self.hybrid_call.original_call, indices := none } },
        { envs := w.envs,
          trace := w.trace ++
            (simplify_loop H (some idx) fuel self.hybrid_call.original_call).1 }) := by
  unfold GroupedHybridEval.eval GroupedHybridEval.eval_with_indices
  simp only [GroupedHybridEval.set_indices, GroupedHybridEval.get_indices, simplify_eq, hl,
    hlit, if_false, GroupedHybridEval.clear_indices]

theorem eval_code (H : Host) (fuel : Nat) (self : GroupedHybridEval) (idx : SlicingIndex)
    (w : World) (call : SEXP)
    (hl : (simplify_loop H (some idx) fuel self.hybrid_call.original_call).2 = .returned call)
    (hcode : TYPEOF call = .LANGSXP ∨ TYPEOF call = .SYMSXP) :
    GroupedHybridEval.eval H fuel self idx w =
      (Outcome.ofExcept (feed (fun name => H.subsets_get name idx)
          (H.Rcpp_eval call (self.hybrid_env.provide_eval_env H w).1.eval_env
            (self.hybrid_env.provide_eval_env H w).2.envs)),
        { indices :=
            match feed (fun name => H.subsets_get name idx)
              (H.Rcpp_eval call (self.hybrid_env.provide_eval_env H w).1.eval_env
                (self.hybrid_env.provide_eval_env H w).2.envs) with
            | .ok _ => none
            | .error _ => some idx,
          env := self.env, hybrid_env := (self.hybrid_env.provide_eval_env H w).1,
          hybrid_call := { original_call := self.hybrid_call.original_call, indices := none } },
        { envs := leaves (fun name => H.subsets_get name idx)
            (H.Rcpp_eval call (self.hybrid_env.provide_eval_env H w).1.eval_env
              (self.hybrid_env.provide_eval_env H w).2.envs),
          trace := (self.hybrid_env.provide_eval_env H
              { w with trace := w.trace ++
                (simplify_loop H (some idx) fuel self.hybrid_call.original_call).1 }).2.trace ++
            .Rcpp_eval call (self.hybrid_env.provide_eval_env H w).1.eval_env ::
              (reads (fun name => H.subsets_get name idx)
                (H.Rcpp_eval call (self.hybrid_env.provide_eval_env H w).1.eval_env
                  (self.hybrid_env.provide_eval_env H w).2.envs)).map
                (fun name => .subsets_get name idx) }) := by
  have hp := provide_eval_env_env H self.hybrid_env w
    { w with trace := w.trace ++
      (simplify_loop H (some idx) fuel self.hybrid_call.original_call).1 } rfl
  unfold GroupedHybridEval.eval GroupedHybridEval.eval_with_indices
  simp only [GroupedHybridEval.set_indices, GroupedHybridEval.get_indices, simplify_eq, hl,
    hcode, if_true, GroupedHybridEnv.get_eval_env, hp.1, hp.2]
  rw [run_eval_eq H _ idx rfl]
  cases hf : feed (fun name => H.subsets_get name idx)
      (H.Rcpp_eval call (self.hybrid_env.provide_eval_env H w).1.eval_env
        (self.hybrid_env.provide_eval_env H w).2.envs) <;>
    simp [Outcome.ofExcept, GroupedHybridEval.clear_indices]

theorem eval_stopped (H : Host) (fuel : Nat) (self : GroupedHybridEval) (idx : SlicingIndex)
    (w : World)
    (hl : ∀ call,
      (simplify_loop H (some idx) fuel self.hybrid_call.original_call).2 ≠ .returned call) :
    GroupedHybridEval.eval H fuel self idx w =
      ((simplify_loop H (some idx) fuel self.hybrid_call.original_call).2,
        { indices := some idx, env := self.env, hybrid_env := self.hybrid_env,
          hybrid_call :=
            { original_call := self.hybrid_call.original_call, indices := some idx } },
        { envs := w.envs,
          trace := w.trace ++
            (simplify_loop H (some idx) fuel self.hybrid_call.original_call).1 }) := by
  unfold GroupedHybridEval.eval GroupedHybridEval.eval_with_indices
  cases hr : (simplify_loop H (some idx) fuel self.hybrid_call.original_call).2 with
  | returned c => exact absurd hr (hl c)
  | _ =>
    simp only [GroupedHybridEval.set_indices, GroupedHybridEval.get_indices, simplify_eq, hr]

theorem is_code_iff (x : SEXP) :
    is_code x = true ↔ (TYPEOF x = .LANGSXP ∨ TYPEOF x = .SYMSXP) := by
  simp [is_code]

theorem provide_eval_env_done (H : Host) (self : GroupedHybridEnv) (w : World) :
    (self.provide_eval_env H w).1.has_eval_env = true := by
  unfold GroupedHybridEnv.provide_eval_env
  by_cases hh : self.has_eval_env = true <;> simp [hh]

theorem provide_eval_env_of_done (H : Host) (self : GroupedHybridEnv) (w : World)
    (h : self.has_eval_env = true) : self.provide_eval_env H w = (self, w) := by
  unfold GroupedHybridEnv.provide_eval_env
  simp [h]

theorem provide_eval_env_again (H : Host) (self : GroupedHybridEnv) (w w1 : World) :
    (self.provide_eval_env H w).1.provide_eval_env H w1 = ((self.provide_eval_env H w).1, w1) :=
  provide_eval_env_of_done H _ w1 (provide_eval_env_done H self w)

theorem provide_eval_env_trace (H : Host) (self : GroupedHybridEnv) (w : World) :
    ∃ evs, (self.provide_eval_env H w).2.trace = w.trace ++ evs ∧
      ∀ name i, Event.subsets_get name i ∉ evs := by
  unfold GroupedHybridEnv.provide_eval_env
  by_cases hh : self.has_eval_env = true
  · exact ⟨[], by simp [hh]⟩
  · exact ⟨_, by simp only [hh]; exact ⟨rfl, by simp⟩⟩

theorem rewriter_not_subset (t : List Event) (h : ∀ ev ∈ t, ev.of_rewriter = true)
    (name : SymbolString) (i : SlicingIndex) : Event.subsets_get name i ∉ t := by
  intro hmem
  have := h _ hmem
  simp [Event.of_rewriter] at this

theorem rewriter_not_eval (t : List Event) (h : ∀ ev ∈ t, ev.of_rewriter = true)
    (c : SEXP) (e : EnvId) : Event.Rcpp_eval c e ∉ t := by
  intro hmem
  have := h _ hmem
  simp [Event.of_rewriter] at this

theorem eval_trace (H : Host) (fuel : Nat) (self : GroupedHybridEval) (idx : SlicingIndex)
    (w : World) :
    ∃ evs, (GroupedHybridEval.eval H fuel self idx w).2.2.trace = w.trace ++ evs ∧
      ∀ name i, Event.subsets_get name i ∈ evs → i = idx := by
  have hrw := fun name i => rewriter_not_subset _
    (loop_trace H (some idx) fuel self.hybrid_call.original_call) name i
  by_cases hl : ∃ c, (simplify_loop H (some idx) fuel self.hybrid_call.original_call).2
      = .returned c
  · obtain ⟨c, hl⟩ := hl
    by_cases hc : TYPEOF c = .LANGSXP ∨ TYPEOF c = .SYMSXP
    · rw [eval_code H fuel self idx w c hl hc]
      obtain ⟨evs, he, hne⟩ := provide_eval_env_trace H self.hybrid_env
        { w with trace := w.trace ++
          (simplify_loop H (some idx) fuel self.hybrid_call.original_call).1 }
      refine ⟨_, by simp only [he, List.append_assoc]; rfl, ?_⟩
      intro name i hmem
      simp only [List.mem_append, List.mem_cons, List.mem_map] at hmem
      rcases hmem with h | h | h | ⟨n, _, h⟩
      · exact absurd h (hrw name i)
      · exact absurd h (hne name i)
      · simp at h
      · simp only [Event.subsets_get.injEq] at h
        exact h.2.symm
    · rw [eval_literal H fuel self idx w c hl hc]
      exact ⟨_, rfl, fun name i hmem => absurd hmem (hrw name i)⟩
  · rw [eval_stopped H fuel self idx w (fun c hc => hl ⟨c, hc⟩)]
    exact ⟨_, rfl, fun name i hmem => absurd hmem (hrw name i)⟩

theorem eval_groups_trace (H : Host) (fuel : Nat) (groups : List SlicingIndex) :
    ∀ (self : GroupedHybridEval) (w : World),
      ∃ evs, (eval_groups H fuel groups self w).2.trace = w.trace ++ evs := by
  induction groups with
  | nil => intro self w; exact ⟨[], by simp [eval_groups]⟩
  | cons i groups ih =>
    intro self w
    simp only [eval_groups]
    obtain ⟨e1, h1, _⟩ := eval_trace H fuel self i w
    obtain ⟨e2, h2⟩ := ih (GroupedHybridEval.eval H fuel self i w).2.1
      (GroupedHybridEval.eval H fuel self i w).2.2
    exact ⟨e1 ++ e2, by rw [h2, h1, List.append_assoc]⟩

/-! ## The claims on `GroupedHybridCall` -/

/-- C1 (top-level precedence). When the root of the stored call is a call or a
symbol for which the lookup finds a handler, `simplify` makes exactly two calls
out of the header, the lookup on the root and the handler's `process`, and
ends as `process` does: it returns the computed value or throws its error.
The first pass replaces the root by the value, and the pass after that
queries nothing and replaces nothing. -/
theorem top_level_precedence (H : Host) (self : GroupedHybridCall) (idx : SlicingIndex)
    (res : Result) (fuel : Nat)
    (hroot : TYPEOF self.original_call = .LANGSXP ∨ TYPEOF self.original_call = .SYMSXP)
    (hres : H.get_handler self.original_call = some res) :
    (self.simplify H (fuel + 2) idx).1 =
        [.get_handler self.original_call, .process self.original_call idx] ∧
      (self.simplify H (fuel + 2) idx).2.1 =
        Outcome.ofExcept ((res.process idx).map SEXP.vector) ∧
      ∀ v, res.process idx = .ok v →
        (simplified H (some idx) (clone self.original_call)).2 = .returned (true, .vector v) ∧
          simplified H (some idx) (.vector v) = ([], .returned (false, .vector v)) := by
  have hlit : ∀ v, simplified H (some idx) (.vector v) = ([], .returned (false, .vector v)) :=
    fun v => simplified_literal H _ _ (by simp [TYPEOF])
  have hs := simplified_handler H idx self.original_call res hroot hres
  rw [simplify_eq]
  cases hp : res.process idx with
  | ok v =>
    rw [hp] at hs
    simp [simplify_loop, hs, hlit, Outcome.ofExcept, Except.map, clone]
  | error e =>
    rw [hp] at hs
    simp [simplify_loop, hs, Outcome.ofExcept, Except.map]

/-- Witness of C1: `sum(x)` over the rows 0, 1, 2 of the column 1, 2, 3, 4. -/
theorem top_level_precedence_witness :
    (TYPEOF sum_x = .LANGSXP ∨ TYPEOF sum_x = .SYMSXP) ∧
      sumHost.get_handler sum_x = some sum_handler ∧
      (GroupedHybridCall.simplify sumHost 2 ⟨sum_x, none⟩ rows012).2.1
        = .returned (.vector [6]) :=
  ⟨by decide, by rfl,
    (top_level_precedence sumHost ⟨sum_x, none⟩ rows012 sum_handler 0
      (by decide) (by rfl)).2.1.trans (by rfl)⟩

/-- C2 (fixpoint). Run for more passes than the rank of the stored call,
`simplify` returns or throws; and whatever expression it returns is stable:
one more pass over it reports "not simplified" and leaves it as it is, its
root has no handler when it is a call or a symbol, and no call node that the
scan of its argument list reaches has one. -/
theorem simplify_fixpoint (H : Host) (self : GroupedHybridCall) (idx : SlicingIndex) (k : Nat) :
    ((∃ e, (self.simplify H (rank self.original_call + 1 + k) idx).2.1 = .returned e) ∨
      (∃ err, (self.simplify H (rank self.original_call + 1 + k) idx).2.1 = .thrown err)) ∧
    ∀ e, (self.simplify H (rank self.original_call + 1 + k) idx).2.1 = .returned e →
      (simplified H (some idx) e).2 = .returned (false, e) ∧
        (TYPEOF e = .LANGSXP ∨ TYPEOF e = .SYMSXP → H.get_handler e = none) ∧
        (TYPEOF e = .LANGSXP → ∀ x ∈ scan (CDR e), H.get_handler x.2 = none) := by
  rw [simplify_eq]
  simp only
  have hfin := loop_finishes H idx (rank self.original_call + 1 + k) self.original_call
    (by omega)
  constructor
  · cases hl : (simplify_loop H (some idx) (rank self.original_call + 1 + k)
        self.original_call).2 with
    | returned e => exact Or.inl ⟨e, rfl⟩
    | thrown err => exact Or.inr ⟨err, rfl⟩
    | null_indices => exact absurd hl hfin.2
    | unfinished => exact absurd hl hfin.1
  · intro e he
    have hst := loop_stable H idx _ _ e he
    exact ⟨hst, simplified_false_root H idx e hst, simplified_false_scan H idx e hst⟩

/-- Witness of C2: `f(g(sum(x)), sum(x))` is rewritten to `f(g(6), 6)`, on
which one more pass replaces nothing. -/
theorem simplify_fixpoint_witness :
    (GroupedHybridCall.simplify sumHost (rank nested + 1 + 0) ⟨nested, none⟩ rows012).2.1
        = .returned (mkCall (.symbol "f") [mkCall (.symbol "g") [.vector [6]], .vector [6]]) ∧
      (simplified sumHost (some rows012)
        (mkCall (.symbol "f") [mkCall (.symbol "g") [.vector [6]], .vector [6]])).2
        = .returned (false,
          mkCall (.symbol "f") [mkCall (.symbol "g") [.vector [6]], .vector [6]]) :=
  ⟨by decide, ((simplify_fixpoint sumHost ⟨nested, none⟩ rows012 0).2 _ (by decide)).1⟩

/-- C3 (termination). The loop of `simplify` ends after at most
`rank original_call` passes that replace a node and one that does not: run
for `rank original_call + 1` passes or more it is never cut short, and more
passes than that change nothing in what it does. -/
theorem simplify_terminates (H : Host) (self : GroupedHybridCall) (idx : SlicingIndex)
    (k : Nat) :
    (self.simplify H (rank self.original_call + 1 + k) idx).2.1 ≠ .unfinished ∧
      self.simplify H (rank self.original_call + 1 + k) idx =
        self.simplify H (rank self.original_call + 1) idx := by
  rw [simplify_eq, simplify_eq]
  simp only
  rw [loop_fuel H idx (rank self.original_call + 1 + k) (rank self.original_call + 1)
    self.original_call (by omega) (by omega)]
  exact ⟨(loop_finishes H idx _ self.original_call (by omega)).1, rfl⟩

/-- Witness of C3: `f(g(sum(x)), sum(x))` has rank 4, and four passes are
enough for it. -/
theorem simplify_terminates_witness :
    rank nested = 4 ∧
      (GroupedHybridCall.simplify sumHost 4 ⟨nested, none⟩ rows012).2.1 ≠ .unfinished ∧
      (GroupedHybridCall.simplify sumHost 5 ⟨nested, none⟩ rows012).2.1 ≠ .unfinished :=
  ⟨by decide, by decide, (simplify_terminates sumHost ⟨nested, none⟩ rows012 0).1⟩

/-- C4 (left-to-right determinism). On a call whose root has no handler, one
pass of `simplified` is the step of the specification on the argument list:
the first call node with a handler in the scan (left to right, outer before
inner) is replaced by what its handler computes and every other node stays;
and the pass reports "not simplified" exactly when no call node of the scan
has a handler. -/
theorem left_to_right (H : Host) (i : SlicingIndex) (root : SEXP)
    (hroot : TYPEOF root = .LANGSXP) (hres : H.get_handler root = none) :
    (simplified H (some i) root).2 =
        (leftmost_outermost_step H i (CDR root)).map (fun r => (r.1, SETCDR root r.2)) ∧
      ((∃ q, (simplified H (some i) root).2 = .returned (false, q)) ↔
        ∀ x ∈ scan (CDR root), H.get_handler x.2 = none) := by
  rcases typeof_cases root with ⟨f, args, rfl⟩ | ⟨name, rfl⟩ | hn
  · rw [simplified_call H i f args hres]
    refine ⟨rfl, ?_⟩
    simp only [CDR]
    rw [← step_false_iff H i args]
    constructor
    · rintro ⟨q, hq⟩
      cases hs : leftmost_outermost_step H i args with
      | returned a =>
        obtain ⟨b, r⟩ := a
        rw [hs] at hq
        simp only [Outcome.map, Outcome.returned.injEq, Prod.mk.injEq] at hq
        exact ⟨r, by rw [hq.1]⟩
      | _ => rw [hs] at hq; simp [Outcome.map] at hq
    · rintro ⟨q, hq⟩
      exact ⟨_, by rw [hq]; rfl⟩
  · simp [TYPEOF] at hroot
  · exact absurd (Or.inl hroot) hn

/-- Witness of C4: in `f(g(sum(x)), sum(x))` the first pass replaces the inner
`sum(x)` of the first argument and leaves the second argument alone. -/
theorem left_to_right_witness :
    TYPEOF nested = .LANGSXP ∧ sumHost.get_handler nested = none ∧
      (simplified sumHost (some rows012) nested).2 =
        .returned (true,
          mkCall (.symbol "f") [mkCall (.symbol "g") [.vector [6]], sum_x]) :=
  ⟨by decide, by rfl,
    (left_to_right sumHost rows012 nested (by decide) (by rfl)).1.trans (by rfl)⟩

/-- C8 (no-match identity). When no call or symbol anywhere in the stored call
has a handler, `simplify` returns the call as it is; and when the stored
expression is neither a call nor a symbol, `simplify` returns it without a
single call out of the header: the lookup is not queried. -/
theorem no_match_identity (H : Host) (self : GroupedHybridCall) (idx : SlicingIndex)
    (fuel : Nat) :
    ((∀ n ∈ subterms self.original_call,
        (TYPEOF n = .LANGSXP ∨ TYPEOF n = .SYMSXP) → H.get_handler n = none) →
      (self.simplify H (fuel + 1) idx).2.1 = .returned self.original_call) ∧
    (¬(TYPEOF self.original_call = .LANGSXP ∨ TYPEOF self.original_call = .SYMSXP) →
      (self.simplify H (fuel + 1) idx).1 = [] ∧
        (self.simplify H (fuel + 1) idx).2.1 = .returned self.original_call) := by
  constructor
  · intro h
    have hs := simplified_no_handler H idx self.original_call h
    rw [simplify_eq]
    simp only [simplify_loop]
    rcases hq : simplified H (some idx) self.original_call with ⟨t, r⟩
    rw [hq] at hs
    simp only at hs
    rw [hs]
  · intro h
    rw [simplify_eq]
    simp [simplify_loop, simplified_literal H _ _ h]

/-- Witness of C8: `f(x) + 1` comes back as it is, and so does the vector 1,
for which nothing is queried. -/
theorem no_match_identity_witness :
    (∀ n ∈ subterms f_x_plus_1,
        (TYPEOF n = .LANGSXP ∨ TYPEOF n = .SYMSXP) → sumHost.get_handler n = none) ∧
      (GroupedHybridCall.simplify sumHost 1 ⟨f_x_plus_1, none⟩ rows012).2.1
        = .returned f_x_plus_1 ∧
      ¬(TYPEOF (.vector [1]) = .LANGSXP ∨ TYPEOF (.vector [1]) = .SYMSXP) ∧
      (GroupedHybridCall.simplify sumHost 1 ⟨.vector [1], none⟩ rows012).1 = [] :=
  ⟨by decide,
    (no_match_identity sumHost ⟨f_x_plus_1, none⟩ rows012 0).1 (by decide),
    by decide,
    ((no_match_identity sumHost ⟨.vector [1], none⟩ rows012 0).2 (by decide)).1⟩

/-! ## The claims on `GroupedHybridEval` -/

theorem simplify_returned (H : Host) (fuel : Nat) (self : GroupedHybridCall)
    (idx : SlicingIndex) (r : Outcome SEXP) (h : (self.simplify H fuel idx).2.1 = r) :
    (simplify_loop H (some idx) fuel self.original_call).2 = r ∧
      (self.simplify H fuel idx).1 = (simplify_loop H (some idx) fuel self.original_call).1 := by
  rw [simplify_eq] at h
  rw [simplify_eq]
  exact ⟨h, rfl⟩

/-- C6 (fully reduced evaluation). When `simplify` returns for the group an
object that is neither a call nor a symbol (a vector `v`, say), `eval` returns
that object; the only calls it makes out of the header are those of
`simplify`, none of which is `Rcpp_eval`; and it builds no environment. -/
theorem fully_reduced_eval (H : Host) (fuel : Nat) (self : GroupedHybridEval)
    (idx : SlicingIndex) (w : World) (call : SEXP)
    (hs : (self.hybrid_call.simplify H fuel idx).2.1 = .returned call)
    (hlit : ¬(TYPEOF call = .LANGSXP ∨ TYPEOF call = .SYMSXP)) :
    (GroupedHybridEval.eval H fuel self idx w).1 = .returned call ∧
      (GroupedHybridEval.eval H fuel self idx w).2.2.trace
        = w.trace ++ (self.hybrid_call.simplify H fuel idx).1 ∧
      (∀ c e, Event.Rcpp_eval c e ∉ (self.hybrid_call.simplify H fuel idx).1) ∧
      (GroupedHybridEval.eval H fuel self idx w).2.2.envs = w.envs := by
  obtain ⟨hl, ht⟩ := simplify_returned H fuel self.hybrid_call idx _ hs
  rw [eval_literal H fuel self idx w call hl hlit, ht]
  exact ⟨rfl, rfl,
    fun c e => rewriter_not_eval _ (loop_trace H (some idx) fuel _) c e, rfl⟩

/-- Witness of C6: `sum(x)` over the rows 0, 1, 2 evaluates to 6 with a lookup
and a `process` and nothing else. -/
theorem fully_reduced_eval_witness :
    ((GroupedHybridEval.construct sumHost sum_x 0 none).hybrid_call.simplify
        sumHost 2 rows012).2.1 = .returned (.vector [6]) ∧
      ¬(TYPEOF (.vector [6]) = .LANGSXP ∨ TYPEOF (.vector [6]) = .SYMSXP) ∧
      (GroupedHybridEval.eval sumHost 2 (GroupedHybridEval.construct sumHost sum_x 0 none)
        rows012 session0).1 = .returned (.vector [6]) ∧
      (GroupedHybridEval.eval sumHost 2 (GroupedHybridEval.construct sumHost sum_x 0 none)
        rows012 session0).2.2.trace = [.get_handler sum_x, .process sum_x rows012] :=
  ⟨by decide, by decide,
    (fully_reduced_eval sumHost 2 (GroupedHybridEval.construct sumHost sum_x 0 none)
      rows012 session0 (.vector [6]) (by decide) (by decide)).1,
    (fully_reduced_eval sumHost 2 (GroupedHybridEval.construct sumHost sum_x 0 none)
      rows012 session0 (.vector [6]) (by decide) (by decide)).2.1.trans (by decide)⟩

/-- C7 (residual evaluation). When `simplify` returns for the group a call or
a symbol, `eval` ends as the generic evaluator does on that residual
expression in the evaluation environment of the scope, every lazy binding
`name` the evaluator reads yielding `subsets.get(name, idx)`; after the calls
of `simplify` and of the scope, `eval` calls `Rcpp_eval` once, on the residual
expression, and then `subsets.get(name, idx)` for each name read, in order. -/
theorem residual_eval (H : Host) (fuel : Nat) (self : GroupedHybridEval)
    (idx : SlicingIndex) (w : World) (call : SEXP)
    (hs : (self.hybrid_call.simplify H fuel idx).2.1 = .returned call)
    (hcode : TYPEOF call = .LANGSXP ∨ TYPEOF call = .SYMSXP) :
    (GroupedHybridEval.eval H fuel self idx w).1 =
        Outcome.ofExcept (feed (fun name => H.subsets_get name idx)
          (H.Rcpp_eval call (self.hybrid_env.get_eval_env H w).1.eval_env
            (self.hybrid_env.get_eval_env H w).2.envs)) ∧
      (∀ name, GroupedHybridEval.get_subset H (self.set_indices idx) name =
        ([.subsets_get name idx], .returned (H.subsets_get name idx))) ∧
      (GroupedHybridEval.eval H fuel self idx w).2.2.trace =
        (self.hybrid_env.get_eval_env H
          { w with trace := w.trace ++ (self.hybrid_call.simplify H fuel idx).1 }).2.trace ++
          .Rcpp_eval call (self.hybrid_env.get_eval_env H w).1.eval_env ::
            (reads (fun name => H.subsets_get name idx)
              (H.Rcpp_eval call (self.hybrid_env.get_eval_env H w).1.eval_env
                (self.hybrid_env.get_eval_env H w).2.envs)).map
              (fun name => .subsets_get name idx) := by
  obtain ⟨hl, ht⟩ := simplify_returned H fuel self.hybrid_call idx _ hs
  rw [eval_code H fuel self idx w call hl hcode, ht]
  exact ⟨rfl, fun name => rfl, rfl⟩

/-- Witness of C7: the symbol `x` has no handler and is left to the generic
evaluator, which reads the lazy binding `x` and gets the rows of the group. -/
theorem residual_eval_witness :
    ((GroupedHybridEval.construct sumHost (.symbol "x") 0 none).hybrid_call.simplify
        sumHost 2 rows012).2.1 = .returned (.symbol "x") ∧
      (TYPEOF (.symbol "x") = .LANGSXP ∨ TYPEOF (.symbol "x") = .SYMSXP) ∧
      (GroupedHybridEval.eval sumHost 2
        (GroupedHybridEval.construct sumHost (.symbol "x") 0 none) rows012 session0).1
        = .returned (.vector [1, 2, 3]) :=
  ⟨by decide, by decide,
    (residual_eval sumHost 2 (GroupedHybridEval.construct sumHost (.symbol "x") 0 none)
      rows012 session0 (.symbol "x") (by decide) (by decide)).1.trans (by rfl)⟩

/-- C9, as the code has it. After `eval` the slot `indices` is empty when
`eval` has returned a value, and still holds the index of the group when it
has not: an exception leaves `eval` before `clear_indices()`. -/
theorem current_index_after_eval (H : Host) (fuel : Nat) (self : GroupedHybridEval)
    (idx : SlicingIndex) (w : World) :
    (GroupedHybridEval.eval H fuel self idx w).2.1.indices =
      match (GroupedHybridEval.eval H fuel self idx w).1 with
      | .returned _ => none
      | _ => some idx := by
  by_cases hl : ∃ c, (simplify_loop H (some idx) fuel self.hybrid_call.original_call).2
      = .returned c
  · obtain ⟨c, hl⟩ := hl
    by_cases hc : TYPEOF c = .LANGSXP ∨ TYPEOF c = .SYMSXP
    · rw [eval_code H fuel self idx w c hl hc]
      cases feed (fun name => H.subsets_get name idx)
        (H.Rcpp_eval c (self.hybrid_env.provide_eval_env H w).1.eval_env
          (self.hybrid_env.provide_eval_env H w).2.envs) <;> rfl
    · rw [eval_literal H fuel self idx w c hl hc]
  · rw [eval_stopped H fuel self idx w (fun c hc => hl ⟨c, hc⟩)]
    cases hr : (simplify_loop H (some idx) fuel self.hybrid_call.original_call).2 with
    | returned c => exact absurd hr (fun h => hl ⟨c, h⟩)
    | _ => rfl

/-- Witness of C9 as the code has it: after `sum(x)` was evaluated the slot
is empty, after `boom()` failed it holds the group. -/
theorem current_index_after_eval_witness :
    (GroupedHybridEval.eval sumHost 2 (GroupedHybridEval.construct sumHost sum_x 0 none)
        rows012 session0).2.1.indices = none ∧
      (GroupedHybridEval.eval sumHost 2 (GroupedHybridEval.construct sumHost boom 0 none)
        rows3 session0).2.1.indices = some rows3 :=
  ⟨(current_index_after_eval sumHost 2 (GroupedHybridEval.construct sumHost sum_x 0 none)
      rows012 session0).trans (by decide),
    (current_index_after_eval sumHost 2 (GroupedHybridEval.construct sumHost boom 0 none)
      rows3 session0).trans (by decide)⟩

/-- C9 fails as stated: when the handler of `boom()` fails, and when the
generic evaluator fails on the symbol `y`, `eval` throws and the slot
`indices` still holds the group. -/
theorem current_index_kept_on_failure :
    (GroupedHybridEval.eval sumHost 2 (GroupedHybridEval.construct sumHost boom 0 none)
        rows012 session0).1 = .thrown "boom failed" ∧
      (GroupedHybridEval.eval sumHost 2 (GroupedHybridEval.construct sumHost boom 0 none)
        rows012 session0).2.1.indices = some rows012 ∧
      (GroupedHybridEval.eval sumHost 2
        (GroupedHybridEval.construct sumHost (.symbol "y") 0 none) rows012 session0).1
        = .thrown "could not evaluate" ∧
      (GroupedHybridEval.eval sumHost 2
        (GroupedHybridEval.construct sumHost (.symbol "y") 0 none) rows012 session0).2.1.indices
        = some rows012 := by
  decide

/-- C12 (idempotence of the scope). On a scope that is not built yet,
`get_eval_env` makes three calls out of the header, `create_env_string`,
`new_child` and `dyn_scope_install`, each once, and sets `has_eval_env`; any
later `get_eval_env` on the object leaves it as it is, with the same
`eval_env`, and makes no call at all. -/
theorem get_eval_env_once (H : Host) (self : GroupedHybridEnv) (w w1 : World)
    (h : self.has_eval_env = false) :
    (self.get_eval_env H w).2.trace =
        w.trace ++ [.create_env_string self.names self.env,
          .new_child (create_env_string w.envs self.names self.env).2,
          .dyn_scope_install
            (new_child (create_env_string w.envs self.names self.env).1
              (create_env_string w.envs self.names self.env).2).2
            (create_env_string w.envs self.names self.env).2 self.env] ∧
      (self.get_eval_env H w).1.has_eval_env = true ∧
      (self.get_eval_env H w).1.get_eval_env H w1 = ((self.get_eval_env H w).1, w1) := by
  refine ⟨?_, provide_eval_env_done H self w, provide_eval_env_again H self w w1⟩
  simp [GroupedHybridEnv.get_eval_env, GroupedHybridEnv.provide_eval_env, h]

/-- Witness of C12: the scope of `x` built in a session that holds the global
environment, and asked for again. -/
theorem get_eval_env_once_witness :
    scope0.has_eval_env = false ∧
      (scope0.get_eval_env sumHost session0).2.trace =
        [.create_env_string ["x"] 0, .new_child 1, .dyn_scope_install 2 1 0] ∧
      ((scope0.get_eval_env sumHost session0).1.get_eval_env sumHost
        (scope0.get_eval_env sumHost session0).2).2.trace =
        [.create_env_string ["x"] 0, .new_child 1, .dyn_scope_install 2 1 0] :=
  ⟨by decide,
    (get_eval_env_once sumHost scope0 session0 session0 (by decide)).1.trans (by decide),
    by
      rw [(get_eval_env_once sumHost scope0 session0
        (scope0.get_eval_env sumHost session0).2 (by decide)).2.2]
      decide⟩

/-- C13 (teardown). The destructor of a scope that was never built leaves the
session as it is, with no call out of the header; the destructor of a scope
that was built makes two calls: one `remove` of all the names of the scope at
once, from the environment two enclosing steps up from `eval_env`, and one
`dyn_scope_clean` of `eval_env`. -/
theorem teardown_once (H : Host) (self : GroupedHybridEnv) (w : World) :
    (self.has_eval_env = false → self.cleanup_eval_env H w = w) ∧
      (self.has_eval_env = true →
        (self.cleanup_eval_env H w).trace =
          w.trace ++ [.remove self.names (env_parent w.envs (env_parent w.envs self.eval_env)),
            .dyn_scope_clean self.eval_env]) := by
  constructor
  · intro h
    simp [GroupedHybridEnv.cleanup_eval_env, h]
  · intro h
    simp [GroupedHybridEnv.cleanup_eval_env, GroupedHybridEnv.remove_all_from_env, h]

/-- Witness of C13: the scope of `x`, destroyed before and after it was built. -/
theorem teardown_once_witness :
    scope0.has_eval_env = false ∧ scope0.cleanup_eval_env sumHost session0 = session0 ∧
      (scope0.get_eval_env sumHost session0).1.has_eval_env = true ∧
      ((scope0.get_eval_env sumHost session0).1.cleanup_eval_env sumHost
        (scope0.get_eval_env sumHost session0).2).trace =
        [.create_env_string ["x"] 0, .new_child 1, .dyn_scope_install 2 1 0,
          .remove ["x"] 1, .dyn_scope_clean 3] :=
  ⟨by decide, (teardown_once sumHost scope0 session0).1 (by decide), by decide,
    ((teardown_once sumHost (scope0.get_eval_env sumHost session0).1
      (scope0.get_eval_env sumHost session0).2).2 (by decide)).trans (by decide)⟩

/-- C14, as the code has it. `eval` does not look at the slot `indices`
before it sets it: on an object whose slot already holds a group it does
what it does on the object with the slot empty, and the slot afterwards is
empty when `eval` has returned, whatever it held on entry. -/
theorem reentrant_eval_overwrites (H : Host) (fuel : Nat) (self : GroupedHybridEval)
    (idx1 idx2 : SlicingIndex) (w : World) :
    GroupedHybridEval.eval H fuel { self with indices := some idx1 } idx2 w =
        GroupedHybridEval.eval H fuel { self with indices := none } idx2 w ∧
      (GroupedHybridEval.eval H fuel { self with indices := some idx1 } idx2 w).2.1.indices =
        match (GroupedHybridEval.eval H fuel { self with indices := some idx1 } idx2 w).1 with
        | .returned _ => none
        | _ => some idx2 := by
  refine ⟨rfl, ?_⟩
  by_cases hl : ∃ c, (simplify_loop H (some idx2) fuel self.hybrid_call.original_call).2
      = .returned c
  · obtain ⟨c, hl⟩ := hl
    by_cases hc : TYPEOF c = .LANGSXP ∨ TYPEOF c = .SYMSXP
    · rw [eval_code H fuel { self with indices := some idx1 } idx2 w c hl hc]
      cases feed (fun name => H.subsets_get name idx2)
        (H.Rcpp_eval c (self.hybrid_env.provide_eval_env H w).1.eval_env
          (self.hybrid_env.provide_eval_env H w).2.envs) <;> rfl
    · rw [eval_literal H fuel { self with indices := some idx1 } idx2 w c hl hc]
  · rw [eval_stopped H fuel { self with indices := some idx1 } idx2 w
      (fun c hc => hl ⟨c, hc⟩)]
    cases hr : (simplify_loop H (some idx2) fuel self.hybrid_call.original_call).2 with
    | returned c => exact absurd hr (fun h => hl ⟨c, h⟩)
    | _ => rfl

/-- C14 fails as stated: `eval` for the row 3, entered while the slot holds
the rows 0, 1, 2, throws nothing: it returns the sum over the row 3, and
leaves the slot empty. -/
theorem reentrant_eval_not_rejected :
    (GroupedHybridEval.eval sumHost 2
        { GroupedHybridEval.construct sumHost sum_x 0 none with indices := some rows012 }
        rows3 session0).1 = .returned (.vector [4]) ∧
      (GroupedHybridEval.eval sumHost 2
        { GroupedHybridEval.construct sumHost sum_x 0 none with indices := some rows012 }
        rows3 session0).2.1.indices = none := by
  decide

/-- C15, as the code has it. `get_subset` makes no check of the slot
`indices`: while the slot is empty it dereferences the `NULL` pointer, which
is no `throw`; while the slot holds a group it returns
`subsets.get(name, group)`. -/
theorem get_subset_unchecked (H : Host) (self : GroupedHybridEval) (name : SymbolString) :
    (self.indices = none →
        GroupedHybridEval.get_subset H self name = ([], .null_indices) ∧
          ∀ e, (GroupedHybridEval.get_subset H self name).2 ≠ .thrown e) ∧
      (∀ i, self.indices = some i →
        GroupedHybridEval.get_subset H self name =
          ([.subsets_get name i], .returned (H.subsets_get name i))) := by
  constructor
  · intro h
    simp [GroupedHybridEval.get_subset, GroupedHybridEval.get_indices, h]
  · intro i h
    simp [GroupedHybridEval.get_subset, GroupedHybridEval.get_indices, h]

/-- Witness of C15 as the code has it: `get_subset` of `x` on a fresh object,
and on the object while it evaluates the rows 0, 1, 2. -/
theorem get_subset_unchecked_witness :
    (GroupedHybridEval.construct sumHost sum_x 0 none).indices = none ∧
      GroupedHybridEval.get_subset sumHost (GroupedHybridEval.construct sumHost sum_x 0 none) "x"
        = ([], .null_indices) ∧
      GroupedHybridEval.get_subset sumHost
        ((GroupedHybridEval.construct sumHost sum_x 0 none).set_indices rows012) "x"
        = ([.subsets_get "x" rows012], .returned [1, 2, 3]) :=
  ⟨by decide,
    ((get_subset_unchecked sumHost (GroupedHybridEval.construct sumHost sum_x 0 none) "x").1
      (by decide)).1,
    ((get_subset_unchecked sumHost
      ((GroupedHybridEval.construct sumHost sum_x 0 none).set_indices rows012) "x").2
      rows012 (by decide)).trans (by decide)⟩

/-- C15 fails as stated: `get_subset` on a fresh object, whose slot is empty,
does not end in an error: it ends in the dereference of the `NULL` pointer. -/
theorem get_subset_no_error :
    (GroupedHybridEval.get_subset sumHost
        (GroupedHybridEval.construct sumHost sum_x 0 none) "x").2 = .null_indices ∧
      ¬ ∃ e, (GroupedHybridEval.get_subset sumHost
        (GroupedHybridEval.construct sumHost sum_x 0 none) "x").2 = .thrown e := by
  constructor
  · decide
  · rintro ⟨e, he⟩
    simp [GroupedHybridEval.get_subset, GroupedHybridEval.get_indices,
      GroupedHybridEval.construct] at he

/-- C19 (scope laziness). When `simplify` returns for the group an object that
is neither a call nor a symbol, `eval` leaves the scope as it was, so a scope
that was not built stays unbuilt; and the calls `eval` makes out of the header
are those of the rewriter: no `subsets.get`, and no call that builds an
environment. -/
theorem scope_stays_unbuilt (H : Host) (fuel : Nat) (self : GroupedHybridEval)
    (idx : SlicingIndex) (w : World) (call : SEXP)
    (hs : (self.hybrid_call.simplify H fuel idx).2.1 = .returned call)
    (hlit : ¬(TYPEOF call = .LANGSXP ∨ TYPEOF call = .SYMSXP))
    (hfresh : self.hybrid_env.has_eval_env = false) :
    (GroupedHybridEval.eval H fuel self idx w).2.1.hybrid_env = self.hybrid_env ∧
      (GroupedHybridEval.eval H fuel self idx w).2.1.hybrid_env.has_eval_env = false ∧
      (GroupedHybridEval.eval H fuel self idx w).2.2.envs = w.envs ∧
      ∃ evs, (GroupedHybridEval.eval H fuel self idx w).2.2.trace = w.trace ++ evs ∧
        (∀ ev ∈ evs, ev.of_rewriter = true) ∧
        ∀ name i, Event.subsets_get name i ∉ evs := by
  obtain ⟨hl, _⟩ := simplify_returned H fuel self.hybrid_call idx _ hs
  rw [eval_literal H fuel self idx w call hl hlit]
  exact ⟨rfl, hfresh, rfl, _, rfl, loop_trace H (some idx) fuel _,
    fun name i => rewriter_not_subset _ (loop_trace H (some idx) fuel _) name i⟩

/-- Witness of C19: `sum(x)` over the rows 0, 1, 2 on a fresh object. -/
theorem scope_stays_unbuilt_witness :
    ((GroupedHybridEval.construct sumHost sum_x 0 none).hybrid_call.simplify
        sumHost 2 rows012).2.1 = .returned (.vector [6]) ∧
      ¬(TYPEOF (.vector [6]) = .LANGSXP ∨ TYPEOF (.vector [6]) = .SYMSXP) ∧
      (GroupedHybridEval.construct sumHost sum_x 0 none).hybrid_env.has_eval_env = false ∧
      (GroupedHybridEval.eval sumHost 2 (GroupedHybridEval.construct sumHost sum_x 0 none)
        rows012 session0).2.1.hybrid_env.has_eval_env = false :=
  ⟨by decide, by decide, by decide,
    (scope_stays_unbuilt sumHost 2 (GroupedHybridEval.construct sumHost sum_x 0 none)
      rows012 session0 (.vector [6]) (by decide) (by decide) (by decide)).2.1⟩

/-! ## A handler that fails -/

theorem map_not_false {f : Bool × SEXP → SEXP} (r : Outcome (Bool × SEXP))
    (h : ∀ q, r ≠ .returned (false, q)) :
    ∀ q, r.map (fun x => (x.1, f x)) ≠ .returned (false, q) := by
  intro q hq
  cases r with
  | returned a =>
    obtain ⟨b, a2⟩ := a
    simp only [Outcome.map, Outcome.returned.injEq, Prod.mk.injEq] at hq
    exact h a2 (by rw [hq.1])
  | _ => simp [Outcome.map] at hq

theorem replace_process (H : Host) (i : SlicingIndex) (p : SEXP) :
    ∀ node j, Event.process node j ∈ (replace H (some i) p).1 →
      j = i ∧ (∀ q, (replace H (some i) p).2 ≠ .returned (false, q)) ∧
        ∃ res, H.get_handler node = some res ∧
          ∀ e, res.process i = .error e →
            (replace H (some i) p).2 = .thrown e ∧
              ∃ t, (replace H (some i) p).1 = t ++ [.get_handler node, .process node i] := by
  induction p using replace.induct H (some i) with
  | case1 type f args rest res hres hidx => simp at hidx
  | case2 type f args rest res hres k hidx =>
    cases hidx
    intro node j hm
    have he1 : replace H (some i) (.cell type (.cell .LANGSXP f args) rest) =
        ([.get_handler (.cell .LANGSXP f args), .process (.cell .LANGSXP f args) i],
          match res.process i with
          | .ok v => .returned (true, .cell type (.vector v) rest)
          | .error e => .thrown e) := by
      simp only [replace, hres]
    rw [he1] at hm ⊢
    simp only [List.mem_cons, List.mem_singleton, Event.process.injEq,
      List.not_mem_nil, or_false, false_or] at hm
    rcases hm with hm | ⟨hn, hj⟩
    · simp at hm
    subst hn
    subst hj
    refine ⟨rfl, ?_, res, hres, ?_⟩
    · intro q
      cases res.process j <;> simp
    · intro e he
      rw [he]
      exact ⟨rfl, [], rfl⟩
  | case3 f args rest hres t args1 hargs ih1 ih2 =>
    intro node j hm
    have he1 : replace H (some i) (.cell .LISTSXP (.cell .LANGSXP f args) rest) =
        (.get_handler (.cell .LANGSXP f args) :: (t ++ (replace H (some i) rest).1),
          (replace H (some i) rest).2.map
            (fun r => (r.1, .cell .LISTSXP (.cell .LANGSXP f args1) r.2))) := by
      simp only [replace, hres, hargs, if_true]
    rw [he1] at hm ⊢
    simp only [List.mem_cons, List.mem_append] at hm
    rcases hm with hm | hm | hm
    · simp at hm
    · have h1 := (ih1 node j (by rw [hargs]; exact hm)).2.1 args1
      rw [hargs] at h1
      exact absurd rfl h1
    · obtain ⟨hj, hnf, res, hr, hfail⟩ := ih2 node j hm
      refine ⟨hj, map_not_false _ hnf, res, hr, ?_⟩
      intro e he
      obtain ⟨ho, t2, ht2⟩ := hfail e he
      rw [ho, ht2]
      exact ⟨rfl, .get_handler (.cell .LANGSXP f args) :: (t ++ t2), by simp⟩
  | case4 type f args rest hres t args1 hargs hty ih1 =>
    intro node j hm
    have he1 : replace H (some i) (.cell type (.cell .LANGSXP f args) rest) =
        (.get_handler (.cell .LANGSXP f args) :: t,
          .returned (false, .cell type (.cell .LANGSXP f args1) rest)) := by
      simp only [replace, hres, hargs, hty, if_false]
    rw [he1] at hm
    simp only [List.mem_cons] at hm
    rcases hm with hm | hm
    · simp at hm
    · have h1 := (ih1 node j (by rw [hargs]; exact hm)).2.1 args1
      rw [hargs] at h1
      exact absurd rfl h1
  | case5 type f args rest hres t r hr hargs ih1 =>
    intro node j hm
    have he1 : replace H (some i) (.cell type (.cell .LANGSXP f args) rest) =
        (.get_handler (.cell .LANGSXP f args) :: t,
          r.map (fun r => (r.1, .cell type (.cell .LANGSXP f r.2) rest))) := by
      simp only [replace, hres, hargs]
    rw [he1] at hm ⊢
    simp only [List.mem_cons] at hm
    rcases hm with hm | hm
    · simp at hm
    · obtain ⟨hj, hnf, res, hr1, hfail⟩ := ih1 node j (by rw [hargs]; exact hm)
      rw [hargs] at hnf hfail
      refine ⟨hj, map_not_false _ hnf, res, hr1, ?_⟩
      intro e he
      obtain ⟨ho, t2, ht2⟩ := hfail e he
      simp only at ho ht2
      rw [ho, ht2]
      exact ⟨rfl, .get_handler (.cell .LANGSXP f args) :: t2, by simp⟩
  | case6 obj rest hobj ih =>
    have he1 : replace H (some i) (.cell .LISTSXP obj rest) =
        ((replace H (some i) rest).1,
          (replace H (some i) rest).2.map (fun r => (r.1, .cell .LISTSXP obj r.2))) := by
      cases obj with
      | cell inner f args =>
        cases inner with
        | LANGSXP => exact absurd rfl (hobj f args)
        | LISTSXP => simp [replace]
      | _ => simp [replace]
    intro node j hm
    rw [he1] at hm ⊢
    obtain ⟨hj, hnf, res, hr1, hfail⟩ := ih node j hm
    refine ⟨hj, map_not_false _ hnf, res, hr1, ?_⟩
    intro e he
    obtain ⟨ho, t2, ht2⟩ := hfail e he
    rw [ho]
    exact ⟨rfl, t2, ht2⟩
  | case7 type obj rest hobj hty =>
    have he1 : (replace H (some i) (.cell type obj rest)).1 = [] := by
      cases obj with
      | cell inner f args =>
        cases inner with
        | LANGSXP => exact absurd rfl (hobj f args)
        | LISTSXP => simp [replace, hty]
      | _ => simp [replace, hty]
    intro node j hm
    rw [he1] at hm
    simp at hm
  | case8 p h1 h2 =>
    intro node j hm
    cases p with
    | cell type obj rest => exact absurd rfl (h2 type obj rest)
    | _ => simp [replace] at hm

theorem simplified_call_full (H : Host) (indices : Option SlicingIndex) (f args : SEXP)
    (h : H.get_handler (.cell .LANGSXP f args) = none) :
    simplified H indices (.cell .LANGSXP f args) =
      (.get_handler (.cell .LANGSXP f args) :: (replace H indices args).1,
        (replace H indices args).2.map (fun r => (r.1, .cell .LANGSXP f r.2))) := by
  simp [simplified, TYPEOF, h, CDR, SETCDR]

theorem simplified_process (H : Host) (i : SlicingIndex) (call : SEXP) :
    ∀ node j, Event.process node j ∈ (simplified H (some i) call).1 →
      j = i ∧ ∃ res, H.get_handler node = some res ∧
        ∀ e, res.process i = .error e →
          (simplified H (some i) call).2 = .thrown e ∧
            ∃ t, (simplified H (some i) call).1 = t ++ [.get_handler node, .process node i] := by
  intro node j hm
  by_cases hroot : TYPEOF call = .LANGSXP ∨ TYPEOF call = .SYMSXP
  · cases hh : H.get_handler call with
    | some res =>
      rw [simplified_handler H i call res hroot hh] at hm ⊢
      simp only [List.mem_cons, List.mem_singleton, Event.process.injEq,
        List.not_mem_nil, or_false] at hm
      rcases hm with hm | ⟨hn, hj⟩
      · simp at hm
      subst hn
      subst hj
      refine ⟨rfl, res, hh, ?_⟩
      intro e he
      rw [he]
      exact ⟨rfl, [], rfl⟩
    | none =>
      rcases typeof_cases call with ⟨f, args, rfl⟩ | ⟨name, rfl⟩ | hn
      · rw [simplified_call_full H _ f args hh] at hm ⊢
        simp only [List.mem_cons] at hm
        rcases hm with hm | hm
        · simp at hm
        · obtain ⟨hj, _, res, hr, hfail⟩ := replace_process H i args node j hm
          refine ⟨hj, res, hr, ?_⟩
          intro e he
          obtain ⟨ho, t2, ht2⟩ := hfail e he
          rw [ho, ht2]
          exact ⟨rfl, .get_handler (.cell .LANGSXP f args) :: t2, by simp⟩
      · rw [simplified_symbol H _ name hh] at hm
        simp at hm
      · exact absurd hroot hn
  · rw [simplified_literal H _ call hroot] at hm
    simp at hm

theorem loop_process (H : Host) (i : SlicingIndex) :
    ∀ n call node j, Event.process node j ∈ (simplify_loop H (some i) n call).1 →
      j = i ∧ ∃ res, H.get_handler node = some res ∧
        ∀ e, res.process i = .error e →
          (simplify_loop H (some i) n call).2 = .thrown e ∧
            ∃ t, (simplify_loop H (some i) n call).1
              = t ++ [.get_handler node, .process node i] := by
  intro n
  induction n with
  | zero => intro call node j hm; simp [simplify_loop] at hm
  | succ n ih =>
    intro call node j hm
    have hsp := simplified_process H i call node j
    simp only [simplify_loop] at hm ⊢
    rcases hq : simplified H (some i) call with ⟨t, r⟩
    rw [hq] at hm hsp
    simp only at hsp
    cases r with
    | returned a =>
      obtain ⟨b, q⟩ := a
      cases b with
      | true =>
        simp only [List.mem_append] at hm
        rcases hm with hm | hm
        · obtain ⟨hj, res, hr, hfail⟩ := hsp hm
          refine ⟨hj, res, hr, ?_⟩
          intro e he
          have := (hfail e he).1
          simp at this
        · obtain ⟨hj, res, hr, hfail⟩ := ih q node j hm
          refine ⟨hj, res, hr, ?_⟩
          intro e he
          obtain ⟨ho, t2, ht2⟩ := hfail e he
          simp only
          rw [ho, ht2]
          exact ⟨rfl, t ++ t2, by simp⟩
      | false =>
        obtain ⟨hj, res, hr, hfail⟩ := hsp hm
        refine ⟨hj, res, hr, ?_⟩
        intro e he
        have := (hfail e he).1
        simp at this
    | thrown e1 =>
      obtain ⟨hj, res, hr, hfail⟩ := hsp hm
      exact ⟨hj, res, hr, fun e he => by simpa using hfail e he⟩
    | null_indices =>
      obtain ⟨hj, res, hr, hfail⟩ := hsp hm
      exact ⟨hj, res, hr, fun e he => by simpa using hfail e he⟩
    | unfinished =>
      obtain ⟨hj, res, hr, hfail⟩ := hsp hm
      exact ⟨hj, res, hr, fun e he => by simpa using hfail e he⟩

/-- C11 (a handler that fails). When `process` fails, with the error `e`, for
a node that `simplify` matched for the group, `eval` throws `e`; the failing
`process` is the last call `eval` makes out of the header, so no rewriting
step follows it and `Rcpp_eval` is not called; and no environment is built. -/
theorem handler_failure_commits (H : Host) (fuel : Nat) (self : GroupedHybridEval)
    (idx : SlicingIndex) (w : World) (node : SEXP) (res : Result) (e : Error)
    (hm : Event.process node idx ∈ (self.hybrid_call.simplify H fuel idx).1)
    (hres : H.get_handler node = some res) (hfail : res.process idx = .error e) :
    (GroupedHybridEval.eval H fuel self idx w).1 = .thrown e ∧
      (∃ t, (GroupedHybridEval.eval H fuel self idx w).2.2.trace =
        w.trace ++ t ++ [.get_handler node, .process node idx] ∧
          ∀ ev ∈ t, ev.of_rewriter = true) ∧
      (∀ c env, Event.Rcpp_eval c env ∉
        (GroupedHybridEval.eval H fuel self idx w).2.2.trace.drop w.trace.length) ∧
      (GroupedHybridEval.eval H fuel self idx w).2.2.envs = w.envs := by
  rw [simplify_eq] at hm
  simp only at hm
  obtain ⟨_, res1, hr1, hf1⟩ := loop_process H idx fuel _ node idx hm
  rw [hres] at hr1
  cases hr1
  obtain ⟨ho, t, ht⟩ := hf1 e hfail
  have hrw := loop_trace H (some idx) fuel self.hybrid_call.original_call
  rw [eval_stopped H fuel self idx w (by rw [ho]; simp), ho]
  refine ⟨rfl, ⟨t, by simp only [ht, List.append_assoc], ?_⟩, ?_, rfl⟩
  · intro ev hev
    exact hrw ev (by rw [ht]; exact List.mem_append_left _ hev)
  · intro c env
    simp only [List.drop_left]
    exact rewriter_not_eval _ hrw c env

/-- Witness of C11: `boom()`, whose handler fails. -/
theorem handler_failure_commits_witness :
    Event.process boom rows012 ∈
        ((GroupedHybridEval.construct sumHost boom 0 none).hybrid_call.simplify
          sumHost 2 rows012).1 ∧
      sumHost.get_handler boom = some boom_handler ∧
      boom_handler.process rows012 = .error "boom failed" ∧
      (GroupedHybridEval.eval sumHost 2 (GroupedHybridEval.construct sumHost boom 0 none)
        rows012 session0).1 = .thrown "boom failed" :=
  ⟨by decide, by rfl, by rfl,
    (handler_failure_commits sumHost 2 (GroupedHybridEval.construct sumHost boom 0 none)
      rows012 session0 boom boom_handler "boom failed" (by decide) (by rfl) (by rfl)).1⟩

/-! ## The measure that decreases -/

/-- C16, as the code has it. After a pass of `simplified` that replaced a
node, the rank of the call is strictly smaller than before: the rank counts
the root, when it is a call or a symbol, and every call node the scan can
reach, with or without a handler. -/
theorem rank_decreases (H : Host) (i : SlicingIndex) (call q : SEXP)
    (h : (simplified H (some i) call).2 = .returned (true, q)) : rank q < rank call :=
  simplified_true_rank H i call q h

/-- Witness of C16 as the code has it: the pass over `top(f(g(x)))` that
replaces `g(x)` takes the rank from 3 to 2. -/
theorem rank_decreases_witness :
    (simplified exposeHost (some rows012) top_f_g_x).2 =
        .returned (true, mkCall (.symbol "top") [mkCall (.symbol "f") [.vector [6]]]) ∧
      rank top_f_g_x = 3 ∧
      rank (mkCall (.symbol "top") [mkCall (.symbol "f") [.vector [6]]]) < rank top_f_g_x :=
  ⟨by decide, by decide,
    rank_decreases exposeHost rows012 top_f_g_x _ (by decide)⟩

/-- C16 fails as stated: the pass over `top(f(g(x)))` replaces `g(x)`, the one
node with a handler, and leaves `top(f(6))`, in which `f(6)` has a handler:
one node with a handler before the pass and one after it. -/
theorem eligible_count_not_decreasing :
    (simplified exposeHost (some rows012) top_f_g_x).2 =
        .returned (true, mkCall (.symbol "top") [mkCall (.symbol "f") [.vector [6]]]) ∧
      eligible_count exposeHost top_f_g_x = 1 ∧
      eligible_count exposeHost (mkCall (.symbol "top") [mkCall (.symbol "f") [.vector [6]]])
        = 1 := by
  decide

/-! ## The environment the destructor strips -/

theorem env_parent_assign (envs : List REnv) (target : EnvId) (name : String) (value e : EnvId) :
    env_parent (assign envs target name value) e = env_parent envs e := by
  unfold assign
  cases ht : envs[target]? with
  | none => rfl
  | some r =>
    simp only [env_parent, List.getElem?_set]
    by_cases hte : target = e
    · subst hte
      have hlt : target < envs.length := by
        rcases Nat.lt_or_ge target envs.length with h | h
        · exact h
        · rw [List.getElem?_eq_none h] at ht
          cases ht
      simp [hlt, ht]
    · simp [hte]

theorem assign_length (envs : List REnv) (target : EnvId) (name : String) (value : EnvId) :
    (assign envs target name value).length = envs.length := by
  unfold assign
  cases envs[target]? <;> simp

/-- C17, as the code has it. When the install function hands back an
environment enclosed by the one it was given, the environment two enclosing
steps up from the stored `eval_env` is the active environment, the one
`create_env_string` made with the lazy bindings, and that is the environment
the destructor removes the names from; it is not the outer environment `env`
when that one was there before the scope was built. -/
theorem teardown_target (H : Host) (self : GroupedHybridEnv) (w : World)
    (hchild : install_returns_child H) (h : self.has_eval_env = false) :
    env_parent (self.get_eval_env H w).2.envs
        (env_parent (self.get_eval_env H w).2.envs (self.get_eval_env H w).1.eval_env)
        = (create_env_string w.envs self.names self.env).2 ∧
      ((self.get_eval_env H w).1.cleanup_eval_env H (self.get_eval_env H w).2).trace =
        (self.get_eval_env H w).2.trace ++
          [.remove self.names (create_env_string w.envs self.names self.env).2,
            .dyn_scope_clean (self.get_eval_env H w).1.eval_env] ∧
      (self.env < w.envs.length →
        (create_env_string w.envs self.names self.env).2 ≠ self.env) := by
  have hc := hchild
    (assign (new_child (create_env_string w.envs self.names self.env).1
        (create_env_string w.envs self.names self.env).2).1
      (new_child (create_env_string w.envs self.names self.env).1
        (create_env_string w.envs self.names self.env).2).2 ".data"
      (create_env_string w.envs self.names self.env).2)
    (new_child (create_env_string w.envs self.names self.env).1
      (create_env_string w.envs self.names self.env).2).2
    (create_env_string w.envs self.names self.env).2 self.env
    (by simp [assign_length, new_child, create_env_string])
  rw [env_parent_assign] at hc
  have hb : env_parent (new_child (create_env_string w.envs self.names self.env).1
        (create_env_string w.envs self.names self.env).2).1
      (new_child (create_env_string w.envs self.names self.env).1
        (create_env_string w.envs self.names self.env).2).2
      = (create_env_string w.envs self.names self.env).2 := by
    simp only [env_parent, new_child, create_env_string]
    rw [List.getElem?_append_right (Nat.le_refl _)]
    simp
  have htarget : env_parent (self.get_eval_env H w).2.envs
      (env_parent (self.get_eval_env H w).2.envs (self.get_eval_env H w).1.eval_env)
      = (create_env_string w.envs self.names self.env).2 := by
    simp only [GroupedHybridEnv.get_eval_env, GroupedHybridEnv.provide_eval_env, h,
      Bool.false_eq_true, if_false]
    rw [hc.1, hc.2, hb]
  refine ⟨htarget, ?_, ?_⟩
  · have hdone := provide_eval_env_done H self w
    have hnames : (self.provide_eval_env H w).1.names = self.names := by
      simp [GroupedHybridEnv.provide_eval_env, h]
    simp only [GroupedHybridEnv.cleanup_eval_env, GroupedHybridEnv.remove_all_from_env,
      GroupedHybridEnv.get_eval_env] at htarget ⊢
    simp only [hdone, Bool.not_true, Bool.false_eq_true, if_false, htarget, hnames,
      List.append_assoc, List.singleton_append]
  · intro hlt
    simp only [create_env_string]
    exact Nat.ne_of_gt hlt

/-- Witness of C17 as the code has it: the install function of `sumHost` makes
a new environment under the one it is given, and the destructor of the scope
of `x` removes `x` from the environment 1, the active one. -/
theorem teardown_target_witness :
    install_returns_child sumHost ∧ scope0.has_eval_env = false ∧
      env_parent (scope0.get_eval_env sumHost session0).2.envs
        (env_parent (scope0.get_eval_env sumHost session0).2.envs
          (scope0.get_eval_env sumHost session0).1.eval_env) = 1 :=
  have hchild : install_returns_child sumHost := by
    intro envs bottom top enclosure hlt
    simp [sumHost, env_parent, List.getElem?_append_left hlt]
  ⟨hchild, by decide,
    (teardown_target sumHost scope0 session0 hchild (by decide)).1.trans (by decide)⟩

/-- C17 fails as stated: with an install function that hands back the
environment it was given, two enclosing steps up from `eval_env` is the
environment 0, the outer environment `env`, and the destructor removes `x`
from it, not from the environment 1 that holds the lazy binding of `x`. -/
theorem teardown_strips_outer_env :
    (create_env_string session0.envs scope0.names scope0.env).2 = 1 ∧ scope0.env = 0 ∧
      ((scope0.get_eval_env flatHost session0).1.cleanup_eval_env flatHost
        (scope0.get_eval_env flatHost session0).2).trace =
        [.create_env_string ["x"] 0, .new_child 1, .dyn_scope_install 2 1 0,
          .remove ["x"] 0, .dyn_scope_clean 2] ∧
      (((scope0.get_eval_env flatHost session0).1.cleanup_eval_env flatHost
        (scope0.get_eval_env flatHost session0).2).envs[1]?).map (fun e => e.active)
        = some ["x"] := by
  decide

/-! ## What a rewrite keeps -/

theorem args_rewritten_trans (p q : SEXP) (h1 : ArgsRewritten p q) :
    ∀ r, ArgsRewritten q r → ArgsRewritten p r := by
  induction h1 with
  | same p => intro r h2; exact h2
  | keep type obj rest rest1 h ih =>
    intro r h2
    cases h2 with
    | same => exact .keep type obj rest rest1 h
    | keep _ _ _ rest2 h3 => exact .keep type obj rest rest2 (ih _ h3)
    | value _ f args _ rest2 v h3 => exact .value type f args rest rest2 v (ih _ h3)
    | inside _ f args args1 _ rest2 h3 h4 =>
      exact .inside type f args args1 rest rest2 h3 (ih _ h4)
  | value type f args rest rest1 v h ih =>
    intro r h2
    cases h2 with
    | same => exact .value type f args rest rest1 v h
    | keep _ _ _ rest2 h3 => exact .value type f args rest rest2 v (ih _ h3)
  | inside type f args args1 rest rest1 ha hr iha ihr =>
    intro r h2
    cases h2 with
    | same => exact .inside type f args args1 rest rest1 ha hr
    | keep _ _ _ rest2 h3 => exact .inside type f args args1 rest rest2 ha (ihr _ h3)
    | value _ _ _ _ rest2 v h3 => exact .value type f args rest rest2 v (ihr _ h3)
    | inside _ _ _ args2 _ rest2 h3 h4 =>
      exact .inside type f args args2 rest rest2 (iha _ h3) (ihr _ h4)

theorem args_rewritten_count (p q : SEXP) (h : ArgsRewritten p q) :
    arg_count q = arg_count p := by
  induction h with
  | same p => rfl
  | keep type obj rest rest1 _ ih => simp [arg_count, ih]
  | value type f args rest rest1 v _ ih => simp [arg_count, ih]
  | inside type f args args1 rest rest1 _ _ _ ih => simp [arg_count, ih]

theorem put_rewritten (v : Value) (p : SEXP) :
    ∀ way node, (way, node) ∈ scan p → ArgsRewritten p (put (.vector v) way p) := by
  induction p using scan.induct with
  | case1 type f args rest ih1 ih2 =>
    intro way node hmem
    simp only [scan, List.cons_append, List.mem_cons, List.mem_append, List.mem_map,
      Prod.mk.injEq] at hmem
    rcases hmem with ⟨h1, _⟩ | ⟨x, hx, h1, _⟩ | hmem
    · subst h1
      simp only [put]
      exact .value type f args rest rest v (.same rest)
    · subst h1
      simp only [put]
      exact .inside type f args _ rest rest (ih1 x.1 x.2 hx) (.same rest)
    · by_cases ht : type = .LISTSXP
      · simp only [ht, if_true, List.mem_map, Prod.mk.injEq] at hmem
        obtain ⟨x, hx, h1, _⟩ := hmem
        subst h1
        rw [put_next]
        exact .keep type _ rest _ (ih2 x.1 x.2 hx)
      · simp [ht] at hmem
  | case2 obj rest hobj ih =>
    intro way node hmem
    rw [scan_other _ obj rest (fun f a => hobj f a)] at hmem
    simp only [if_true, List.mem_map, Prod.mk.injEq] at hmem
    obtain ⟨x, hx, h1, _⟩ := hmem
    subst h1
    rw [put_next]
    exact .keep _ obj rest _ (ih x.1 x.2 hx)
  | case3 type obj rest hobj ht =>
    intro way node hmem
    rw [scan_other _ obj rest (fun f a => hobj f a)] at hmem
    simp [ht] at hmem
  | case4 p h1 h2 =>
    intro way node hmem
    cases p with
    | cell type obj rest => exact absurd rfl (h2 type obj rest)
    | _ => simp [scan] at hmem

theorem step_rewritten (H : Host) (i : SlicingIndex) (p : SEXP) (b : Bool) (q : SEXP)
    (h : leftmost_outermost_step H i p = .returned (b, q)) : ArgsRewritten p q := by
  unfold leftmost_outermost_step at h
  cases hf : first_match H p with
  | none =>
    simp only [hf, Outcome.returned.injEq, Prod.mk.injEq] at h
    rw [← h.2]
    exact .same p
  | some x =>
    obtain ⟨way, node⟩ := x
    simp only [hf] at h
    cases hres : H.get_handler node with
    | none =>
      simp only [hres, Outcome.returned.injEq, Prod.mk.injEq] at h
      rw [← h.2]
      exact .same p
    | some res =>
      simp only [hres] at h
      cases hp : res.process i with
      | error e => simp [hp] at h
      | ok v =>
        simp only [hp, Outcome.returned.injEq, Prod.mk.injEq] at h
        rw [← h.2]
        exact put_rewritten v p way node (first_match_mem H p _ hf)

theorem simplified_rewritten (H : Host) (i : SlicingIndex) (call : SEXP) (b : Bool) (q : SEXP)
    (h : (simplified H (some i) call).2 = .returned (b, q)) : Rewritten call q := by
  by_cases hroot : TYPEOF call = .LANGSXP ∨ TYPEOF call = .SYMSXP
  · cases hh : H.get_handler call with
    | some res =>
      rw [simplified_handler H i call res hroot hh] at h
      cases hp : res.process i with
      | error e => simp [hp] at h
      | ok v =>
        simp only [hp, Outcome.returned.injEq, Prod.mk.injEq] at h
        rw [← h.2]
        exact .whole call v ((is_code_iff call).mpr hroot)
    | none =>
      rcases typeof_cases call with ⟨f, args, rfl⟩ | ⟨name, rfl⟩ | hn
      · rw [simplified_call H i f args hh] at h
        cases hs : leftmost_outermost_step H i args with
        | returned a =>
          rw [hs] at h
          simp only [Outcome.map, Outcome.returned.injEq, Prod.mk.injEq] at h
          rw [← h.2]
          exact .args f args a.2 (step_rewritten H i args a.1 a.2 hs)
        | _ => rw [hs] at h; simp [Outcome.map] at h
      · rw [simplified_symbol H _ name hh] at h
        simp only [Outcome.returned.injEq, Prod.mk.injEq] at h
        rw [← h.2]
        exact .same _
      · exact absurd hroot hn
  · rw [simplified_literal H _ call hroot] at h
    simp only [Outcome.returned.injEq, Prod.mk.injEq] at h
    rw [← h.2]
    exact .same _

theorem rewritten_trans (a b c : SEXP) (h1 : Rewritten a b) (h2 : Rewritten b c) :
    Rewritten a c := by
  cases h1 with
  | whole _ v hcode =>
    cases h2 with
    | whole _ v1 hc1 => simp [is_code, TYPEOF] at hc1
    | same => exact .whole a v hcode
  | args f args args1 h =>
    cases h2 with
    | whole _ v1 hc1 => exact .whole _ v1 (by simp [is_code, TYPEOF])
    | args _ _ args2 h3 => exact .args f args args2 (args_rewritten_trans _ _ h _ h3)
    | same => exact .args f args args1 h
  | same => exact h2

theorem loop_rewritten (H : Host) (i : SlicingIndex) :
    ∀ n call e, (simplify_loop H (some i) n call).2 = .returned e → Rewritten call e := by
  intro n
  induction n with
  | zero => intro call e h; simp [simplify_loop] at h
  | succ n ih =>
    intro call e h
    simp only [simplify_loop] at h
    have hsr := simplified_rewritten H i call
    rcases hs : simplified H (some i) call with ⟨t, r⟩
    rw [hs] at h hsr
    cases r with
    | returned a =>
      obtain ⟨b, q⟩ := a
      cases b with
      | true => exact rewritten_trans _ _ _ (hsr true q rfl) (ih q e h)
      | false =>
        simp only [Outcome.returned.injEq] at h
        subst h
        exact hsr false q rfl
    | _ => simp at h

theorem rewritten_call (a f args : SEXP) (h : Rewritten a (.cell .LANGSXP f args)) :
    ∃ args0, a = .cell .LANGSXP f args0 ∧ ArgsRewritten args0 args := by
  cases h with
  | args _ args0 _ ha => exact ⟨args0, rfl, ha⟩
  | same => exact ⟨args, rfl, .same args⟩

/-- C18 (structure preservation). What `simplify` returns is the stored call
rewritten: a vector for the whole of it, or the same call, with the same head,
over an argument list in which, cell by cell, the node is the same, or was a
call and is now a vector, or is the same call over an argument list rewritten
in the same way; so the replaced subtrees are calls in argument position and
none lies inside another, and a call that is still there has its head and as
many arguments as before. -/
theorem simplify_keeps_structure (H : Host) (fuel : Nat) (self : GroupedHybridCall)
    (idx : SlicingIndex) (e : SEXP)
    (h : (self.simplify H fuel idx).2.1 = .returned e) :
    Rewritten self.original_call e ∧
      ∀ f args, e = .cell .LANGSXP f args →
        ∃ args0, self.original_call = .cell .LANGSXP f args0 ∧ ArgsRewritten args0 args ∧
          arg_count args = arg_count args0 := by
  obtain ⟨hl, _⟩ := simplify_returned H fuel self idx _ h
  have hr := loop_rewritten H idx fuel _ e hl
  refine ⟨hr, ?_⟩
  intro f args he
  subst he
  obtain ⟨args0, h0, ha⟩ := rewritten_call _ f args hr
  exact ⟨args0, h0, ha, args_rewritten_count _ _ ha⟩

/-- Witness of C18: `f(g(sum(x)), sum(x))` comes back as `f(g(6), 6)`. -/
theorem simplify_keeps_structure_witness :
    (GroupedHybridCall.simplify sumHost 4 ⟨nested, none⟩ rows012).2.1 =
        .returned (mkCall (.symbol "f") [mkCall (.symbol "g") [.vector [6]], .vector [6]]) ∧
      Rewritten nested
        (mkCall (.symbol "f") [mkCall (.symbol "g") [.vector [6]], .vector [6]]) :=
  ⟨by decide,
    (simplify_keeps_structure sumHost 4 ⟨nested, none⟩ rows012 _ (by decide)).1⟩

/-! ## The nodes the lookup is asked about -/

theorem scan_lang (type : CellType) (f args rest : SEXP) :
    scan (.cell type (.cell .LANGSXP f args) rest) =
      ([], .cell .LANGSXP f args) :: (scan args).map (fun x => (Move.into :: x.1, x.2))
        ++ (if type = .LISTSXP then (scan rest).map (fun x => (Move.next :: x.1, x.2))
            else []) := by
  simp [scan]

theorem replace_queries (H : Host) (indices : Option SlicingIndex) (p : SEXP) :
    ∀ node, Event.get_handler node ∈ (replace H indices p).1 →
      ∃ way, (way, node) ∈ scan p := by
  induction p using replace.induct H indices with
  | case1 type f args rest res hres hidx =>
    intro node hm
    simp only [replace, hres, hidx, List.mem_singleton, Event.get_handler.injEq] at hm
    subst hm
    exact ⟨[], by rw [scan_lang]; simp⟩
  | case2 type f args rest res hres i hidx =>
    intro node hm
    simp only [replace, hres, hidx, List.mem_cons, Event.get_handler.injEq,
      List.mem_singleton] at hm
    rcases hm with hm | hm
    · subst hm
      exact ⟨[], by rw [scan_lang]; simp⟩
    · simp at hm
  | case3 f args rest hres t args1 hargs ih1 ih2 =>
    intro node hm
    have he1 : (replace H indices (.cell .LISTSXP (.cell .LANGSXP f args) rest)).1 =
        .get_handler (.cell .LANGSXP f args) :: (t ++ (replace H indices rest).1) := by
      simp only [replace, hres, hargs, if_true]
    rw [he1] at hm
    rw [hargs] at ih1
    simp only [List.mem_cons, Event.get_handler.injEq, List.mem_append] at hm
    rcases hm with hm | hm | hm
    · subst hm
      exact ⟨[], by rw [scan_lang]; simp⟩
    · obtain ⟨way, hw⟩ := ih1 node hm
      refine ⟨Move.into :: way, ?_⟩
      rw [scan_lang]
      simp only [List.cons_append, List.mem_cons, List.mem_append, List.mem_map]
      exact Or.inr (Or.inl ⟨(way, node), hw, rfl⟩)
    · obtain ⟨way, hw⟩ := ih2 node hm
      refine ⟨Move.next :: way, ?_⟩
      rw [scan_lang]
      simp only [List.cons_append, List.mem_cons, List.mem_append, List.mem_map, if_true]
      exact Or.inr (Or.inr ⟨(way, node), hw, rfl⟩)
  | case4 type f args rest hres t args1 hargs hty ih1 =>
    intro node hm
    have he1 : (replace H indices (.cell type (.cell .LANGSXP f args) rest)).1 =
        .get_handler (.cell .LANGSXP f args) :: t := by
      simp only [replace, hres, hargs, hty, if_false]
    rw [he1] at hm
    rw [hargs] at ih1
    simp only [List.mem_cons, Event.get_handler.injEq] at hm
    rcases hm with hm | hm
    · subst hm
      exact ⟨[], by rw [scan_lang]; simp⟩
    · obtain ⟨way, hw⟩ := ih1 node hm
      refine ⟨Move.into :: way, ?_⟩
      rw [scan_lang]
      simp only [List.cons_append, List.mem_cons, List.mem_append, List.mem_map]
      exact Or.inr (Or.inl ⟨(way, node), hw, rfl⟩)
  | case5 type f args rest hres t r hr hargs ih1 =>
    intro node hm
    have he1 : (replace H indices (.cell type (.cell .LANGSXP f args) rest)).1 =
        .get_handler (.cell .LANGSXP f args) :: t := by
      simp only [replace, hres, hargs]
    rw [he1] at hm
    rw [hargs] at ih1
    simp only [List.mem_cons, Event.get_handler.injEq] at hm
    rcases hm with hm | hm
    · subst hm
      exact ⟨[], by rw [scan_lang]; simp⟩
    · obtain ⟨way, hw⟩ := ih1 node hm
      refine ⟨Move.into :: way, ?_⟩
      rw [scan_lang]
      simp only [List.cons_append, List.mem_cons, List.mem_append, List.mem_map]
      exact Or.inr (Or.inl ⟨(way, node), hw, rfl⟩)
  | case6 obj rest hobj ih =>
    intro node hm
    have he1 : (replace H indices (.cell .LISTSXP obj rest)).1 = (replace H indices rest).1 := by
      cases obj with
      | cell inner f args =>
        cases inner with
        | LANGSXP => exact absurd rfl (hobj f args)
        | LISTSXP => simp [replace]
      | _ => simp [replace]
    rw [he1] at hm
    obtain ⟨way, hw⟩ := ih node hm
    refine ⟨Move.next :: way, ?_⟩
    rw [scan_other _ obj rest (fun f a => hobj f a)]
    simp only [if_true, List.mem_map]
    exact ⟨(way, node), hw, rfl⟩
  | case7 type obj rest hobj hty =>
    intro node hm
    have he1 : (replace H indices (.cell type obj rest)).1 = [] := by
      cases obj with
      | cell inner f args =>
        cases inner with
        | LANGSXP => exact absurd rfl (hobj f args)
        | LISTSXP => simp [replace, hty]
      | _ => simp [replace, hty]
    rw [he1] at hm
    simp at hm
  | case8 p h1 h2 =>
    intro node hm
    cases p with
    | cell type obj rest => exact absurd rfl (h2 type obj rest)
    | _ => simp [replace] at hm

theorem simplified_queries (H : Host) (indices : Option SlicingIndex) (call : SEXP) :
    ∀ node, Event.get_handler node ∈ (simplified H indices call).1 →
      (node = call ∧ (TYPEOF call = .LANGSXP ∨ TYPEOF call = .SYMSXP)) ∨
        (TYPEOF call = .LANGSXP ∧ TYPEOF node = .LANGSXP ∧
          ∃ way, (way, node) ∈ scan (CDR call)) := by
  intro node hm
  unfold simplified at hm
  by_cases hroot : TYPEOF call = .LANGSXP ∨ TYPEOF call = .SYMSXP
  · simp only [hroot, if_true] at hm
    cases hh : H.get_handler call with
    | some res =>
      simp only [hh] at hm
      left
      refine ⟨?_, hroot⟩
      cases indices with
      | none => simpa using hm
      | some i => simpa using hm
    | none =>
      simp only [hh] at hm
      by_cases hl : TYPEOF call = .LANGSXP
      · simp only [hl, if_true, List.mem_cons, Event.get_handler.injEq] at hm
        rcases hm with hm | hm
        · exact Or.inl ⟨hm, hroot⟩
        · obtain ⟨way, hw⟩ := replace_queries H indices (CDR call) node hm
          exact Or.inr ⟨hl, (scan_subterms _ _ hw).2, way, hw⟩
      · simp only [hl, if_false, List.mem_singleton, Event.get_handler.injEq] at hm
        exact Or.inl ⟨hm, hroot⟩
  · simp only [hroot, if_false, List.not_mem_nil] at hm

theorem simplified_true_type (H : Host) (i : SlicingIndex) (call q : SEXP)
    (h : (simplified H (some i) call).2 = .returned (true, q)) : TYPEOF q ≠ .SYMSXP := by
  have hr := simplified_rewritten H i call true q h
  cases hr with
  | whole _ v _ => simp [TYPEOF]
  | args f args args1 _ => simp [TYPEOF]
  | same =>
    have := simplified_true_rank H i call call h
    omega

theorem loop_queries (H : Host) (i : SlicingIndex) :
    ∀ n call node, Event.get_handler node ∈ (simplify_loop H (some i) n call).1 →
      TYPEOF node = .LANGSXP ∨ (node = call ∧ TYPEOF call = .SYMSXP) := by
  intro n
  induction n with
  | zero => intro call node hm; simp [simplify_loop] at hm
  | succ n ih =>
    intro call node hm
    have hsq := simplified_queries H (some i) call node
    have first : Event.get_handler node ∈ (simplified H (some i) call).1 →
        TYPEOF node = .LANGSXP ∨ (node = call ∧ TYPEOF call = .SYMSXP) := by
      intro hm1
      rcases hsq hm1 with ⟨hn, hl | hsym⟩ | ⟨_, hl, _⟩
      · exact Or.inl (by rw [hn]; exact hl)
      · exact Or.inr ⟨hn, hsym⟩
      · exact Or.inl hl
    simp only [simplify_loop] at hm
    have htt := simplified_true_type H i call
    rcases hs : simplified H (some i) call with ⟨t, r⟩
    rw [hs] at hm first htt
    cases r with
    | returned a =>
      obtain ⟨b, q⟩ := a
      cases b with
      | true =>
        simp only [List.mem_append] at hm
        rcases hm with hm | hm
        · exact first hm
        · rcases ih q node hm with hl | ⟨_, hsym⟩
          · exact Or.inl hl
          · exact absurd hsym (htt q rfl)
      | false => exact first hm
    | _ => exact first hm

/-- C20 (the positions the lookup is asked about). In one pass of `simplified`
the lookup is asked about the root, when that is a call or a symbol, and
about call nodes of the scan of the argument list, which holds nodes in
argument position only; what the pass returns is the call rewritten, in which
every head and every node that is not a call in argument position is as it
was. Over the whole of `simplify` the lookup is asked about calls, and about
a symbol only when it is the stored expression itself. -/
theorem positions_queried (H : Host) (fuel : Nat) (self : GroupedHybridCall)
    (idx : SlicingIndex) :
    (∀ call node, Event.get_handler node ∈ (simplified H (some idx) call).1 →
      (node = call ∧ (TYPEOF call = .LANGSXP ∨ TYPEOF call = .SYMSXP)) ∨
        (TYPEOF call = .LANGSXP ∧ TYPEOF node = .LANGSXP ∧
          ∃ way, (way, node) ∈ scan (CDR call))) ∧
      (∀ call b q, (simplified H (some idx) call).2 = .returned (b, q) → Rewritten call q) ∧
      (∀ node, Event.get_handler node ∈ (self.simplify H fuel idx).1 →
        TYPEOF node = .LANGSXP ∨
          (node = self.original_call ∧ TYPEOF self.original_call = .SYMSXP)) := by
  refine ⟨fun call node hm => simplified_queries H (some idx) call node hm,
    fun call b q h => simplified_rewritten H idx call b q h, ?_⟩
  intro node hm
  rw [simplify_eq] at hm
  exact loop_queries H idx fuel _ node hm

/-- Witness of C20: in `(sum(x))(x)` the head `sum(x)` and the argument `x`
both have a handler in `eagerHost`, and `simplify` asks the lookup about the
root only and returns the call as it is. -/
theorem positions_queried_witness :
    (eagerHost.get_handler sum_x).isSome = true ∧
      (eagerHost.get_handler (.symbol "x")).isSome = true ∧
      GroupedHybridCall.simplify eagerHost 3 ⟨sum_x_applied, none⟩ rows012 =
        ([.get_handler sum_x_applied], .returned sum_x_applied, ⟨sum_x_applied, none⟩) ∧
      Rewritten sum_x_applied sum_x_applied :=
  ⟨by decide, by decide, by decide,
    (positions_queried eagerHost 3 ⟨sum_x_applied, none⟩ rows012).2.1
      sum_x_applied false sum_x_applied (by decide)⟩

/-! ## Objects in memory -/

theorem get_append (h e : Memory.Heap) (a : Nat) (n : Memory.Node) (hn : h[a]? = some n) :
    (h ++ e)[a]? = some n := by
  have hlt : a < h.length := by
    rcases Nat.lt_or_ge a h.length with hl | hl
    · exact hl
    · rw [List.getElem?_eq_none hl] at hn
      cases hn
  rw [List.getElem?_append_left hlt]
  exact hn

theorem get_lt (h : Memory.Heap) (a : Nat) (n : Memory.Node) (hn : h[a]? = some n) :
    a < h.length := by
  rcases Nat.lt_or_ge a h.length with hl | hl
  · exact hl
  · rw [List.getElem?_eq_none hl] at hn
    cases hn

theorem get_end (h : Memory.Heap) (n : Memory.Node) : (h ++ [n])[h.length]? = some n := by
  rw [List.getElem?_append_right (Nat.le_refl _)]
  simp

theorem node_keep (h h1 : Memory.Heap) (p : Memory.Ptr) (n : Memory.Node)
    (hk : ∀ (a : Nat) (m : Memory.Node), h[a]? = some m → m.is_cell = false →
      h1[a]? = some m)
    (hn : Memory.node h p = some n) (hc : n.is_cell = false) : Memory.node h1 p = some n := by
  cases p with
  | none => simp [Memory.node] at hn
  | some a =>
    simp only [Memory.node] at hn ⊢
    exact hk a n hn hc

theorem outside_refl (h : Memory.Heap) (lo hi : Nat) : Memory.Outside h h lo hi :=
  fun _ _ hn _ => hn

theorem outside_trans (h h1 h2 : Memory.Heap) (lo hi : Nat)
    (h01 : Memory.Outside h h1 lo hi) (h12 : Memory.Outside h1 h2 lo hi) :
    Memory.Outside h h2 lo hi :=
  fun a n hn hc => h12 a n (h01 a n hn hc) hc

theorem outside_mono (h h1 : Memory.Heap) (lo hi lo0 hi0 : Nat)
    (ho : Memory.Outside h h1 lo hi) (hlo : lo0 ≤ lo) (hhi : hi ≤ hi0) :
    Memory.Outside h h1 lo0 hi0 := by
  intro a n hn hc
  apply ho a n hn
  rcases hc with hc | hc | hc
  · exact Or.inl hc
  · exact Or.inr (Or.inl (by omega))
  · exact Or.inr (Or.inr (by omega))

theorem outside_append (h e : Memory.Heap) (lo hi : Nat) : Memory.Outside h (h ++ e) lo hi :=
  fun a n hn _ => get_append h e a n hn

theorem outside_set (h : Memory.Heap) (lo hi a : Nat) (type : CellType)
    (car cdr : Memory.Ptr) (n1 : Memory.Node)
    (ha : h[a]? = some (.cell type car cdr)) (hlo : lo ≤ a) (hhi : a < hi) :
    Memory.Outside h (h.set a n1) lo hi := by
  intro b n hn hc
  have hne : a ≠ b := by
    intro hab
    subst hab
    rw [ha] at hn
    cases hn
    rcases hc with hc | hc | hc
    · simp [Memory.Node.is_cell] at hc
    · omega
    · omega
  rw [List.getElem?_set_ne hne]
  exact hn

theorem owns_keep (t : SEXP) :
    ∀ (h h1 : Memory.Heap) (lo hi : Nat) (p : Memory.Ptr), Memory.Owns h lo hi p t →
      (∀ (a : Nat) (n : Memory.Node), h[a]? = some n →
        (n.is_cell = false ∨ (lo ≤ a ∧ a < hi)) → h1[a]? = some n) →
      Memory.Owns h1 lo hi p t := by
  induction t with
  | R_NilValue => intro h h1 lo hi p ho _; simpa [Memory.Owns] using ho
  | symbol name =>
    intro h h1 lo hi p ho hk
    simp only [Memory.Owns] at ho ⊢
    exact node_keep h h1 p _ (fun a m hm hc => hk a m hm (Or.inl hc)) ho rfl
  | vector v =>
    intro h h1 lo hi p ho hk
    simp only [Memory.Owns] at ho ⊢
    exact node_keep h h1 p _ (fun a m hm hc => hk a m hm (Or.inl hc)) ho rfl
  | cell type tcar tcdr ih1 ih2 =>
    intro h h1 lo hi p ho hk
    simp only [Memory.Owns] at ho ⊢
    obtain ⟨a, car, cdr, mid1, mid2, hp, ha, h1le, h2le, h3le, hlt, hcar, hcdr⟩ := ho
    refine ⟨a, car, cdr, mid1, mid2, hp, hk a _ ha (Or.inr ⟨by omega, hlt⟩),
      h1le, h2le, h3le, hlt, ?_, ?_⟩
    · apply ih1 h h1 lo mid1 car hcar
      intro b n hn hc
      apply hk b n hn
      rcases hc with hc | ⟨hc1, hc2⟩
      · exact Or.inl hc
      · exact Or.inr ⟨hc1, by omega⟩
    · apply ih2 h h1 mid1 mid2 cdr hcdr
      intro b n hn hc
      apply hk b n hn
      rcases hc with hc | ⟨hc1, hc2⟩
      · exact Or.inl hc
      · exact Or.inr ⟨by omega, by omega⟩

theorem owns_outside (t : SEXP) (h h1 : Memory.Heap) (lo hi lo1 hi1 : Nat) (p : Memory.Ptr)
    (ho : Memory.Owns h lo hi p t) (hout : Memory.Outside h h1 lo1 hi1)
    (hd : hi ≤ lo1 ∨ hi1 ≤ lo) : Memory.Owns h1 lo hi p t := by
  apply owns_keep t h h1 lo hi p ho
  intro a n hn hc
  apply hout a n hn
  rcases hc with hc | ⟨hc1, hc2⟩
  · exact Or.inl hc
  · rcases hd with hd | hd
    · exact Or.inr (Or.inl (by omega))
    · exact Or.inr (Or.inr (by omega))

theorem owns_append (t : SEXP) (h e : Memory.Heap) (lo hi : Nat) (p : Memory.Ptr)
    (ho : Memory.Owns h lo hi p t) : Memory.Owns (h ++ e) lo hi p t :=
  owns_keep t h (h ++ e) lo hi p ho (fun a n hn _ => get_append h e a n hn)

theorem represents_keep (t : SEXP) :
    ∀ (h h1 : Memory.Heap) (p : Memory.Ptr), Memory.Represents h p t →
      (∀ (a : Nat) (n : Memory.Node), h[a]? = some n → h1[a]? = some n) →
      Memory.Represents h1 p t := by
  induction t with
  | R_NilValue => intro h h1 p ho _; simpa [Memory.Represents] using ho
  | symbol name =>
    intro h h1 p ho hk
    simp only [Memory.Represents] at ho ⊢
    exact node_keep h h1 p _ (fun a m hm _ => hk a m hm) ho rfl
  | vector v =>
    intro h h1 p ho hk
    simp only [Memory.Represents] at ho ⊢
    exact node_keep h h1 p _ (fun a m hm _ => hk a m hm) ho rfl
  | cell type tcar tcdr ih1 ih2 =>
    intro h h1 p ho hk
    simp only [Memory.Represents] at ho ⊢
    obtain ⟨a, car, cdr, hp, ha, hcar, hcdr⟩ := ho
    exact ⟨a, car, cdr, hp, hk a _ ha, ih1 h h1 car hcar hk, ih2 h h1 cdr hcdr hk⟩

theorem owns_represents (t : SEXP) :
    ∀ (h : Memory.Heap) (lo hi : Nat) (p : Memory.Ptr), Memory.Owns h lo hi p t →
      Memory.Represents h p t := by
  induction t with
  | R_NilValue => intro h lo hi p ho; simpa [Memory.Owns, Memory.Represents] using ho
  | symbol name => intro h lo hi p ho; simpa [Memory.Owns, Memory.Represents] using ho
  | vector v => intro h lo hi p ho; simpa [Memory.Owns, Memory.Represents] using ho
  | cell type tcar tcdr ih1 ih2 =>
    intro h lo hi p ho
    simp only [Memory.Owns] at ho
    simp only [Memory.Represents]
    obtain ⟨a, car, cdr, mid1, mid2, hp, ha, _, _, _, _, hcar, hcdr⟩ := ho
    exact ⟨a, car, cdr, hp, ha, ih1 h _ _ car hcar, ih2 h _ _ cdr hcdr⟩

theorem tree_represents (t : SEXP) :
    ∀ (h : Memory.Heap) (p : Memory.Ptr) (fuel : Nat), Memory.Represents h p t →
      Memory.size t ≤ fuel → Memory.tree fuel h p = some t := by
  induction t with
  | R_NilValue =>
    intro h p fuel ho hs
    simp only [Memory.Represents] at ho
    subst ho
    cases fuel with
    | zero => simp [Memory.size] at hs
    | succ n => simp [Memory.tree, Memory.node]
  | symbol name =>
    intro h p fuel ho hs
    simp only [Memory.Represents] at ho
    cases fuel with
    | zero => simp [Memory.size] at hs
    | succ n => simp [Memory.tree, ho]
  | vector v =>
    intro h p fuel ho hs
    simp only [Memory.Represents] at ho
    cases fuel with
    | zero => simp [Memory.size] at hs
    | succ n => simp [Memory.tree, ho]
  | cell type tcar tcdr ih1 ih2 =>
    intro h p fuel ho hs
    simp only [Memory.Represents] at ho
    obtain ⟨a, car, cdr, hp, ha, hcar, hcdr⟩ := ho
    subst hp
    cases fuel with
    | zero => simp [Memory.size] at hs
    | succ n =>
      simp only [Memory.size] at hs
      simp [Memory.tree, Memory.node, ha, ih1 h car n hcar (by omega),
        ih2 h cdr n hcdr (by omega)]

theorem typeof_represents (t : SEXP) (h : Memory.Heap) (p : Memory.Ptr)
    (ho : Memory.Represents h p t) : Memory.TYPEOF h p = TYPEOF t := by
  cases t with
  | R_NilValue =>
    simp only [Memory.Represents] at ho
    subst ho
    simp [Memory.TYPEOF, Memory.node, TYPEOF]
  | symbol name =>
    simp only [Memory.Represents] at ho
    simp [Memory.TYPEOF, ho, TYPEOF]
  | vector v =>
    simp only [Memory.Represents] at ho
    simp [Memory.TYPEOF, ho, TYPEOF]
  | cell type tcar tcdr =>
    simp only [Memory.Represents] at ho
    obtain ⟨a, car, cdr, hp, ha, _, _⟩ := ho
    subst hp
    cases type <;> simp [Memory.TYPEOF, Memory.node, ha, TYPEOF]

theorem clone_owns (t : SEXP) :
    ∀ (h : Memory.Heap) (p : Memory.Ptr) (fuel : Nat), Memory.Represents h p t →
      Memory.size t ≤ fuel →
      ∃ ext q, Memory.clone fuel h p = some (h ++ ext, q) ∧
        Memory.Owns (h ++ ext) h.length (h ++ ext).length q t := by
  induction t with
  | R_NilValue =>
    intro h p fuel ho hs
    simp only [Memory.Represents] at ho
    subst ho
    cases fuel with
    | zero => simp [Memory.size] at hs
    | succ n => exact ⟨[], none, by simp [Memory.clone, Memory.node], by simp [Memory.Owns]⟩
  | symbol name =>
    intro h p fuel ho hs
    simp only [Memory.Represents] at ho
    cases fuel with
    | zero => simp [Memory.size] at hs
    | succ n =>
      exact ⟨[], p, by simp [Memory.clone, ho], by simpa [Memory.Owns] using ho⟩
  | vector v =>
    intro h p fuel ho hs
    simp only [Memory.Represents] at ho
    cases fuel with
    | zero => simp [Memory.size] at hs
    | succ n =>
      refine ⟨[.vector v], some h.length, by simp [Memory.clone, ho], ?_⟩
      simp [Memory.Owns, Memory.node]
  | cell type tcar tcdr ih1 ih2 =>
    intro h p fuel ho hs
    simp only [Memory.Represents] at ho
    obtain ⟨a, car, cdr, hp, ha, hcar, hcdr⟩ := ho
    subst hp
    cases fuel with
    | zero => simp [Memory.size] at hs
    | succ n =>
      simp only [Memory.size] at hs
      obtain ⟨e1, q1, hc1, ho1⟩ := ih1 h car n hcar (by omega)
      have hcdr1 : Memory.Represents (h ++ e1) cdr tcdr :=
        represents_keep tcdr h (h ++ e1) cdr hcdr (fun b m hm => get_append h e1 b m hm)
      obtain ⟨e2, q2, hc2, ho2⟩ := ih2 (h ++ e1) cdr n hcdr1 (by omega)
      refine ⟨e1 ++ e2 ++ [.cell type q1 q2], some (h ++ e1 ++ e2).length, ?_, ?_⟩
      · simp [Memory.clone, Memory.node, ha, hc1, hc2]
      · have hh : h ++ (e1 ++ e2 ++ [.cell type q1 q2])
            = (h ++ e1 ++ e2) ++ [.cell type q1 q2] := by simp
        rw [hh]
        simp only [Memory.Owns]
        refine ⟨(h ++ e1 ++ e2).length, q1, q2, (h ++ e1).length, (h ++ e1 ++ e2).length,
          rfl, get_end _ _, by simp, by simp, Nat.le_refl _, by simp, ?_, ?_⟩
        · have := owns_append tcar (h ++ e1) (e2 ++ [.cell type q1 q2]) _ _ q1 ho1
          simpa [List.append_assoc] using this
        · exact owns_append tcdr (h ++ e1 ++ e2) [.cell type q1 q2] _ _ q2 ho2

/-! ## `replace` in memory does what `replace` on values does -/

theorem outcome_map_fst (r : Outcome (Bool × SEXP)) (g : Bool × SEXP → SEXP) :
    (r.map (fun x => (x.1, g x))).map Prod.fst = r.map Prod.fst := by
  cases r <;> rfl

theorem mem_car (h : Memory.Heap) (a : Nat) (type : CellType) (car cdr : Memory.Ptr)
    (ha : h[a]? = some (.cell type car cdr)) : Memory.CAR h (some a) = car := by
  simp [Memory.CAR, Memory.node, ha]

theorem mem_cdr (h : Memory.Heap) (a : Nat) (type : CellType) (car cdr : Memory.Ptr)
    (ha : h[a]? = some (.cell type car cdr)) : Memory.CDR h (some a) = cdr := by
  simp [Memory.CDR, Memory.node, ha]

theorem mem_typeof_lang (h : Memory.Heap) (a : Nat) (type : CellType) (car cdr : Memory.Ptr)
    (ha : h[a]? = some (.cell type car cdr)) :
    Memory.TYPEOF h (some a) = .LANGSXP ↔ type = .LANGSXP := by
  cases type <;> simp [Memory.TYPEOF, Memory.node, ha]

theorem mem_typeof_list (h : Memory.Heap) (a : Nat) (type : CellType) (car cdr : Memory.Ptr)
    (ha : h[a]? = some (.cell type car cdr)) :
    Memory.TYPEOF h (some a) = .LISTSXP ↔ type = .LISTSXP := by
  cases type <;> simp [Memory.TYPEOF, Memory.node, ha]

theorem size_pos (t : SEXP) : 1 ≤ Memory.size t := by
  cases t <;> simp only [Memory.size] <;> omega

theorem setcar_vector (h : Memory.Heap) (lo hi mid1 mid2 a : Nat) (type : CellType)
    (car cdr : Memory.Ptr) (rest : SEXP) (v : Value)
    (ha : h[a]? = some (.cell type car cdr)) (hcdr : Memory.Owns h mid1 mid2 cdr rest)
    (h1 : lo ≤ mid1) (h2 : mid1 ≤ mid2) (h3 : mid2 ≤ a) (h4 : a < hi) :
    Memory.Outside h (Memory.SETCAR (h ++ [.vector v]) (some a) (some h.length)) lo hi ∧
      Memory.Owns (Memory.SETCAR (h ++ [.vector v]) (some a) (some h.length)) lo hi (some a)
        (.cell type (.vector v) rest) := by
  have ha1 : (h ++ [Memory.Node.vector v])[a]? = some (.cell type car cdr) :=
    get_append h _ a _ ha
  have hlt := get_lt h a _ ha
  have hset : Memory.SETCAR (h ++ [.vector v]) (some a) (some h.length)
      = (h ++ [Memory.Node.vector v]).set a (.cell type (some h.length) cdr) := by
    simp [Memory.SETCAR, ha1]
  rw [hset]
  have hout : ∀ l u, l ≤ a → a < u → Memory.Outside h
      ((h ++ [Memory.Node.vector v]).set a (.cell type (some h.length) cdr)) l u :=
    fun l u hl hu => outside_trans _ _ _ l u (outside_append h _ l u)
      (outside_set _ l u a type car cdr _ ha1 hl hu)
  refine ⟨hout lo hi (by omega) h4, ?_⟩
  simp only [Memory.Owns]
  refine ⟨a, some h.length, cdr, mid1, mid2, rfl, ?_, h1, h2, h3, h4, ?_, ?_⟩
  · rw [List.getElem?_set_self (by simp; omega)]
  · simp only [Memory.node]
    rw [List.getElem?_set_ne (by omega)]
    exact get_end h _
  · exact owns_outside rest h _ mid1 mid2 a (a + 1) cdr hcdr
      (hout a (a + 1) (Nat.le_refl _) (by omega)) (Or.inl h3)

theorem mem_replace_lang (H : Host) (i : SlicingIndex) (n : Nat) (h : Memory.Heap)
    (a a2 : Nat) (type : CellType) (cdr fp ap : Memory.Ptr) (obj : SEXP)
    (ha : h[a]? = some (.cell type (some a2) cdr))
    (ha2 : h[a2]? = some (.cell .LANGSXP fp ap))
    (ht : Memory.tree n h (some a2) = some obj) :
    Memory.replace H (some i) (n + 1) h (some a) =
      match H.get_handler obj with
      | some res =>
        match res.process i with
        | .ok v =>
          ([.get_handler obj, .process obj i], .returned true,
            Memory.SETCAR (h ++ [.vector v]) (some a) (some h.length))
        | .error e => ([.get_handler obj, .process obj i], .thrown e, h)
      | none =>
        match Memory.replace H (some i) n h ap with
        | (t, .returned false, h1) =>
          if Memory.TYPEOF h1 (some a) = .LISTSXP then
            (.get_handler obj :: (t ++ (Memory.replace H (some i) n h1
                (Memory.CDR h1 (some a))).1),
              (Memory.replace H (some i) n h1 (Memory.CDR h1 (some a))).2)
          else (.get_handler obj :: t, .returned false, h1)
        | (t, r, h1) => (.get_handler obj :: t, r, h1) := by
  have hty : Memory.TYPEOF h (some a2) = .LANGSXP :=
    (mem_typeof_lang h a2 _ _ _ ha2).2 rfl
  rw [Memory.replace]
  simp only [mem_car h a _ _ _ ha, mem_cdr h a2 _ _ _ ha2, hty, if_true, ht]

theorem mem_replace_other (H : Host) (i : SlicingIndex) (n : Nat) (h : Memory.Heap)
    (a : Nat) (type : CellType) (car cdr : Memory.Ptr)
    (ha : h[a]? = some (.cell type car cdr))
    (hty : Memory.TYPEOF h car ≠ .LANGSXP) :
    Memory.replace H (some i) (n + 1) h (some a) =
      if type = .LISTSXP then Memory.replace H (some i) n h cdr
      else ([], .returned false, h) := by
  rw [Memory.replace]
  simp only [mem_car h a _ _ _ ha, mem_cdr h a _ _ _ ha, hty, if_false,
    mem_typeof_list h a _ _ _ ha]

theorem mem_replace_atom (H : Host) (i : SlicingIndex) (n : Nat) (h : Memory.Heap)
    (p : Memory.Ptr) (hp : ∀ type car cdr, Memory.node h p ≠ some (.cell type car cdr)) :
    Memory.replace H (some i) (n + 1) h p = ([], .returned false, h) := by
  have hcar : Memory.CAR h p = none := by
    unfold Memory.CAR
    split
    · next type car cdr hn => exact absurd hn (hp _ _ _)
    · rfl
  have hty : Memory.TYPEOF h p ≠ .LISTSXP := by
    unfold Memory.TYPEOF
    split <;> simp
    next car cdr hn => exact absurd hn (hp _ _ _)
  have hnil : Memory.TYPEOF h none ≠ .LANGSXP := by simp [Memory.TYPEOF, Memory.node]
  rw [Memory.replace]
  simp only [hcar, hty, hnil, if_false]

theorem lang_frame (h h1 : Memory.Heap) (lo m1 m2 a2 mid1 mid2 a : Nat) (type : CellType)
    (cdr fp ap : Memory.Ptr) (f rest : SEXP)
    (ha : h[a]? = some (.cell type (some a2) cdr))
    (ha2 : h[a2]? = some (.cell .LANGSXP fp ap))
    (g3 : m2 ≤ a2) (g4 : a2 < mid1) (h2 : mid1 ≤ mid2) (h3 : mid2 ≤ a)
    (hf : Memory.Owns h lo m1 fp f) (hcdr : Memory.Owns h mid1 mid2 cdr rest)
    (hout : Memory.Outside h h1 m1 m2) :
    h1[a]? = some (.cell type (some a2) cdr) ∧ h1[a2]? = some (.cell .LANGSXP fp ap) ∧
      Memory.Owns h1 lo m1 fp f ∧ Memory.Owns h1 mid1 mid2 cdr rest :=
  ⟨hout a _ ha (Or.inr (Or.inr (by omega))), hout a2 _ ha2 (Or.inr (Or.inr g3)),
    owns_outside f h h1 lo m1 m1 m2 fp hf hout (Or.inl (Nat.le_refl _)),
    owns_outside rest h h1 mid1 mid2 m1 m2 cdr hcdr hout (Or.inr (by omega))⟩

theorem owns_lang_cell (h : Memory.Heap) (lo hi mid1 mid2 m1 m2 a a2 : Nat) (type : CellType)
    (cdr fp ap : Memory.Ptr) (f args rest : SEXP)
    (ha : h[a]? = some (.cell type (some a2) cdr))
    (ha2 : h[a2]? = some (.cell .LANGSXP fp ap))
    (h1 : lo ≤ mid1) (h2 : mid1 ≤ mid2) (h3 : mid2 ≤ a) (h4 : a < hi)
    (g1 : lo ≤ m1) (g2 : m1 ≤ m2) (g3 : m2 ≤ a2) (g4 : a2 < mid1)
    (hf : Memory.Owns h lo m1 fp f) (hargs : Memory.Owns h m1 m2 ap args)
    (hcdr : Memory.Owns h mid1 mid2 cdr rest) :
    Memory.Owns h lo hi (some a) (.cell type (.cell .LANGSXP f args) rest) := by
  simp only [Memory.Owns]
  exact ⟨a, some a2, cdr, mid1, mid2, rfl, ha, h1, h2, h3, h4,
    ⟨a2, fp, ap, m1, m2, rfl, ha2, g1, g2, g3, g4, hf, hargs⟩, hcdr⟩

theorem typeof_not_call (obj : SEXP) (hobj : ∀ f args, obj ≠ .cell .LANGSXP f args) :
    TYPEOF obj ≠ .LANGSXP := by
  cases obj with
  | cell inner f args =>
    cases inner with
    | LANGSXP => exact absurd rfl (hobj f args)
    | LISTSXP => simp [TYPEOF]
  | _ => simp [TYPEOF]

theorem replace_refines (H : Host) (i : SlicingIndex) (t : SEXP) :
    ∀ (fuel : Nat) (h : Memory.Heap) (lo hi : Nat) (p : Memory.Ptr),
      Memory.Owns h lo hi p t → Memory.size t ≤ fuel →
      (Memory.replace H (some i) fuel h p).1 = (replace H (some i) t).1 ∧
      (Memory.replace H (some i) fuel h p).2.1 = (replace H (some i) t).2.map Prod.fst ∧
      Memory.Outside h (Memory.replace H (some i) fuel h p).2.2 lo hi ∧
      ∀ b q, (replace H (some i) t).2 = .returned (b, q) →
        Memory.Owns (Memory.replace H (some i) fuel h p).2.2 lo hi p q ∧
          Memory.size q ≤ Memory.size t := by
  induction t using replace.induct H (some i) with
  | case1 type f args rest res hres hidx => simp at hidx
  | case2 type f args rest res hres j hidx =>
    cases hidx
    intro fuel h lo hi p ho hs
    simp only [Memory.Owns] at ho
    obtain ⟨a, car, cdr, mid1, mid2, rfl, ha, h1, h2, h3, h4,
      ⟨a2, fp, ap, m1, m2, rfl, ha2, g1, g2, g3, g4, hf, hargs⟩, hcdr⟩ := ho
    simp only [Memory.size] at hs
    obtain ⟨n, rfl⟩ : ∃ n, fuel = n + 1 := ⟨fuel - 1, by omega⟩
    have hobj : Memory.Owns h lo mid1 (some a2) (.cell .LANGSXP f args) := by
      simp only [Memory.Owns]
      exact ⟨a2, fp, ap, m1, m2, rfl, ha2, g1, g2, g3, g4, hf, hargs⟩
    have htree := tree_represents _ h (some a2) n (owns_represents _ h lo mid1 _ hobj)
      (by simp only [Memory.size]; omega)
    rw [mem_replace_lang H i n h a a2 type cdr fp ap _ ha ha2 htree]
    simp only [replace, hres]
    cases hp : res.process i with
    | ok v =>
      have hset := setcar_vector h lo hi mid1 mid2 a type (some a2) cdr rest v ha hcdr
        h1 h2 h3 h4
      refine ⟨rfl, rfl, hset.1, ?_⟩
      intro b q hq
      simp only [Outcome.returned.injEq, Prod.mk.injEq] at hq
      obtain ⟨_, rfl⟩ := hq
      exact ⟨hset.2, by simp only [Memory.size]; omega⟩
    | error e =>
      refine ⟨rfl, rfl, outside_refl h lo hi, ?_⟩
      intro b q hq
      simp at hq
  | case3 f args rest hres t args1 hargs ih1 ih2 =>
    intro fuel h lo hi p ho hs
    simp only [Memory.Owns] at ho
    obtain ⟨a, car, cdr, mid1, mid2, rfl, ha, h1, h2, h3, h4,
      ⟨a2, fp, ap, m1, m2, rfl, ha2, g1, g2, g3, g4, hf, hargsO⟩, hcdr⟩ := ho
    simp only [Memory.size] at hs
    obtain ⟨n, rfl⟩ : ∃ n, fuel = n + 1 := ⟨fuel - 1, by omega⟩
    have hobj : Memory.Owns h lo mid1 (some a2) (.cell .LANGSXP f args) := by
      simp only [Memory.Owns]
      exact ⟨a2, fp, ap, m1, m2, rfl, ha2, g1, g2, g3, g4, hf, hargsO⟩
    have htree := tree_represents _ h (some a2) n (owns_represents _ h lo mid1 _ hobj)
      (by simp only [Memory.size]; omega)
    rw [mem_replace_lang H i n h a a2 .LISTSXP cdr fp ap _ ha ha2 htree]
    have IH1 := ih1 n h m1 m2 ap hargsO (by omega)
    rw [hargs] at IH1
    rcases hR : Memory.replace H (some i) n h ap with ⟨t1, r1, hp1⟩
    rw [hR] at IH1
    simp only [Outcome.map] at IH1
    obtain ⟨rfl, rfl, hout, hown⟩ := IH1
    obtain ⟨hown1, hsz1⟩ := hown false args1 rfl
    obtain ⟨ka, ka2, kf, kcdr⟩ := lang_frame h hp1 lo m1 m2 a2 mid1 mid2 a .LISTSXP cdr fp ap
      f rest ha ha2 g3 g4 h2 h3 hf hcdr hout
    have IH2 := ih2 n hp1 mid1 mid2 cdr kcdr (by omega)
    simp only [replace, hres, hargs, if_true, (mem_typeof_list hp1 a _ _ _ ka).2 rfl,
      mem_cdr hp1 a _ _ _ ka]
    obtain ⟨e1, e2, hout2, hown2⟩ := IH2
    refine ⟨by rw [e1], ?_, ?_, ?_⟩
    · rw [e2, outcome_map_fst]
    · exact outside_trans h hp1 _ lo hi (outside_mono h hp1 m1 m2 lo hi hout g1 (by omega))
        (outside_mono hp1 _ mid1 mid2 lo hi hout2 h1 (by omega))
    · intro b q hq
      cases hr : (replace H (some i) rest).2 with
      | returned x =>
        rw [hr] at hq
        simp only [Outcome.map, Outcome.returned.injEq, Prod.mk.injEq] at hq
        obtain ⟨_, rfl⟩ := hq
        obtain ⟨hown3, hsz3⟩ := hown2 x.1 x.2 (by rw [hr])
        exact ⟨owns_lang_cell _ lo hi mid1 mid2 m1 m2 a a2 .LISTSXP cdr fp ap f args1 x.2
          (hout2 a _ ka (Or.inr (Or.inr h3))) (hout2 a2 _ ka2 (Or.inr (Or.inl g4)))
          h1 h2 h3 h4 g1 g2 g3 g4
          (owns_outside f hp1 _ lo m1 mid1 mid2 fp kf hout2 (Or.inl (by omega)))
          (owns_outside args1 hp1 _ m1 m2 mid1 mid2 ap hown1 hout2 (Or.inl (by omega)))
          hown3, by simp only [Memory.size]; omega⟩
      | _ => rw [hr] at hq; simp [Outcome.map] at hq
  | case4 type f args rest hres t args1 hargs hty ih1 =>
    intro fuel h lo hi p ho hs
    simp only [Memory.Owns] at ho
    obtain ⟨a, car, cdr, mid1, mid2, rfl, ha, h1, h2, h3, h4,
      ⟨a2, fp, ap, m1, m2, rfl, ha2, g1, g2, g3, g4, hf, hargsO⟩, hcdr⟩ := ho
    simp only [Memory.size] at hs
    obtain ⟨n, rfl⟩ : ∃ n, fuel = n + 1 := ⟨fuel - 1, by omega⟩
    have hobj : Memory.Owns h lo mid1 (some a2) (.cell .LANGSXP f args) := by
      simp only [Memory.Owns]
      exact ⟨a2, fp, ap, m1, m2, rfl, ha2, g1, g2, g3, g4, hf, hargsO⟩
    have htree := tree_represents _ h (some a2) n (owns_represents _ h lo mid1 _ hobj)
      (by simp only [Memory.size]; omega)
    rw [mem_replace_lang H i n h a a2 type cdr fp ap _ ha ha2 htree]
    have IH1 := ih1 n h m1 m2 ap hargsO (by omega)
    rw [hargs] at IH1
    rcases hR : Memory.replace H (some i) n h ap with ⟨t1, r1, hp1⟩
    rw [hR] at IH1
    simp only [Outcome.map] at IH1
    obtain ⟨rfl, rfl, hout, hown⟩ := IH1
    obtain ⟨hown1, hsz1⟩ := hown false args1 rfl
    obtain ⟨ka, ka2, kf, kcdr⟩ := lang_frame h hp1 lo m1 m2 a2 mid1 mid2 a type cdr fp ap
      f rest ha ha2 g3 g4 h2 h3 hf hcdr hout
    have hnl : ¬ Memory.TYPEOF hp1 (some a) = .LISTSXP :=
      fun hc => hty ((mem_typeof_list hp1 a _ _ _ ka).1 hc)
    simp only [replace, hres, hargs, hty, hnl, if_false]
    refine ⟨trivial, rfl, outside_mono h hp1 m1 m2 lo hi hout g1 (by omega), ?_⟩
    intro b q hq
    simp only [Outcome.returned.injEq, Prod.mk.injEq] at hq
    obtain ⟨_, rfl⟩ := hq
    exact ⟨owns_lang_cell _ lo hi mid1 mid2 m1 m2 a a2 type cdr fp ap f args1 rest
      ka ka2 h1 h2 h3 h4 g1 g2 g3 g4 kf hown1 kcdr, by simp only [Memory.size]; omega⟩
  | case5 type f args rest hres t r hr hargs ih1 =>
    intro fuel h lo hi p ho hs
    simp only [Memory.Owns] at ho
    obtain ⟨a, car, cdr, mid1, mid2, rfl, ha, h1, h2, h3, h4,
      ⟨a2, fp, ap, m1, m2, rfl, ha2, g1, g2, g3, g4, hf, hargsO⟩, hcdr⟩ := ho
    simp only [Memory.size] at hs
    obtain ⟨n, rfl⟩ : ∃ n, fuel = n + 1 := ⟨fuel - 1, by omega⟩
    have hobj : Memory.Owns h lo mid1 (some a2) (.cell .LANGSXP f args) := by
      simp only [Memory.Owns]
      exact ⟨a2, fp, ap, m1, m2, rfl, ha2, g1, g2, g3, g4, hf, hargsO⟩
    have htree := tree_represents _ h (some a2) n (owns_represents _ h lo mid1 _ hobj)
      (by simp only [Memory.size]; omega)
    rw [mem_replace_lang H i n h a a2 type cdr fp ap _ ha ha2 htree]
    have IH1 := ih1 n h m1 m2 ap hargsO (by omega)
    rw [hargs] at IH1
    rcases hR : Memory.replace H (some i) n h ap with ⟨t1, r1, hp1⟩
    rw [hR] at IH1
    simp only at IH1
    obtain ⟨rfl, rfl, hout, hown⟩ := IH1
    obtain ⟨ka, ka2, kf, kcdr⟩ := lang_frame h hp1 lo m1 m2 a2 mid1 mid2 a type cdr fp ap
      f rest ha ha2 g3 g4 h2 h3 hf hcdr hout
    have hmono := outside_mono h hp1 m1 m2 lo hi hout g1 (by omega)
    cases r with
    | returned x =>
      obtain ⟨b, q⟩ := x
      cases b with
      | false => exact absurd rfl (hr q)
      | true =>
        obtain ⟨hown1, hsz1⟩ := hown true q rfl
        simp only [replace, hres, hargs, Outcome.map]
        refine ⟨trivial, trivial, hmono, ?_⟩
        intro b q1 hq
        simp only [Outcome.returned.injEq, Prod.mk.injEq] at hq
        obtain ⟨_, rfl⟩ := hq
        exact ⟨owns_lang_cell _ lo hi mid1 mid2 m1 m2 a a2 type cdr fp ap f q rest
          ka ka2 h1 h2 h3 h4 g1 g2 g3 g4 kf hown1 kcdr, by simp only [Memory.size]; omega⟩
    | thrown e =>
      simp only [replace, hres, hargs, Outcome.map]
      refine ⟨trivial, trivial, hmono, ?_⟩
      intro b q hq
      simp at hq
    | null_indices =>
      simp only [replace, hres, hargs, Outcome.map]
      refine ⟨trivial, trivial, hmono, ?_⟩
      intro b q hq
      simp at hq
    | unfinished =>
      simp only [replace, hres, hargs, Outcome.map]
      refine ⟨trivial, trivial, hmono, ?_⟩
      intro b q hq
      simp at hq
  | case6 obj rest hobj ih =>
    have he : replace H (some i) (.cell .LISTSXP obj rest) =
        ((replace H (some i) rest).1,
          (replace H (some i) rest).2.map (fun r => (r.1, .cell .LISTSXP obj r.2))) := by
      cases obj with
      | cell inner f args =>
        cases inner with
        | LANGSXP => exact absurd rfl (hobj f args)
        | LISTSXP => simp [replace]
      | _ => simp [replace]
    intro fuel h lo hi p ho hs
    rw [Memory.Owns] at ho
    obtain ⟨a, car, cdr, mid1, mid2, rfl, ha, h1, h2, h3, h4, hcar, hcdr⟩ := ho
    simp only [Memory.size] at hs
    obtain ⟨n, rfl⟩ : ∃ n, fuel = n + 1 := ⟨fuel - 1, by have := size_pos obj; omega⟩
    have hty : Memory.TYPEOF h car ≠ .LANGSXP := by
      rw [typeof_represents obj h car (owns_represents obj h lo mid1 car hcar)]
      exact typeof_not_call obj hobj
    rw [mem_replace_other H i n h a .LISTSXP car cdr ha hty, he]
    simp only [if_true]
    obtain ⟨e1, e2, hout2, hown2⟩ := ih n h mid1 mid2 cdr hcdr (by omega)
    refine ⟨e1, ?_, outside_mono h _ mid1 mid2 lo hi hout2 h1 (by omega), ?_⟩
    · rw [e2, outcome_map_fst]
    · intro b q hq
      cases hr : (replace H (some i) rest).2 with
      | returned x =>
        rw [hr] at hq
        simp only [Outcome.map, Outcome.returned.injEq, Prod.mk.injEq] at hq
        obtain ⟨_, rfl⟩ := hq
        obtain ⟨hown3, hsz3⟩ := hown2 x.1 x.2 (by rw [hr])
        refine ⟨?_, by simp only [Memory.size]; omega⟩
        rw [Memory.Owns]
        exact ⟨a, car, cdr, mid1, mid2, rfl, hout2 a _ ha (Or.inr (Or.inr h3)), h1, h2, h3, h4,
          owns_outside obj h _ lo mid1 mid1 mid2 car hcar hout2 (Or.inl (Nat.le_refl _)),
          hown3⟩
      | _ => rw [hr] at hq; simp [Outcome.map] at hq
  | case7 type obj rest hobj hty =>
    have he : replace H (some i) (.cell type obj rest) =
        ([], .returned (false, .cell type obj rest)) := by
      cases obj with
      | cell inner f args =>
        cases inner with
        | LANGSXP => exact absurd rfl (hobj f args)
        | LISTSXP => simp [replace, hty]
      | _ => simp [replace, hty]
    intro fuel h lo hi p ho hs
    have ho0 := ho
    rw [Memory.Owns] at ho
    obtain ⟨a, car, cdr, mid1, mid2, rfl, ha, h1, h2, h3, h4, hcar, hcdr⟩ := ho
    simp only [Memory.size] at hs
    obtain ⟨n, rfl⟩ : ∃ n, fuel = n + 1 := ⟨fuel - 1, by have := size_pos obj; omega⟩
    have hty1 : Memory.TYPEOF h car ≠ .LANGSXP := by
      rw [typeof_represents obj h car (owns_represents obj h lo mid1 car hcar)]
      exact typeof_not_call obj hobj
    rw [mem_replace_other H i n h a type car cdr ha hty1, he]
    simp only [hty, if_false]
    refine ⟨trivial, rfl, outside_refl h lo hi, ?_⟩
    intro b q hq
    simp only [Outcome.returned.injEq, Prod.mk.injEq] at hq
    obtain ⟨_, rfl⟩ := hq
    exact ⟨ho0, Nat.le_refl _⟩
  | case8 p h1 h2 =>
    have he : replace H (some i) p = ([], .returned (false, p)) := by
      cases p with
      | cell type obj rest => exact absurd rfl (h2 type obj rest)
      | _ => simp [replace]
    intro fuel h lo hi q ho hs
    obtain ⟨n, rfl⟩ : ∃ n, fuel = n + 1 := ⟨fuel - 1, by have := size_pos p; omega⟩
    have hq : ∀ type car cdr, Memory.node h q ≠ some (.cell type car cdr) := by
      intro type car cdr hc
      cases p with
      | cell type obj rest => exact absurd rfl (h2 type obj rest)
      | R_NilValue =>
        simp only [Memory.Owns] at ho
        subst ho
        simp [Memory.node] at hc
      | symbol name =>
        simp only [Memory.Owns] at ho
        rw [ho] at hc
        cases hc
      | vector v =>
        simp only [Memory.Owns] at ho
        rw [ho] at hc
        cases hc
    rw [mem_replace_atom H i n h q hq, he]
    refine ⟨rfl, rfl, outside_refl h lo hi, ?_⟩
    intro b q1 hq1
    simp only [Outcome.returned.injEq, Prod.mk.injEq] at hq1
    obtain ⟨_, rfl⟩ := hq1
    exact ⟨ho, Nat.le_refl _⟩

/-! ## `simplified`, the loop and `simplify` in memory -/

theorem simplified_refines (H : Host) (i : SlicingIndex) (fuel : Nat) (h : Memory.Heap)
    (lo hi : Nat) (p : Memory.Ptr) (t : SEXP)
    (ho : Memory.Owns h lo hi p t) (hs : Memory.size t ≤ fuel) :
    (Memory.simplified H (some i) fuel h p).1 = (simplified H (some i) t).1 ∧
    (Memory.simplified H (some i) fuel h p).2.1.map Prod.fst
      = (simplified H (some i) t).2.map Prod.fst ∧
    Memory.Outside h (Memory.simplified H (some i) fuel h p).2.2 lo hi ∧
    ∀ b q, (simplified H (some i) t).2 = .returned (b, q) →
      ∃ p1, (Memory.simplified H (some i) fuel h p).2.1 = .returned (b, p1) ∧
        Memory.Owns (Memory.simplified H (some i) fuel h p).2.2 lo hi p1 q ∧
          Memory.size q ≤ Memory.size t := by
  have hrep := owns_represents t h lo hi p ho
  have hty := typeof_represents t h p hrep
  have htree := tree_represents t h p fuel hrep hs
  by_cases hroot : TYPEOF t = .LANGSXP ∨ TYPEOF t = .SYMSXP
  · cases hh : H.get_handler t with
    | some res =>
      rw [simplified_handler H i t res hroot hh]
      unfold Memory.simplified
      simp only [hty, hroot, if_true, htree, hh]
      cases hp : res.process i with
      | ok v =>
        refine ⟨rfl, rfl, outside_append h _ lo hi, ?_⟩
        intro b q hq
        simp only [Outcome.returned.injEq, Prod.mk.injEq] at hq
        obtain ⟨rfl, rfl⟩ := hq
        refine ⟨some h.length, rfl, ?_, size_pos t⟩
        simp only [Memory.Owns, Memory.node]
        exact get_end h _
      | error e =>
        refine ⟨rfl, rfl, outside_refl h lo hi, ?_⟩
        intro b q hq
        simp at hq
    | none =>
      rcases typeof_cases t with ⟨f, args, rfl⟩ | ⟨name, rfl⟩ | hn
      · rw [simplified_call_full H (some i) f args hh]
        rw [Memory.Owns] at ho
        obtain ⟨a, fp, ap, mid1, mid2, rfl, ha, h1, h2, h3, h4, hf, hargs⟩ := ho
        simp only [Memory.size] at hs
        obtain ⟨e1, e2, hout, hown⟩ := replace_refines H i args fuel h mid1 mid2 ap hargs
          (by omega)
        have hty1 : Memory.TYPEOF h (some a) = .LANGSXP := (mem_typeof_lang h a _ _ _ ha).2 rfl
        unfold Memory.simplified
        simp only [hty1, true_or, if_true, htree, hh, mem_cdr h a _ _ _ ha]
        refine ⟨by rw [e1], ?_, outside_mono h _ mid1 mid2 lo hi hout h1 (by omega), ?_⟩
        · rw [e2, outcome_map_fst]
          cases (replace H (some i) args).2 <;> rfl
        · intro b q hq
          cases hr : (replace H (some i) args).2 with
          | returned x =>
            rw [hr] at hq
            simp only [Outcome.map, Outcome.returned.injEq, Prod.mk.injEq] at hq
            obtain ⟨rfl, rfl⟩ := hq
            obtain ⟨hown1, hsz1⟩ := hown x.1 x.2 (by rw [hr])
            refine ⟨some a, ?_, ?_, by simp only [Memory.size]; omega⟩
            · rw [e2, hr]
              rfl
            · rw [Memory.Owns]
              exact ⟨a, fp, ap, mid1, mid2, rfl, hout a _ ha (Or.inr (Or.inr h3)),
                h1, h2, h3, h4,
                owns_outside f h _ lo mid1 mid1 mid2 fp hf hout (Or.inl (Nat.le_refl _)),
                hown1⟩
          | _ => rw [hr] at hq; simp [Outcome.map] at hq
      · rw [simplified_symbol H _ name hh]
        unfold Memory.simplified
        simp only [hty, hroot, if_true, htree, hh, TYPEOF]
        refine ⟨rfl, rfl, outside_refl h lo hi, ?_⟩
        intro b q hq
        simp only [Outcome.returned.injEq, Prod.mk.injEq] at hq
        obtain ⟨rfl, rfl⟩ := hq
        exact ⟨p, rfl, ho, Nat.le_refl _⟩
      · exact absurd hroot hn
  · rw [simplified_literal H _ t hroot]
    unfold Memory.simplified
    simp only [hty, hroot, if_false]
    refine ⟨trivial, rfl, outside_refl h lo hi, ?_⟩
    intro b q hq
    simp only [Outcome.returned.injEq, Prod.mk.injEq] at hq
    obtain ⟨rfl, rfl⟩ := hq
    exact ⟨p, rfl, ho, Nat.le_refl _⟩

theorem loop_refines (H : Host) (i : SlicingIndex) (fuel : Nat) :
    ∀ (passes : Nat) (h : Memory.Heap) (lo hi : Nat) (p : Memory.Ptr) (t : SEXP),
      Memory.Owns h lo hi p t → Memory.size t ≤ fuel →
      (Memory.simplify_loop H (some i) fuel passes h p).1
        = (simplify_loop H (some i) passes t).1 ∧
      (Memory.simplify_loop H (some i) fuel passes h p).2.1.map (fun _ => ())
        = (simplify_loop H (some i) passes t).2.map (fun _ => ()) ∧
      Memory.Outside h (Memory.simplify_loop H (some i) fuel passes h p).2.2 lo hi ∧
      ∀ q, (simplify_loop H (some i) passes t).2 = .returned q →
        ∃ p1, (Memory.simplify_loop H (some i) fuel passes h p).2.1 = .returned p1 ∧
          Memory.Owns (Memory.simplify_loop H (some i) fuel passes h p).2.2 lo hi p1 q := by
  intro passes
  induction passes with
  | zero =>
    intro h lo hi p t ho hs
    simp only [Memory.simplify_loop, simplify_loop]
    refine ⟨trivial, rfl, outside_refl h lo hi, ?_⟩
    intro q hq
    simp at hq
  | succ n ih =>
    intro h lo hi p t ho hs
    obtain ⟨e1, e2, hout, hown⟩ := simplified_refines H i fuel h lo hi p t ho hs
    simp only [Memory.simplify_loop, simplify_loop]
    rcases hM : Memory.simplified H (some i) fuel h p with ⟨t1, r1, h1⟩
    rcases hV : simplified H (some i) t with ⟨t2, r2⟩
    rw [hM, hV] at e1 e2 hown
    rw [hM] at hout
    simp only at e1 e2 hout hown
    subst e1
    cases r2 with
    | returned x =>
      obtain ⟨b, q⟩ := x
      obtain ⟨p1, rfl, hown1, hsz⟩ := hown b q rfl
      cases b with
      | true =>
        obtain ⟨f1, f2, hout2, hown2⟩ := ih h1 lo hi p1 q hown1 (by omega)
        simp only
        refine ⟨by rw [f1], f2, outside_trans h h1 _ lo hi hout hout2, hown2⟩
      | false =>
        simp only
        refine ⟨trivial, rfl, hout, ?_⟩
        intro q1 hq1
        simp only [Outcome.returned.injEq] at hq1
        subst hq1
        exact ⟨p1, rfl, hown1⟩
    | thrown e =>
      cases r1 <;> simp [Outcome.map] at e2
      subst e2
      simp only
      refine ⟨trivial, rfl, hout, ?_⟩
      intro q hq
      simp at hq
    | null_indices =>
      cases r1 <;> simp [Outcome.map] at e2
      simp only
      refine ⟨trivial, rfl, hout, ?_⟩
      intro q hq
      simp at hq
    | unfinished =>
      cases r1 <;> simp [Outcome.map] at e2
      simp only
      refine ⟨trivial, rfl, hout, ?_⟩
      intro q hq
      simp at hq

theorem scan_count_size_aux (t : SEXP) :
    scan_count t ≤ Memory.size t ∧
      ∀ type f args, t = .cell type f args → scan_count args ≤ Memory.size args := by
  induction t with
  | cell type car cdr ih1 ih2 =>
    refine ⟨?_, ?_⟩
    · cases car with
      | cell inner f args =>
        have hargs := ih1.2 inner f args rfl
        cases inner with
        | LANGSXP =>
          simp only [scan_count, Memory.size]
          have := ih2.1
          split <;> omega
        | LISTSXP =>
          simp only [scan_count, Memory.size]
          have := ih2.1
          split <;> omega
      | _ =>
        simp only [scan_count, Memory.size]
        have := ih2.1
        split <;> omega
    · intro type1 f args he
      cases he
      exact ih2.1
  | _ => simp [scan_count]

theorem scan_count_size (t : SEXP) : scan_count t ≤ Memory.size t :=
  (scan_count_size_aux t).1

theorem rank_size (t : SEXP) : rank t ≤ Memory.size t := by
  cases t with
  | cell type f args =>
    cases type with
    | LANGSXP =>
      have := scan_count_size args
      simp only [rank, Memory.size]
      omega
    | LISTSXP => simp [rank]
  | _ => simp [rank, Memory.size]

theorem simplify_refines (H : Host) (fuel : Nat) (self : Memory.GroupedHybridCall)
    (idx : SlicingIndex) (h : Memory.Heap) (t : SEXP)
    (hr : Memory.Represents h self.original_call t) (hs : Memory.size t ≤ fuel) :
    (Memory.simplify H fuel self idx h).1
      = (GroupedHybridCall.simplify H fuel ⟨t, self.indices⟩ idx).1 ∧
    (Memory.simplify H fuel self idx h).2.1.map (fun _ => ())
      = (GroupedHybridCall.simplify H fuel ⟨t, self.indices⟩ idx).2.1.map (fun _ => ()) ∧
    (Memory.simplify H fuel self idx h).2.2.1.original_call = self.original_call ∧
    (Memory.simplify H fuel self idx h).2.2.1.indices
      = (GroupedHybridCall.simplify H fuel ⟨t, self.indices⟩ idx).2.2.indices ∧
    (∀ (a : Nat) (n : Memory.Node), h[a]? = some n →
      (Memory.simplify H fuel self idx h).2.2.2[a]? = some n) ∧
    ∀ q, (GroupedHybridCall.simplify H fuel ⟨t, self.indices⟩ idx).2.1 = .returned q →
      ∃ p, (Memory.simplify H fuel self idx h).2.1 = .returned p ∧
        Memory.Represents (Memory.simplify H fuel self idx h).2.2.2 p q := by
  obtain ⟨ext, c, hc, hown⟩ := clone_owns t h self.original_call fuel hr hs
  obtain ⟨e1, e2, hout, hres⟩ :=
    loop_refines H idx fuel fuel (h ++ ext) h.length (h ++ ext).length c t hown hs
  have hkeep : ∀ (a : Nat) (n : Memory.Node), h[a]? = some n →
      (Memory.simplify_loop H (some idx) fuel fuel (h ++ ext) c).2.2[a]? = some n :=
    fun a n hn => hout a n (get_append h ext a n hn) (Or.inr (Or.inl (get_lt h a n hn)))
  rw [simplify_eq]
  unfold Memory.simplify
  rw [hc]
  simp only
  rcases hM : Memory.simplify_loop H (some idx) fuel fuel (h ++ ext) c with ⟨t1, r1, h2⟩
  rcases hV : simplify_loop H (some idx) fuel t with ⟨t2, r2⟩
  rw [hM, hV] at e1 e2 hres
  rw [hM] at hkeep
  simp only at e1 e2 hres hkeep
  subst e1
  cases r2 with
  | returned q =>
    obtain ⟨p1, rfl, hown1⟩ := hres q rfl
    refine ⟨rfl, rfl, rfl, rfl, hkeep, ?_⟩
    intro q1 hq1
    simp only [Outcome.returned.injEq] at hq1
    subst hq1
    exact ⟨p1, rfl, owns_represents _ _ _ _ _ hown1⟩
  | thrown e =>
    cases r1 <;> simp [Outcome.map] at e2
    subst e2
    refine ⟨rfl, rfl, rfl, rfl, hkeep, ?_⟩
    intro q hq
    simp at hq
  | null_indices =>
    cases r1 <;> simp [Outcome.map] at e2
    refine ⟨rfl, rfl, rfl, rfl, hkeep, ?_⟩
    intro q hq
    simp at hq
  | unfinished =>
    cases r1 <;> simp [Outcome.map] at e2
    refine ⟨rfl, rfl, rfl, rfl, hkeep, ?_⟩
    intro q hq
    simp at hq

theorem simplify_value_finishes (H : Host) (fuel : Nat) (self : GroupedHybridCall)
    (idx : SlicingIndex) (hs : Memory.size self.original_call < fuel) :
    (self.simplify H fuel idx).2.1 ≠ .unfinished := by
  rw [simplify_eq]
  exact (loop_finishes H idx fuel self.original_call
    (Nat.lt_of_le_of_lt (rank_size _) hs)).1

theorem simplify_refines_back (H : Host) (fuel : Nat) (self : Memory.GroupedHybridCall)
    (idx : SlicingIndex) (h : Memory.Heap) (t : SEXP)
    (hr : Memory.Represents h self.original_call t) (hs : Memory.size t ≤ fuel)
    (p : Memory.Ptr) (hp : (Memory.simplify H fuel self idx h).2.1 = .returned p) :
    ∃ q, (GroupedHybridCall.simplify H fuel ⟨t, none⟩ idx).2.1 = .returned q ∧
      Memory.Represents (Memory.simplify H fuel self idx h).2.2.2 p q := by
  obtain ⟨_, e2, _, _, _, hres⟩ := simplify_refines H fuel self idx h t hr hs
  have hsame : GroupedHybridCall.simplify H fuel ⟨t, self.indices⟩ idx
      = GroupedHybridCall.simplify H fuel ⟨t, none⟩ idx := by
    rw [simplify_eq, simplify_eq]
  rw [hsame] at e2 hres
  rw [hp] at e2
  cases hv : (GroupedHybridCall.simplify H fuel ⟨t, none⟩ idx).2.1 with
  | returned q =>
    obtain ⟨p1, hp1, hrep⟩ := hres q hv
    rw [hp] at hp1
    cases hp1
    exact ⟨q, rfl, hrep⟩
  | _ => rw [hv] at e2; simp [Outcome.map] at e2

/-- C5 (non-mutation). The stored call is an object in memory, at the address
`self.original_call`, that reads as the value `t`. `simplify(idx)` clones it
and rewrites the clone by `SETCAR`: every object that was in memory before the
call is afterwards what it was, so the stored call still reads as `t`; the
run ends (with a bound above the size of the call), its calls out of the
header are those of the rewriting of `t`, and the call it returns reads as the
rewritten `t`. A later `simplify(idx2)` makes the calls and returns the result
of the rewriting of `t` under `idx2`: it starts from the unmodified original;
and with the same index, what the second call returns reads as the same value
as what the first returned. -/
theorem simplify_keeps_original (H : Host) (fuel : Nat) (self : Memory.GroupedHybridCall)
    (idx idx2 : SlicingIndex) (h : Memory.Heap) (t : SEXP)
    (hr : Memory.Represents h self.original_call t) (hs : Memory.size t < fuel) :
    (Memory.simplify H fuel self idx h).2.2.1.original_call = self.original_call ∧
    (∀ a, a < h.length → (Memory.simplify H fuel self idx h).2.2.2[a]? = h[a]?) ∧
    Memory.Represents (Memory.simplify H fuel self idx h).2.2.2 self.original_call t ∧
    (Memory.simplify H fuel self idx h).1
      = (GroupedHybridCall.simplify H fuel ⟨t, none⟩ idx).1 ∧
    (Memory.simplify H fuel self idx h).2.1 ≠ .unfinished ∧
    (∀ q, (GroupedHybridCall.simplify H fuel ⟨t, none⟩ idx).2.1 = .returned q →
      ∃ p, (Memory.simplify H fuel self idx h).2.1 = .returned p ∧
        Memory.Represents (Memory.simplify H fuel self idx h).2.2.2 p q) ∧
    (Memory.simplify H fuel (Memory.simplify H fuel self idx h).2.2.1 idx2
        (Memory.simplify H fuel self idx h).2.2.2).1
      = (GroupedHybridCall.simplify H fuel ⟨t, none⟩ idx2).1 ∧
    (∀ q, (GroupedHybridCall.simplify H fuel ⟨t, none⟩ idx2).2.1 = .returned q →
      ∃ p, (Memory.simplify H fuel (Memory.simplify H fuel self idx h).2.2.1 idx2
          (Memory.simplify H fuel self idx h).2.2.2).2.1 = .returned p ∧
        Memory.Represents (Memory.simplify H fuel (Memory.simplify H fuel self idx h).2.2.1
          idx2 (Memory.simplify H fuel self idx h).2.2.2).2.2.2 p q) ∧
    (idx2 = idx → ∀ p1 p2, (Memory.simplify H fuel self idx h).2.1 = .returned p1 →
      (Memory.simplify H fuel (Memory.simplify H fuel self idx h).2.2.1 idx2
        (Memory.simplify H fuel self idx h).2.2.2).2.1 = .returned p2 →
      ∃ q, Memory.Represents (Memory.simplify H fuel self idx h).2.2.2 p1 q ∧
        Memory.Represents (Memory.simplify H fuel (Memory.simplify H fuel self idx h).2.2.1
          idx2 (Memory.simplify H fuel self idx h).2.2.2).2.2.2 p2 q) := by
  obtain ⟨e1, e2, e3, e4, hkeep, hres⟩ :=
    simplify_refines H fuel self idx h t hr (Nat.le_of_lt hs)
  have hrep : Memory.Represents (Memory.simplify H fuel self idx h).2.2.2
      self.original_call t := represents_keep t h _ _ hr hkeep
  have hfin := simplify_value_finishes H fuel ⟨t, none⟩ idx hs
  have hrep1 : Memory.Represents (Memory.simplify H fuel self idx h).2.2.2
      (Memory.simplify H fuel self idx h).2.2.1.original_call t := by
    rw [e3]
    exact hrep
  obtain ⟨f1, _, _, _, _, fres⟩ :=
    simplify_refines H fuel (Memory.simplify H fuel self idx h).2.2.1 idx2
      (Memory.simplify H fuel self idx h).2.2.2 t hrep1 (Nat.le_of_lt hs)
  have hsame : ∀ (o : Option SlicingIndex) (j : SlicingIndex),
      GroupedHybridCall.simplify H fuel ⟨t, o⟩ j
        = GroupedHybridCall.simplify H fuel ⟨t, none⟩ j := by
    intro o j
    rw [simplify_eq, simplify_eq]
  rw [hsame] at f1 fres e1 e2 hres
  refine ⟨e3, ?_, hrep, e1, ?_, hres, f1, fres, ?_⟩
  · intro a ha
    rw [List.getElem?_eq_getElem ha]
    exact hkeep a _ (List.getElem?_eq_getElem ha)
  · intro hu
    rw [hu] at e2
    apply hfin
    cases hv : (GroupedHybridCall.simplify H fuel ⟨t, none⟩ idx).2.1 <;>
      rw [hv] at e2 <;> simp [Outcome.map] at e2
  · intro hi p1 p2 hp1 hp2
    subst hi
    obtain ⟨q1, hq1, hr1⟩ := simplify_refines_back H fuel self idx2 h t hr (Nat.le_of_lt hs)
      p1 hp1
    obtain ⟨q2, hq2, hr2⟩ := simplify_refines_back H fuel
      (Memory.simplify H fuel self idx2 h).2.2.1 idx2
      (Memory.simplify H fuel self idx2 h).2.2.2 t hrep1 (Nat.le_of_lt hs) p2 hp2
    rw [hq1] at hq2
    cases hq2
    exact ⟨q1, hr1, hr2⟩

/-- Witness of C5: `f(sum(x))` stored at the address 6. After `simplify` the
cell at the address 5, which holds the argument `sum(x)` of the stored call,
is what it was, and the stored call still reads as `f(sum(x))`. -/
theorem simplify_keeps_original_witness :
    Memory.Represents Memory.heap_f_sum_x (some 6) (mkCall (.symbol "f") [sum_x]) ∧
      Memory.size (mkCall (.symbol "f") [sum_x]) < 10 ∧
      (Memory.simplify sumHost 10 ⟨some 6, none⟩ rows012 Memory.heap_f_sum_x).2.2.2[5]?
        = some (.cell .LISTSXP (some 3) none) ∧
      Memory.Represents
        (Memory.simplify sumHost 10 ⟨some 6, none⟩ rows012 Memory.heap_f_sum_x).2.2.2
        (some 6) (mkCall (.symbol "f") [sum_x]) :=
  have hr : Memory.Represents Memory.heap_f_sum_x (some 6) (mkCall (.symbol "f") [sum_x]) :=
    ⟨6, some 4, some 5, rfl, rfl, rfl,
      ⟨5, some 3, none, rfl, rfl, ⟨3, some 0, some 2, rfl, rfl, rfl,
        ⟨2, some 1, none, rfl, rfl, rfl, rfl⟩⟩, rfl⟩⟩
  ⟨hr, by decide,
    ((simplify_keeps_original sumHost 10 ⟨some 6, none⟩ rows012 rows3 Memory.heap_f_sum_x
      (mkCall (.symbol "f") [sum_x]) hr (by decide)).2.1 5 (by decide)).trans (by rfl),
    (simplify_keeps_original sumHost 10 ⟨some 6, none⟩ rows012 rows3 Memory.heap_f_sum_x
      (mkCall (.symbol "f") [sum_x]) hr (by decide)).2.2.1⟩

/-- Without `clone` the rewriting reaches the stored call: run on
`f(sum(x))` at the address 6, the loop overwrites the cell at the address 5,
and the stored call reads as `f(6)` afterwards; with `clone`, the cell that is
overwritten is the copy at the address 9. -/
theorem in_place_overwrites_original :
    (Memory.simplify_in_place sumHost 10 ⟨some 6, none⟩ rows012 Memory.heap_f_sum_x).2.2.2[5]?
        = some (.cell .LISTSXP (some 7) none) ∧
      Memory.tree 10
        (Memory.simplify_in_place sumHost 10 ⟨some 6, none⟩ rows012 Memory.heap_f_sum_x).2.2.2
        (some 6) = some (mkCall (.symbol "f") [.vector [6]]) ∧
      (Memory.simplify sumHost 10 ⟨some 6, none⟩ rows012 Memory.heap_f_sum_x).2.1
        = .returned (some 10) ∧
      (Memory.simplify sumHost 10 ⟨some 6, none⟩ rows012 Memory.heap_f_sum_x).2.2.2[9]?
        = some (.cell .LISTSXP (some 11) none) ∧
      Memory.tree 10
        (Memory.simplify sumHost 10 ⟨some 6, none⟩ rows012 Memory.heap_f_sum_x).2.2.2
        (some 10) = some (mkCall (.symbol "f") [.vector [6]]) := by
  decide

end dplyr
